import Mathlib

/-!
Verification of the DPLL SAT solver in `satsolver.py`.

The Python data structures are shallowly embedded as follows.

* A Python `dict` is an insertion-ordered association list (`PyDict`):
  lookup returns the value of the unique entry with the key, assigning to
  an existing key updates its value in place, assigning a fresh key appends
  it at the end, `popitem()` removes the last entry, `del` removes an
  entry, and `{**a, **b}` folds the entries of `b` into `a` (so `b` wins
  on common keys).
* `Clause.variables : Dict[int, bool]` becomes `PyDict Nat Bool`.
* `Cnf.variables : Dict[int, (int, int)]` (negative and positive
  occurrence counters) becomes `PyDict Nat (Int × Int)`; the counters are
  integers because Python integers may be decremented below zero.
* The queues and assignment maps flowing through `propagate`/`dpll` can
  contain the Python value `None` both as key (`dynamic_largest` returns
  `(None, None)` on an empty index) and as value, so they are
  `PyDict (Option Nat) (Option Bool)` with `none` standing for `None`.
* `UnsatisfiedException` becomes the error value `PErr.unsat`; an uncaught
  `KeyError` from `self.variables[var]` becomes `PErr.keyError`.  A raise
  leaves the mutated formula behind in Python, so fallible operations also
  return the final `Cnf` state.
* The unbounded `while` loop of `propagate`, the loop of `unit_propagate`
  and the recursion of `dpll` are fueled: out of fuel yields `Option.none`.
* `list(set(clause_list))` in `Cnf.from_list` keeps every distinct clause
  object of the input (deduplication is by object identity) in an
  unspecified order; it is modelled as the identity permutation.
  `set(lst)` over integers in `Clause.from_list` is modelled as keeping
  the first occurrence of each value.
-/

namespace SatSolver

/-- Insertion-ordered association list modelling a Python `dict`. -/
abbrev PyDict (K V : Type) := List (K × V)

section PyDictOps

variable {K V : Type} [DecidableEq K]

/-- `d[k]` / `d.get(k)`: value of the first entry with key `k`. -/
def dget (d : PyDict K V) (k : K) : Option V :=
  match d with
  | [] => Option.none
  | (k', v) :: rest => if k' = k then some v else dget rest k

/-- `k in d`. -/
def dmem (d : PyDict K V) (k : K) : Bool :=
  (dget d k).isSome

/-- `d[k] = v`: update in place if present, else append at the end. -/
def dinsert (d : PyDict K V) (k : K) (v : V) : PyDict K V :=
  match d with
  | [] => [(k, v)]
  | (k', v') :: rest => if k' = k then (k, v) :: rest else (k', v') :: dinsert rest k v

/-- `del d[k]`. -/
def ddel (d : PyDict K V) (k : K) : PyDict K V :=
  match d with
  | [] => []
  | (k', v') :: rest => if k' = k then ddel rest k else (k', v') :: ddel rest k

/-- `d.popitem()`: the last entry together with the remaining dict. -/
def dpop (d : PyDict K V) : Option ((K × V) × PyDict K V) :=
  match d.getLast? with
  | Option.none => Option.none
  | some p => some (p, d.dropLast)

/-- `{**a, **b}`: entries of `b` folded into `a`, `b` winning on clashes. -/
def dmerge (a b : PyDict K V) : PyDict K V :=
  b.foldl (fun acc p => dinsert acc p.1 p.2) a

/-- The keys of a dict, in order. -/
def dkeys (d : PyDict K V) : List K :=
  d.map Prod.fst

end PyDictOps

/-- A clause: mapping from variable id to parity (`true` = unnegated). -/
structure Clause where
  variables' : PyDict Nat Bool
deriving DecidableEq, Repr

/-- `Clause.from_list`: `{abs(j): j > 0 for j in set(lst)}`. -/
def Clause.from_list (lst : List Int) : Clause :=
  ⟨lst.dedup.foldl (fun d j => dinsert d j.natAbs (decide (j > 0))) []⟩

/-- The occurrence index: variable id to (negative count, positive count). -/
abbrev Vars := PyDict Nat (Int × Int)

/-- Queue / assignment maps used by `propagate`, `dpll` and `solve`. -/
abbrev Assignment := PyDict (Option Nat) (Option Bool)

/-- A CNF formula: occurrence index plus list of live clauses. -/
structure Cnf where
  variables' : Vars
  clauses : List Clause
deriving DecidableEq, Repr

/-- One counter update `variables[var][par] += 1` of `Cnf.from_list`:
`KeyError` (`Option.none`) when the variable is not in `1..N`. -/
def countStep (vs : Vars) (p : Nat × Bool) : Option Vars :=
  match dget vs p.1 with
  | Option.none => Option.none
  | some (n, pos) =>
    some (if p.2 then dinsert vs p.1 (n, pos + 1) else dinsert vs p.1 (n + 1, pos))

/-- `Cnf.from_list`: builds the occurrence index by a scan over all
clauses; `variables[var][par] += 1` raises `KeyError` (modelled as
`Option.none`) when a clause mentions a variable outside `1..N`. -/
def Cnf.from_list (clause_list : List Clause) (N : Nat) : Option Cnf := do
  let init : Vars := (List.range N).map (fun i => (i + 1, ((0 : Int), (0 : Int))))
  let counts ← clause_list.foldlM (fun (vs : Vars) c => c.variables'.foldlM countStep vs) init
  some ⟨counts.filter (fun q => decide (q.2.1 ≠ 0) || decide (q.2.2 ≠ 0)), clause_list⟩

/-- Errors: `UnsatisfiedException`, and an uncaught `KeyError`. -/
inductive PErr where
  | unsat
  | keyError
deriving DecidableEq, Repr

/-- The inner loop of the satisfied-clause branch of `Cnf.propagate`
(lines 131-182): walk the literals of the satisfied clause, decrement the
occurrence counter of every variable other than the assumed one, delete
variables whose counters reach zero, enqueue variables that became pure,
and raise on a conflicting queued assumption.  Returns the partially
updated index and queue together with an error flag. -/
def propagateSat (av : Nat) (items : List (Nat × Bool)) (vars : Vars) (queue : Assignment) :
    Vars × Assignment × Option PErr :=
  match items with
  | [] => (vars, queue, Option.none)
  | (var, par) :: rest =>
    if var = av then propagateSat av rest vars queue
    else
      match dget vars var with
      | Option.none => (vars, queue, some PErr.keyError)
      | some (var_neg, var_pos) =>
        if par then
          let var_pos' := var_pos - 1
          if var_pos' = 0 then
            if var_neg = 0 then propagateSat av rest (ddel vars var) queue
            else
              match dget queue (some var) with
              | Option.none =>
                propagateSat av rest (dinsert vars var (var_neg, var_pos'))
                  (dinsert queue (some var) (some false))
              | some pair =>
                if pair = some true then (vars, queue, some PErr.unsat)
                else propagateSat av rest (dinsert vars var (var_neg, var_pos')) queue
          else propagateSat av rest (dinsert vars var (var_neg, var_pos')) queue
        else
          let var_neg' := var_neg - 1
          if var_neg' = 0 then
            if var_pos = 0 then propagateSat av rest (ddel vars var) queue
            else
              match dget queue (some var) with
              | Option.none =>
                propagateSat av rest (dinsert vars var (var_neg', var_pos))
                  (dinsert queue (some var) (some true))
              | some pair =>
                if pair = some false then (vars, queue, some PErr.unsat)
                else propagateSat av rest (dinsert vars var (var_neg', var_pos)) queue
          else propagateSat av rest (dinsert vars var (var_neg', var_pos)) queue

/-- Dispatch one clause in `Cnf.propagate` (lines 120-209): returns its
contribution to `new_clauses`, the clause as left in memory (literal
deletion mutates it in place), the updated index and queue, and an error
flag. -/
def processClause (av : Nat) (aval : Option Bool) (c : Clause) (vars : Vars)
    (queue : Assignment) : Option Clause × Clause × Vars × Assignment × Option PErr :=
  match dget c.variables' av with
  | Option.none => (some c, c, vars, queue, Option.none)
  | some cv =>
    if aval = some cv then
      let (vars', queue', err) := propagateSat av c.variables' vars queue
      (Option.none, c, vars', queue', err)
    else
      let c' : Clause := ⟨ddel c.variables' av⟩
      match c'.variables' with
      | [] => (Option.none, c', vars, queue, some PErr.unsat)
      | [(w, p)] =>
        match dget queue (some w) with
        | Option.none => (Option.none, c', vars, dinsert queue (some w) (some p), Option.none)
        | some pair =>
          if pair = some p then (Option.none, c', vars, queue, Option.none)
          else (Option.none, c', vars, queue, some PErr.unsat)
      | _ :: _ :: _ => (some c', c', vars, queue, Option.none)

/-- One pass of the `for clause in self.clauses` loop of `Cnf.propagate`:
returns `new_clauses`, the old clause list as left in memory at the point
the pass stopped, the updated index and queue, and an error flag. -/
def runPass (av : Nat) (aval : Option Bool) :
    List Clause → Vars → Assignment →
    List Clause × List Clause × Vars × Assignment × Option PErr
  | [], vars, queue => ([], [], vars, queue, Option.none)
  | c :: rest, vars, queue =>
    let (keep, cmut, vars1, queue1, err) := processClause av aval c vars queue
    match err with
    | some e => ([], cmut :: rest, vars1, queue1, some e)
    | Option.none =>
      let (new, mutated, vars2, queue2, err2) := runPass av aval rest vars1 queue1
      (keep.toList ++ new, cmut :: mutated, vars2, queue2, err2)

/-- The `while var_queue` loop of `Cnf.propagate` (lines 105-219), fueled.
Returns the result (`assumptions` or an error) together with the final
formula state; `Option.none` means the fuel ran out. -/
def propagateLoop : Nat → Vars → List Clause → Assignment → Assignment →
    Option (Except PErr Assignment × Cnf)
  | 0, _, _, _, _ => Option.none
  | fuel+1, vars, clauses, queue, assumptions =>
    match dpop queue with
    | Option.none => some (.ok assumptions, ⟨vars, clauses⟩)
    | some ((av, aval), queue') =>
      let assumptions' := dinsert assumptions av aval
      match av with
      | Option.none => propagateLoop fuel vars clauses queue' assumptions'
      | some v =>
        if dmem vars v then
          let vars0 := ddel vars v
          let (new, mutOld, vars1, queue1, err) := runPass v aval clauses vars0 queue'
          match err with
          | some e => some (.error e, ⟨vars1, mutOld⟩)
          | Option.none =>
            if new = [] then some (.ok (dmerge assumptions' queue1), ⟨vars1, []⟩)
            else propagateLoop fuel vars1 new queue1 assumptions'
        else propagateLoop fuel vars clauses queue' assumptions'

/-- `Cnf.propagate` (lines 99-219), fueled. -/
def Cnf.propagate (fuel : Nat) (F : Cnf) (var_queue : Assignment) :
    Option (Except PErr Assignment × Cnf) :=
  propagateLoop fuel F.variables' F.clauses var_queue []

/-- The scan of `unit_propagate` for the first zero- or one-literal clause:
`some Option.none` means an empty clause was found first, `some (some (v, p))`
a unit clause, `Option.none` that there is neither. -/
def findUnit : List Clause → Option (Option (Nat × Bool))
  | [] => Option.none
  | c :: rest =>
    match c.variables' with
    | [] => some Option.none
    | [(v, p)] => some (some (v, p))
    | _ :: _ :: _ => findUnit rest

/-- The `while True` loop of `Cnf.unit_propagate` (lines 72-97), fueled. -/
def unitPropagateLoop : Nat → Vars → List Clause → Assignment →
    Option (Except PErr Assignment × Cnf)
  | 0, _, _, _ => Option.none
  | fuel+1, vars, clauses, assigned =>
    if clauses = [] then some (.ok assigned, ⟨vars, clauses⟩)
    else
      match findUnit clauses with
      | some Option.none => some (.error PErr.unsat, ⟨vars, clauses⟩)
      | some (some (v, p)) =>
        match propagateLoop fuel vars clauses [(some v, some p)] [] with
        | Option.none => Option.none
        | some (.error e, F') => some (.error e, F')
        | some (.ok prop, F') =>
          unitPropagateLoop fuel F'.variables' F'.clauses (dmerge assigned prop)
      | Option.none => some (.ok assigned, ⟨vars, clauses⟩)

/-- `Cnf.unit_propagate` (lines 72-97), fueled. -/
def Cnf.unit_propagate (fuel : Nat) (F : Cnf) : Option (Except PErr Assignment × Cnf) :=
  unitPropagateLoop fuel F.variables' F.clauses []

/-- `Solver.dynamic_largest` (lines 297-307).  Note that `M` is never
updated in the source, so the comparison `pos + neg > M` is always
against zero. -/
def dynamic_largest (variables' : Vars) : Option Nat × Option Bool :=
  (variables'.foldl (fun (acc : Int × (Option Nat × Option Bool)) q =>
    if q.2.2 + q.2.1 > acc.1 then (acc.1, (some q.1, some (decide (q.2.2 > q.2.1))))
    else acc) ((0 : Int), (Option.none, Option.none))).2

/-- Python `not assume` for `assume` a `bool` or `None`. -/
def pyNot (assume : Option Bool) : Option Bool :=
  match assume with
  | Option.none => some true
  | some b => some (!b)

/-- `Solver.dpll` (lines 256-295), fueled: `rfuel` bounds the recursion
depth, `pfuel` is handed to each propagation loop.  Only
`UnsatisfiedException` is caught by the `try` block. -/
def dpll : Nat → Nat → Cnf → Option (Except PErr Assignment)
  | 0, _, _ => Option.none
  | rfuel+1, pfuel, F =>
    match Cnf.unit_propagate pfuel F with
    | Option.none => Option.none
    | some (.error e, _) => some (.error e)
    | some (.ok variables1, F1) =>
      let (var, assume) := dynamic_largest F1.variables'
      let second : Unit → Option (Except PErr Assignment) := fun _ =>
        match Cnf.propagate pfuel F1 [(var, pyNot assume)] with
        | Option.none => Option.none
        | some (.error e, _) => some (.error e)
        | some (.ok propagated, F3) =>
          if F3.clauses = [] then some (.ok (dmerge propagated variables1))
          else
            match dpll rfuel pfuel F3 with
            | Option.none => Option.none
            | some (.error e) => some (.error e)
            | some (.ok B) => some (.ok (dmerge variables1 (dmerge B propagated)))
      match Cnf.propagate pfuel F1 [(var, assume)] with
      | Option.none => Option.none
      | some (.error PErr.unsat, _) => second ()
      | some (.error PErr.keyError, _) => some (.error PErr.keyError)
      | some (.ok propagated, F2) =>
        if F2.clauses = [] then some (.ok (dmerge propagated variables1))
        else
          match dpll rfuel pfuel F2 with
          | Option.none => Option.none
          | some (.error PErr.unsat) => second ()
          | some (.error PErr.keyError) => some (.error PErr.keyError)
          | some (.ok B) => some (.ok (dmerge variables1 (dmerge B propagated)))

/-- Values appearing in the map returned by `Solver.solve`: booleans,
`None`, or the integer `1` of the UNSAT sentinel `{0: 1}`. -/
inductive PVal where
  | vb (x : Bool)
  | vnone
  | vint (n : Nat)
deriving DecidableEq, Repr

/-- The final result map of `Solver.solve`. -/
abbrev SolveResult := PyDict (Option Nat) PVal

/-- The UNSAT sentinel `{0: 1}`. -/
def sentinel : SolveResult := [(some 0, PVal.vint 1)]

/-- Reading an `Assignment` as a `SolveResult`. -/
def encode (a : Assignment) : SolveResult :=
  a.map (fun p => (p.1, match p.2 with
    | Option.none => PVal.vnone
    | some b => PVal.vb b))

/-- The pure-variable scan at the top of `Solver.solve` (lines 239-244). -/
def pureVariables (variables' : Vars) : Assignment :=
  variables'.foldl (fun q p =>
    if p.2.2 = 0 then dinsert q (some p.1) (some false)
    else if p.2.1 = 0 then dinsert q (some p.1) (some true)
    else q) []

/-- `Solver.solve` (lines 235-253), fueled: catches `UnsatisfiedException`
and converts it into the sentinel `{0: 1}`; a `KeyError` escapes. -/
def solve (rfuel pfuel : Nat) (F : Cnf) : Option (Except PErr SolveResult) :=
  let pure_variables := pureVariables F.variables'
  match Cnf.propagate pfuel F pure_variables with
  | Option.none => Option.none
  | some (.error PErr.unsat, _) => some (.ok sentinel)
  | some (.error PErr.keyError, _) => some (.error PErr.keyError)
  | some (.ok variables1, F1) =>
    match dpll rfuel pfuel F1 with
    | Option.none => Option.none
    | some (.error PErr.unsat) => some (.ok sentinel)
    | some (.error PErr.keyError) => some (.error PErr.keyError)
    | some (.ok D) => some (.ok (encode (dmerge D variables1)))

/-! ### Basic dictionary lemmas -/

section PyDictLemmas

variable {K V : Type} [DecidableEq K]

theorem dget_dinsert_self (d : PyDict K V) (k : K) (v : V) :
    dget (dinsert d k v) k = some v := by
  induction d with
  | nil => simp [dinsert, dget]
  | cons p rest ih =>
    by_cases h : p.1 = k
    · simp [dinsert, h, dget]
    · simp [dinsert, h, dget, ih]

theorem dget_dinsert_ne (d : PyDict K V) (k k' : K) (v : V) (h : k' ≠ k) :
    dget (dinsert d k v) k' = dget d k' := by
  have h' : ¬(k = k') := fun hh => h hh.symm
  induction d with
  | nil => simp [dinsert, dget, h']
  | cons p rest ih =>
    by_cases hp : p.1 = k
    · subst hp
      simp [dinsert, dget, h']
    · simp only [dinsert, if_neg hp, dget, ih]

theorem mem_ddel {d : PyDict K V} {k : K} {q : K × V} :
    q ∈ ddel d k ↔ q ∈ d ∧ q.1 ≠ k := by
  induction d with
  | nil => simp [ddel]
  | cons p rest ih =>
    by_cases hp : p.1 = k
    · rw [ddel, if_pos hp, ih]
      constructor
      · rintro ⟨h1, h2⟩
        exact ⟨List.mem_cons_of_mem _ h1, h2⟩
      · rintro ⟨h1, h2⟩
        rcases List.mem_cons.mp h1 with h1 | h1
        · exact absurd (h1 ▸ hp) h2
        · exact ⟨h1, h2⟩
    · rw [ddel, if_neg hp]
      constructor
      · intro h1
        rcases List.mem_cons.mp h1 with h1 | h1
        · exact ⟨List.mem_cons.mpr (Or.inl h1), h1 ▸ hp⟩
        · rcases ih.mp h1 with ⟨h2, h3⟩
          exact ⟨List.mem_cons_of_mem _ h2, h3⟩
      · rintro ⟨h1, h2⟩
        rcases List.mem_cons.mp h1 with h1 | h1
        · exact List.mem_cons.mpr (Or.inl h1)
        · exact List.mem_cons_of_mem _ (ih.mpr ⟨h1, h2⟩)

theorem dget_ddel_self (d : PyDict K V) (k : K) : dget (ddel d k) k = Option.none := by
  induction d with
  | nil => simp [ddel, dget]
  | cons p rest ih =>
    by_cases hp : p.1 = k
    · simp [ddel, hp, ih]
    · simp [ddel, hp, dget, ih]

theorem dget_ddel_ne (d : PyDict K V) (k k' : K) (h : k' ≠ k) :
    dget (ddel d k) k' = dget d k' := by
  induction d with
  | nil => simp [ddel]
  | cons p rest ih =>
    by_cases hp : p.1 = k
    · subst hp
      have h' : ¬(p.1 = k') := fun hh => h hh.symm
      simp [ddel, dget, h', ih]
    · simp only [ddel, if_neg hp, dget, ih]

theorem mem_dkeys_iff_dget {d : PyDict K V} {k : K} :
    k ∈ dkeys d ↔ (dget d k).isSome := by
  induction d with
  | nil => simp [dkeys, dget]
  | cons p rest ih =>
    by_cases hp : p.1 = k
    · simp [dkeys, dget, hp]
    · simp only [dkeys, List.map_cons, List.mem_cons, dget, if_neg hp]
      rw [dkeys] at ih
      simp only [ih]
      constructor
      · rintro (h1 | h1)
        · exact absurd h1.symm hp
        · exact h1
      · exact Or.inr

theorem dkeys_nil : dkeys ([] : PyDict K V) = [] := rfl

theorem dkeys_cons (p : K × V) (d : PyDict K V) : dkeys (p :: d) = p.1 :: dkeys d := rfl

theorem dget_eq_none_iff_not_mem {d : PyDict K V} {k : K} :
    dget d k = Option.none ↔ k ∉ dkeys d := by
  rw [mem_dkeys_iff_dget]
  cases dget d k <;> simp

theorem dmem_iff_mem_dkeys {d : PyDict K V} {k : K} :
    dmem d k = true ↔ k ∈ dkeys d := by
  rw [mem_dkeys_iff_dget, dmem]

theorem dget_eq_some_of_mem {d : PyDict K V} {k : K} {v : V}
    (hnd : (dkeys d).Nodup) (h : (k, v) ∈ d) : dget d k = some v := by
  induction d with
  | nil => simp at h
  | cons p rest ih =>
    rcases List.mem_cons.mp h with h1 | h1
    · rw [← h1]
      simp [dget]
    · have hmem : k ∈ dkeys rest := by
        rw [mem_dkeys_iff_dget, ih (List.nodup_cons.mp (by simpa [dkeys] using hnd)).2 h1]
        rfl
      have hk : p.1 ≠ k := by
        rintro rfl
        exact (List.nodup_cons.mp (by simpa [dkeys] using hnd)).1 hmem
      rw [dget, if_neg hk]
      exact ih (List.nodup_cons.mp (by simpa [dkeys] using hnd)).2 h1

theorem mem_of_dget_eq_some {d : PyDict K V} {k : K} {v : V}
    (h : dget d k = some v) : (k, v) ∈ d := by
  induction d with
  | nil => simp [dget] at h
  | cons p rest ih =>
    by_cases hp : p.1 = k
    · rw [dget, if_pos hp] at h
      cases h
      cases p
      simp_all
    · rw [dget, if_neg hp] at h
      exact List.mem_cons_of_mem _ (ih h)

theorem dpop_nil : dpop ([] : PyDict K V) = Option.none := rfl

theorem dpop_concat (d : PyDict K V) (p : K × V) :
    dpop (d ++ [p]) = some (p, d) := by
  simp [dpop, List.getLast?_append, List.dropLast_concat]

theorem dpop_eq_none_iff {d : PyDict K V} : dpop d = Option.none ↔ d = [] := by
  cases d with
  | nil => simp [dpop]
  | cons p rest =>
    simp only [dpop]
    rw [List.getLast?_eq_getLast _ (by simp)]
    simp

theorem dpop_eq_some {d : PyDict K V} {p : K × V} {d' : PyDict K V}
    (h : dpop d = some (p, d')) : d = d' ++ [p] := by
  rcases List.eq_nil_or_concat d with rfl | ⟨xs, x, rfl⟩
  · simp [dpop] at h
  · rw [List.concat_eq_append] at h ⊢
    rw [dpop_concat] at h
    cases h
    rfl

theorem dmerge_nil (a : PyDict K V) : dmerge a [] = a := rfl

theorem dmerge_cons (a : PyDict K V) (p : K × V) (b : PyDict K V) :
    dmerge a (p :: b) = dmerge (dinsert a p.1 p.2) b := rfl

theorem dget_dmerge_of_not_mem_right {a b : PyDict K V} {k : K}
    (h : dget b k = Option.none) : dget (dmerge a b) k = dget a k := by
  induction b generalizing a with
  | nil => rfl
  | cons p rest ih =>
    by_cases hp : p.1 = k
    · rw [dget, if_pos hp] at h
      cases h
    · rw [dget, if_neg hp] at h
      rw [dmerge_cons, ih h, dget_dinsert_ne _ _ _ _ (fun hh => hp hh.symm)]

theorem dget_dmerge_of_get_right {a b : PyDict K V} {k : K} {v : V}
    (hnd : (dkeys b).Nodup) (h : dget b k = some v) :
    dget (dmerge a b) k = some v := by
  induction b generalizing a with
  | nil => simp [dget] at h
  | cons p rest ih =>
    rw [dmerge_cons]
    by_cases hp : p.1 = k
    · rw [dget, if_pos hp] at h
      cases h
      subst hp
      have hnotin : p.1 ∉ dkeys rest :=
        (List.nodup_cons.mp (by simpa [dkeys] using hnd)).1
      rw [dget_dmerge_of_not_mem_right (dget_eq_none_iff_not_mem.mpr hnotin)]
      exact dget_dinsert_self a p.1 p.2
    · rw [dget, if_neg hp] at h
      exact ih (List.nodup_cons.mp (by simpa [dkeys] using hnd)).2 h

end PyDictLemmas

instance {e a : Type} [DecidableEq e] [DecidableEq a] : DecidableEq (Except e a) :=
  fun x y =>
  match x, y with
  | .ok u, .ok v => decidable_of_iff (u = v) (by simp)
  | .error u, .error v => decidable_of_iff (u = v) (by simp)
  | .ok _, .error _ => isFalse (by intro hh; cases hh)
  | .error _, .ok _ => isFalse (by intro hh; cases hh)

/-! ### Semantic notions: occurrence counts, the index invariant,
satisfaction of clauses by an assignment -/

/-- Number of live clauses containing variable `v` with parity `b`. -/
def countLit (cs : List Clause) (v : Nat) (b : Bool) : Int :=
  (cs.countP (fun c => decide (dget c.variables' v = some b)) : Int)

/-- The occurrence-index invariant of the specification: for every
variable present in the index its stored counters equal the true number
of live clauses containing it with each parity, and a variable absent
from the index appears in no live clause. -/
def CountsInv (F : Cnf) : Prop :=
  (∀ q ∈ F.variables',
      q.2.1 = countLit F.clauses q.1 false ∧ q.2.2 = countLit F.clauses q.1 true) ∧
  (∀ c ∈ F.clauses, ∀ k ∈ dkeys c.variables', dmem F.variables' k = true)

instance (F : Cnf) : Decidable (CountsInv F) := by
  unfold CountsInv
  exact inferInstance

/-- A total valuation `σ` agrees with every real-variable entry of an
assignment map. -/
def extendA (σ : Nat → Bool) (a : Assignment) : Prop :=
  ∀ w b, dget a (some w) = some (some b) → σ w = b

/-- `σ` satisfies a clause: some literal of the clause holds. -/
def satClause (σ : Nat → Bool) (c : Clause) : Prop :=
  ∃ w b, dget c.variables' w = some b ∧ σ w = b

/-- `σ` satisfies every clause of a list. -/
def satList (σ : Nat → Bool) (cs : List Clause) : Prop :=
  ∀ c ∈ cs, satClause σ c

/-! ### Small-step computation lemmas for the fueled loops -/

theorem dpop_singleton {K V : Type} [DecidableEq K] (p : K × V) :
    dpop [p] = some (p, []) :=
  dpop_concat [] p

theorem propagateLoop_empty_queue (fuel : Nat) (vars : Vars) (cs : List Clause)
    (A : Assignment) :
    propagateLoop (fuel + 1) vars cs [] A = some (.ok A, ⟨vars, cs⟩) := by
  simp [propagateLoop, dpop]

theorem propagateLoop_pop_none (fuel : Nat) (vars : Vars) (cs : List Clause)
    (g : Option Bool) (q A : Assignment) :
    propagateLoop (fuel + 1) vars cs (q ++ [(Option.none, g)]) A =
      propagateLoop fuel vars cs q (dinsert A Option.none g) := by
  rw [propagateLoop]
  rw [dpop_concat]

theorem propagateLoop_branch_empty (fuel : Nat) (vars : Vars) (w : Nat)
    (g : Option Bool) (A : Assignment) (hmem : dmem vars w = true) :
    propagateLoop (fuel + 1) vars [] [(some w, g)] A =
      some (.ok (dinsert A (some w) g), ⟨ddel vars w, []⟩) := by
  rw [propagateLoop, show ([(some w, g)] : Assignment) = [] ++ [(some w, g)] from rfl,
    dpop_concat]
  simp [hmem, runPass, dmerge_nil]

theorem dynamic_largest_cases (vs : Vars) :
    dynamic_largest vs = (Option.none, Option.none) ∨
      ∃ w b, dynamic_largest vs = (some w, some b) ∧ w ∈ dkeys vs := by
  have aux : ∀ (l : Vars) (acc : Int × (Option Nat × Option Bool)),
      (l.foldl (fun (acc : Int × (Option Nat × Option Bool)) q =>
        if q.2.2 + q.2.1 > acc.1 then (acc.1, (some q.1, some (decide (q.2.2 > q.2.1))))
        else acc) acc).2 = acc.2 ∨
      ∃ w b, (l.foldl (fun (acc : Int × (Option Nat × Option Bool)) q =>
        if q.2.2 + q.2.1 > acc.1 then (acc.1, (some q.1, some (decide (q.2.2 > q.2.1))))
        else acc) acc).2 = (some w, some b) ∧ w ∈ dkeys l := by
    intro l
    induction l with
    | nil => intro acc; exact Or.inl rfl
    | cons q rest ih =>
      intro acc
      rw [List.foldl_cons]
      rcases ih (if q.2.2 + q.2.1 > acc.1 then
          (acc.1, (some q.1, some (decide (q.2.2 > q.2.1)))) else acc) with h | ⟨w, b, h, hm⟩
      · rw [h]
        by_cases hc : q.2.2 + q.2.1 > acc.1
        · rw [if_pos hc]
          exact Or.inr ⟨q.1, _, rfl, by simp [dkeys]⟩
        · rw [if_neg hc]
          exact Or.inl rfl
      · refine Or.inr ⟨w, b, h, ?_⟩
        simp only [dkeys, List.map_cons, List.mem_cons]
        exact Or.inr (by simpa [dkeys] using hm)
  rcases aux vs ((0 : Int), (Option.none, Option.none)) with h | ⟨w, b, h, hm⟩
  · exact Or.inl h
  · exact Or.inr ⟨w, b, h, hm⟩

/-! ### Claim theorems, first batch -/

/-- C5: `Solver.dynamic_largest` does not return the variable with the
largest occurrence sum.  On the index `{1: (1, 3), 2: (1, 0)}` variable 1
has sum 4 and variable 2 has sum 1, yet the function returns variable 2
(with guessed value `false`), because the running maximum `M` is never
updated in the source.  This contradicts the claim (and the function's
own docstring). -/
theorem C5_dynamic_largest_bug :
    dynamic_largest [(1, ((1 : Int), (3 : Int))), (2, ((1 : Int), (0 : Int)))] =
      (some 2, some false) ∧
    ((1 : Int) + 3 > 1 + 0) :=
  ⟨rfl, by decide⟩

/-- C10: when a `dpll` call reaches the branching step with an empty
occurrence index, `dynamic_largest` returns `(None, None)`, the branch
propagates the queue `{None: None}`, and the map returned by
`Solver.solve` contains the extra entry `None ↦ None` alongside the real
assignments; in particular on input clauses `{1}`, `{-1, 2}` with
variable count 2, `solve` returns `{None: None, 2: True, 1: True}`. -/
theorem C10_none_entry :
    dynamic_largest [] = (Option.none, Option.none) ∧
    (∀ rfuel pfuel : Nat,
      dpll (rfuel + 1) (pfuel + 2) ⟨[], []⟩ =
        some (.ok [(Option.none, Option.none)])) ∧
    (Cnf.from_list [Clause.from_list [1], Clause.from_list [-1, 2]] 2).map
        (solve 10 20) =
      some (some (.ok [(Option.none, PVal.vnone), (some 2, PVal.vb true),
        (some 1, PVal.vb true)])) := by
  refine ⟨rfl, ?_, by decide⟩
  intro rfuel pfuel
  rw [dpll]
  have hup : Cnf.unit_propagate (pfuel + 2) (⟨[], []⟩ : Cnf) =
      some (.ok [], ⟨[], []⟩) := by
    rw [Cnf.unit_propagate, unitPropagateLoop]
    simp
  rw [hup]
  have hprop : Cnf.propagate (pfuel + 2) (⟨[], []⟩ : Cnf)
      [(Option.none, Option.none)] =
      some (.ok [(Option.none, Option.none)], ⟨[], []⟩) := by
    rw [Cnf.propagate, show ([((Option.none : Option Nat), (Option.none : Option Bool))]
        : Assignment) = [] ++ [(Option.none, Option.none)] from rfl,
      propagateLoop_pop_none, propagateLoop_empty_queue]
    rfl
  simp only [show dynamic_largest ([] : Vars) = (Option.none, Option.none) from rfl]
  rw [hprop]
  simp [dmerge_nil]

/-- C4 counterexample: on the formula with the single clause `{1}` and
variable count 1, `unit_propagate` empties the clause list and
accumulates `{1: True}`, but `dpll` does not return that map: it still
executes the branching step and returns `{None: None, 1: True}` with the
extra entry `None ↦ None`. -/
theorem C4_counterexample :
    Cnf.from_list [Clause.from_list [1]] 1 =
      some ⟨[(1, ((0 : Int), (1 : Int)))], [⟨[(1, true)]⟩]⟩ ∧
    Cnf.unit_propagate 5 ⟨[(1, ((0 : Int), (1 : Int)))], [⟨[(1, true)]⟩]⟩ =
      some (.ok [(some 1, some true)], ⟨[], []⟩) ∧
    dpll 5 5 ⟨[(1, ((0 : Int), (1 : Int)))], [⟨[(1, true)]⟩]⟩ =
      some (.ok [(Option.none, Option.none), (some 1, some true)]) ∧
    [((Option.none : Option Nat), (Option.none : Option Bool)), (some 1, some true)] ≠
      [((some 1 : Option Nat), (some true : Option Bool))] :=
  ⟨by decide, by decide, by decide, by decide⟩

/-- C4 amended: when `unit_propagate` leaves no live clauses, `dpll` does
not return just the accumulated assignment: it still runs the branching
step on the (possibly stale) occurrence index and returns the accumulated
assignment together with exactly one extra entry, the `dynamic_largest`
pick of the remaining index mapped to its guessed value — the entry
`None ↦ None` when the index is empty.  (The accumulated assignment wins
on a key clash.) -/
theorem C4_amended (rfuel pfuel : Nat) (F : Cnf) (A : Assignment) (vars1 : Vars)
    (hup : Cnf.unit_propagate pfuel F = some (.ok A, ⟨vars1, []⟩))
    (hfuel : 2 ≤ pfuel) :
    dpll (rfuel + 1) pfuel F =
      some (.ok (dmerge [((dynamic_largest vars1).1, (dynamic_largest vars1).2)] A)) := by
  obtain ⟨k, rfl⟩ : ∃ k, pfuel = k + 2 := ⟨pfuel - 2, by omega⟩
  rw [dpll, hup]
  rcases dynamic_largest_cases vars1 with hdl | ⟨w, b, hdl, hm⟩
  · have hprop : Cnf.propagate (k + 2) (⟨vars1, []⟩ : Cnf)
        [(Option.none, Option.none)] =
        some (.ok [(Option.none, Option.none)], ⟨vars1, []⟩) := by
      rw [Cnf.propagate, show ([((Option.none : Option Nat), (Option.none : Option Bool))]
          : Assignment) = [] ++ [(Option.none, Option.none)] from rfl,
        propagateLoop_pop_none, propagateLoop_empty_queue]
      rfl
    simp only [hdl]
    rw [hprop]
    simp
  · have hmem : dmem vars1 w = true := dmem_iff_mem_dkeys.mpr hm
    have hprop : Cnf.propagate (k + 2) (⟨vars1, []⟩ : Cnf) [(some w, some b)] =
        some (.ok [(some w, some b)], ⟨ddel vars1 w, []⟩) := by
      rw [Cnf.propagate, show (k + 2) = (k + 1) + 1 from rfl,
        propagateLoop_branch_empty _ _ _ _ _ hmem]
      rfl
    simp only [hdl]
    rw [hprop]
    simp

/-- C4 amended, witness: the amended statement applied to the concrete
formula `{1}` with one variable. -/
theorem C4_amended_witness :
    dpll 5 5 ⟨[(1, ((0 : Int), (1 : Int)))], [⟨[(1, true)]⟩]⟩ =
      some (.ok (dmerge [((dynamic_largest ([] : Vars)).1,
        (dynamic_largest ([] : Vars)).2)] [(some 1, some true)])) :=
  C4_amended 4 5 _ [(some 1, some true)] [] (by decide) (by decide)

/-- C3 counterexample: starting from the formula `(1 ∨ 2)` with its
correctly built index, the single call `propagate({1: False})` succeeds
via the early "already satisfied" exit, leaving variable 2 in the index
with stored counts `(0, 1)` although no live clause remains — the
invariant fails after a `propagate` call. -/
theorem C3_counterexample :
    Cnf.from_list [Clause.from_list [1, 2]] 2 =
      some ⟨[(1, ((0 : Int), (1 : Int))), (2, ((0 : Int), (1 : Int)))],
        [⟨[(1, true), (2, true)]⟩]⟩ ∧
    Cnf.propagate 5 ⟨[(1, ((0 : Int), (1 : Int))), (2, ((0 : Int), (1 : Int)))],
        [⟨[(1, true), (2, true)]⟩]⟩ [(some 1, some false)] =
      some (.ok [(some 1, some false), (some 2, some true)],
        ⟨[(2, ((0 : Int), (1 : Int)))], []⟩) ∧
    CountsInv ⟨[(1, ((0 : Int), (1 : Int))), (2, ((0 : Int), (1 : Int)))],
        [⟨[(1, true), (2, true)]⟩]⟩ ∧
    ¬ CountsInv ⟨[(2, ((0 : Int), (1 : Int)))], []⟩ :=
  ⟨by decide, by decide, by decide, by decide⟩

/-! ### The textual input adapter (`Solver.from_file`) -/

/-- Splitting a list of characters on whitespace runs, dropping empty
pieces — Python `line.split()`. -/
def splitWsAux : List Char → List Char → List (List Char)
  | [], acc => if acc.isEmpty then [] else [acc.reverse]
  | c :: rest, acc =>
    if c.isWhitespace then
      if acc.isEmpty then splitWsAux rest []
      else acc.reverse :: splitWsAux rest []
    else splitWsAux rest (c :: acc)

/-- Python `line.split()` on the characters of the line. -/
def splitWs (l : List Char) : List (List Char) := splitWsAux l []

/-- Python `s.strip()` on characters. -/
def trimWs (l : List Char) : List Char :=
  ((l.dropWhile Char.isWhitespace).reverse.dropWhile Char.isWhitespace).reverse

/-- Decimal value of a digit string. -/
def digitsVal (ds : List Char) : Nat :=
  ds.foldl (fun acc c => acc * 10 + (c.toNat - 48)) 0

/-- Python `int(s)`: strip whitespace, optional sign, then at least one
ASCII digit; anything else raises `ValueError` (`Option.none`). -/
def pyInt (s : List Char) : Option Int :=
  let t := trimWs s
  let sign : Int := if t.head? = some (Char.ofNat 45) then -1 else 1
  let digits :=
    if t.head? = some (Char.ofNat 45) || t.head? = some (Char.ofNat 43) then t.drop 1 else t
  if digits.isEmpty = false && digits.all Char.isDigit then
    some (sign * (digitsVal digits : Nat))
  else Option.none

/-- Python exceptions surfacing from `Solver.from_file`: `ValueError`
from `int()`, `IndexError` from `tmp[2]`, `KeyError` from
`Cnf.from_list`. -/
inductive PyExc where
  | valueError
  | indexError
  | keyError
deriving DecidableEq, Repr

/-- `Solver.from_file` (lines 309-326), applied to the list of input
lines (the file-system read itself is outside the model); lines are
processed through their character lists.  The declared variable count is
an `int` in Python; `Cnf.from_list` iterates `range(1, N + 1)`, which is
empty for a non-positive `N`, hence `Int.toNat`. -/
def Solver.from_file (lines : List String) : Except PyExc Cnf := do
  let acc ← lines.foldlM
    (fun (acc : List Clause × Int) line =>
      if line.data.head? = some (Char.ofNat 99) then pure acc
      else if line.data.head? = some (Char.ofNat 112) then
        match (splitWs line.data).get? 2 with
        | Option.none => throw PyExc.indexError
        | some tok =>
          match pyInt tok with
          | Option.none => throw PyExc.valueError
          | some n => pure (acc.1, n)
      else
        match (splitWs line.data).mapM pyInt with
        | Option.none => throw PyExc.valueError
        | some ints => pure (acc.1 ++ [Clause.from_list ints.dropLast], acc.2))
    ([], 0)
  match Cnf.from_list acc.1 acc.2.toNat with
  | Option.none => throw PyExc.keyError
  | some F => pure F

/-! ### Success characterisation of `Cnf.from_list` -/

theorem dkeys_dinsert_of_mem {K V : Type} [DecidableEq K] {d : PyDict K V} {k : K}
    (v : V) (h : k ∈ dkeys d) : dkeys (dinsert d k v) = dkeys d := by
  induction d with
  | nil => simp [dkeys] at h
  | cons p rest ih =>
    by_cases hp : p.1 = k
    · simp [dinsert, hp, dkeys]
    · rw [dkeys_cons] at h
      have h' : k ∈ dkeys rest := by
        rcases List.mem_cons.mp h with h1 | h1
        · exact absurd h1.symm hp
        · exact h1
      rw [dinsert, if_neg hp, dkeys_cons, dkeys_cons, ih h']

theorem countStep_keys {vs vs' : Vars} {p : Nat × Bool} (h : countStep vs p = some vs') :
    dkeys vs' = dkeys vs := by
  rw [countStep] at h
  rcases hg : dget vs p.1 with _ | ⟨n, pos⟩
  · rw [hg] at h
    cases h
  · rw [hg] at h
    have hmem : p.1 ∈ dkeys vs := by
      rw [mem_dkeys_iff_dget, hg]; rfl
    cases h
    split <;> exact dkeys_dinsert_of_mem _ hmem

theorem countStep_isSome_iff {vs : Vars} {p : Nat × Bool} :
    (countStep vs p).isSome ↔ p.1 ∈ dkeys vs := by
  rw [countStep, mem_dkeys_iff_dget]
  rcases dget vs p.1 with _ | ⟨n, pos⟩
  · simp
  · simp

theorem countFold_isSome_iff (items : List (Nat × Bool)) (vs : Vars) :
    (items.foldlM countStep vs).isSome ↔ ∀ p ∈ items, p.1 ∈ dkeys vs := by
  induction items generalizing vs with
  | nil => simp
  | cons p rest ih =>
    rw [List.foldlM_cons]
    rcases hs : countStep vs p with _ | vs1
    · simp only [hs, Option.bind_eq_bind, Option.none_bind]
      constructor
      · intro h
        simp at h
      · intro h
        have := countStep_isSome_iff.mpr (h p (List.mem_cons_self _ _))
        rw [hs] at this
        simp at this
    · have hk : dkeys vs1 = dkeys vs := countStep_keys hs
      simp only [hs, Option.bind_eq_bind, Option.some_bind]
      rw [ih vs1, hk]
      constructor
      · intro h q hq
        rcases List.mem_cons.mp hq with rfl | hq
        · have := countStep_isSome_iff.mp (by rw [hs]; rfl)
          exact this
        · exact h q hq
      · intro h q hq
        exact h q (List.mem_cons_of_mem _ hq)

theorem countFold_keys (items : List (Nat × Bool)) (vs vs' : Vars)
    (h : items.foldlM countStep vs = some vs') : dkeys vs' = dkeys vs := by
  induction items generalizing vs with
  | nil =>
    simp at h
    rw [h]
  | cons p rest ih =>
    rw [List.foldlM_cons] at h
    rcases hs : countStep vs p with _ | vs1
    · rw [hs] at h
      simp at h
    · rw [hs] at h
      rw [ih vs1 (by simpa using h), countStep_keys hs]

theorem clauseFold_isSome_iff (l : List Clause) (vs : Vars) :
    ((l.foldlM (fun (vs : Vars) (c : Clause) => c.variables'.foldlM countStep vs) vs).isSome ↔
      ∀ c ∈ l, ∀ k ∈ dkeys c.variables', k ∈ dkeys vs) := by
  induction l generalizing vs with
  | nil => simp
  | cons c rest ih =>
    rw [List.foldlM_cons]
    rcases hin : c.variables'.foldlM countStep vs with _ | vs1
    · simp only [hin, Option.bind_eq_bind, Option.none_bind]
      constructor
      · intro h
        simp at h
      · intro h
        have : (c.variables'.foldlM countStep vs).isSome := by
          rw [countFold_isSome_iff]
          intro p hp
          exact h c (List.mem_cons_self _ _) p.1 (by
            simp only [dkeys, List.mem_map]
            exact ⟨p, hp, rfl⟩)
        rw [hin] at this
        simp at this
    · have hk : dkeys vs1 = dkeys vs := countFold_keys _ _ _ hin
      have hcok : ∀ k ∈ dkeys c.variables', k ∈ dkeys vs := by
        have : (c.variables'.foldlM countStep vs).isSome := by rw [hin]; rfl
        rw [countFold_isSome_iff] at this
        intro k hk'
        simp only [dkeys, List.mem_map] at hk'
        rcases hk' with ⟨p, hp, rfl⟩
        exact this p hp
      simp only [hin, Option.bind_eq_bind, Option.some_bind]
      rw [ih vs1, hk]
      constructor
      · intro h q hq
        rcases List.mem_cons.mp hq with rfl | hq
        · exact hcok
        · exact h q hq
      · intro h q hq
        exact h q (List.mem_cons_of_mem _ hq)

theorem from_list_isSome_iff (cl : List Clause) (N : Nat) :
    (Cnf.from_list cl N).isSome ↔
      ∀ c ∈ cl, ∀ k ∈ dkeys c.variables', 1 ≤ k ∧ k ≤ N := by
  have hmeminit : ∀ k, k ∈ dkeys (((List.range N).map
      (fun i => (i + 1, ((0 : Int), (0 : Int))))) : Vars) ↔ 1 ≤ k ∧ k ≤ N := by
    intro k
    simp only [dkeys, List.map_map, List.mem_map, List.mem_range, Function.comp]
    constructor
    · rintro ⟨i, hi, rfl⟩
      omega
    · rintro ⟨h1, h2⟩
      exact ⟨k - 1, by omega, by omega⟩
  rw [Cnf.from_list]
  rcases hout : (cl.foldlM (fun (vs : Vars) (c : Clause) => c.variables'.foldlM countStep vs)
      ((((List.range N).map (fun i => (i + 1, ((0 : Int), (0 : Int)))))) : Vars))
    with _ | counts
  · simp only [hout, Option.bind_eq_bind, Option.none_bind]
    constructor
    · intro h
      simp at h
    · intro h
      have := (clauseFold_isSome_iff cl _).mpr
        (fun c hc k hk => (hmeminit k).mpr (h c hc k hk))
      rw [hout] at this
      simp at this
  · simp only [hout, Option.bind_eq_bind, Option.some_bind]
    constructor
    · intro _
      have := (clauseFold_isSome_iff cl _).mp (by rw [hout]; rfl)
      exact fun c hc k hk => (hmeminit k).mp (this c hc k hk)
    · intro _
      rfl

/-- C9 counterexample: the clause list `[{2}]` consists of nonzero
integers, yet `Cnf.from_list` with declared variable count 1 does not
succeed — the counter update `variables[var][par] += 1` raises
`KeyError` because variable 2 is outside `1..N`. -/
theorem C9_counterexample :
    (∀ j ∈ [(2 : Int)], j ≠ 0) ∧
    Cnf.from_list [Clause.from_list [2]] 1 = Option.none :=
  ⟨by decide, by decide⟩

/-- C9 amended: building a formula fails with `ParseError` (`ValueError`)
on non-integer tokens, but that is not the only error condition:
`Cnf.from_list` succeeds exactly when every variable of every clause lies
in `1..N`, and a clause variable beyond the declared count makes
construction fail with `KeyError` (a malformed problem line with fewer
than three tokens fails with `IndexError`); for clause lists within
`1..N` construction succeeds. -/
theorem C9_amended :
    (∀ (cl : List Clause) (N : Nat),
      (Cnf.from_list cl N).isSome ↔ ∀ c ∈ cl, ∀ k ∈ dkeys c.variables', 1 ≤ k ∧ k ≤ N) ∧
    Solver.from_file ["p cnf 2 2", "1 x 0"] = .error PyExc.valueError ∧
    Solver.from_file ["c comment", "p cnf 1 1", "2 0"] = .error PyExc.keyError ∧
    Solver.from_file ["p"] = .error PyExc.indexError ∧
    Solver.from_file ["p cnf 2 1", "1 -2 0"] =
      .ok ⟨[(1, ((0 : Int), (1 : Int))), (2, ((1 : Int), (0 : Int)))],
        [⟨[(1, true), (2, false)]⟩]⟩ := by
  refine ⟨from_list_isSome_iff, by decide, by decide, by decide, by decide⟩

/-! ### The pure-literal scan (C6) -/

/-- The pure-variable collection as the specification words it: every
variable whose count for one polarity is zero is collected, with forced
value `true` if the negative count is zero and `false` if the positive
count is zero, in one pass over the occurrence index. -/
def pureVariablesSpec (vs : Vars) : Assignment :=
  vs.filterMap (fun q =>
    if q.2.1 = 0 then some (some q.1, some true)
    else if q.2.2 = 0 then some (some q.1, some false)
    else Option.none)

theorem dinsert_append_of_not_mem {K V : Type} [DecidableEq K] {d : PyDict K V} {k : K}
    (v : V) (h : k ∉ dkeys d) : dinsert d k v = d ++ [(k, v)] := by
  induction d with
  | nil => rfl
  | cons p rest ih =>
    have hp : p.1 ≠ k := by
      intro hh
      exact h (by simp [dkeys, hh])
    rw [dinsert, if_neg hp, List.cons_append, ih (by
      intro hh
      exact h (by simp [dkeys]; exact Or.inr (by simpa [dkeys] using hh)))]

/-- C6: the pure-variable scan at the top of `Solver.solve` computes, in
a single pass over the occurrence index, exactly the set the
specification describes: variables with positive count zero forced to
`false`, otherwise variables with negative count zero forced to `true`
(the whole set is then handed to one `propagate` call in `solve`).
Stated for any index without a `(0, 0)` entry and without duplicate
keys, as produced by `Cnf.from_list`. -/
theorem dkeys_append {K V : Type} [DecidableEq K] (a b : PyDict K V) :
    dkeys (a ++ b) = dkeys a ++ dkeys b :=
  List.map_append _ _ _

theorem C6_pure_literal_scan (vs : Vars) (hnd : (dkeys vs).Nodup)
    (hz : ∀ q ∈ vs, ¬(q.2.1 = 0 ∧ q.2.2 = 0)) :
    pureVariables vs = pureVariablesSpec vs := by
  have haux : ∀ (l : Vars) (acc : Assignment),
      (∀ k ∈ dkeys l, (some k) ∉ dkeys acc) → (dkeys l).Nodup →
      (∀ q ∈ l, ¬(q.2.1 = 0 ∧ q.2.2 = 0)) →
      (l.foldl (fun q p =>
        if p.2.2 = 0 then dinsert q (some p.1) (some false)
        else if p.2.1 = 0 then dinsert q (some p.1) (some true)
        else q) acc) = acc ++ pureVariablesSpec l := by
    intro l
    induction l with
    | nil => intro acc _ _ _; simp [pureVariablesSpec]
    | cons q rest ih =>
      intro acc hdisj hnd' hz'
      have hq := hz' q (List.mem_cons_self _ _)
      have hqknotacc : (some q.1) ∉ dkeys acc :=
        hdisj q.1 (by rw [dkeys_cons]; exact List.mem_cons_self _ _)
      have hqknotrest : q.1 ∉ dkeys rest := by
        rw [dkeys_cons] at hnd'
        exact (List.nodup_cons.mp hnd').1
      have hndrest : (dkeys rest).Nodup := by
        rw [dkeys_cons] at hnd'
        exact (List.nodup_cons.mp hnd').2
      have hzrest : ∀ q' ∈ rest, ¬(q'.2.1 = 0 ∧ q'.2.2 = 0) :=
        fun q' hq' => hz' q' (List.mem_cons_of_mem _ hq')
      have hdisj1 : ∀ (v : Option Bool), ∀ k ∈ dkeys rest,
          (some k) ∉ dkeys (acc ++ [(some q.1, v)]) := by
        intro v k hk h1
        rw [dkeys_append, List.mem_append] at h1
        rcases h1 with h1 | h1
        · exact hdisj k (by rw [dkeys_cons]; exact List.mem_cons_of_mem _ hk) h1
        · rw [dkeys_cons, dkeys_nil, List.mem_singleton] at h1
          cases h1
          exact hqknotrest hk
      have hdisj0 : ∀ k ∈ dkeys rest, (some k) ∉ dkeys acc :=
        fun k hk => hdisj k (by rw [dkeys_cons]; exact List.mem_cons_of_mem _ hk)
      rw [List.foldl_cons]
      by_cases hp : q.2.2 = 0
      · have hn : ¬(q.2.1 = 0) := fun hh => hq ⟨hh, hp⟩
        rw [if_pos hp, dinsert_append_of_not_mem _ hqknotacc,
          ih (acc ++ [(some q.1, some false)]) (hdisj1 _) hndrest hzrest]
        simp [pureVariablesSpec, hp, hn]
      · rw [if_neg hp]
        by_cases hn : q.2.1 = 0
        · rw [if_pos hn, dinsert_append_of_not_mem _ hqknotacc,
            ih (acc ++ [(some q.1, some true)]) (hdisj1 _) hndrest hzrest]
          simp [pureVariablesSpec, hp, hn]
        · rw [if_neg hn, ih acc hdisj0 hndrest hzrest]
          simp [pureVariablesSpec, hp, hn]
  have := haux vs [] (by simp [dkeys]) hnd hz
  simpa [pureVariables] using this

/-- C6, witness: the scan and its specification agree on the concrete
index `{1: (1, 1), 2: (0, 1), 3: (2, 0)}`. -/
theorem C6_witness :
    pureVariables [(1, ((1 : Int), (1 : Int))), (2, ((0 : Int), (1 : Int))),
        (3, ((2 : Int), (0 : Int)))] =
      pureVariablesSpec [(1, ((1 : Int), (1 : Int))), (2, ((0 : Int), (1 : Int))),
        (3, ((2 : Int), (0 : Int)))] :=
  C6_pure_literal_scan _ (by decide) (by decide)

/-! ### Monotonic shrinkage (C7) -/

theorem length_ddel_le {K V : Type} [DecidableEq K] (d : PyDict K V) (k : K) :
    (ddel d k).length ≤ d.length := by
  induction d with
  | nil => simp [ddel]
  | cons p rest ih =>
    by_cases hp : p.1 = k
    · rw [ddel, if_pos hp]
      exact ih.trans (Nat.le_succ _)
    · rw [ddel, if_neg hp]
      simpa using ih

theorem length_dinsert_of_mem {K V : Type} [DecidableEq K] {d : PyDict K V} {k : K}
    (v : V) (h : (dget d k).isSome) : (dinsert d k v).length = d.length := by
  induction d with
  | nil => simp [dget] at h
  | cons p rest ih =>
    by_cases hp : p.1 = k
    · rw [dinsert, if_pos hp]
      rfl
    · rw [dget, if_neg hp] at h
      rw [dinsert, if_neg hp]
      simpa using ih h

theorem propagateSat_vars_length (av : Nat) (items : List (Nat × Bool)) :
    ∀ (vars : Vars) (queue : Assignment),
      (propagateSat av items vars queue).1.length ≤ vars.length := by
  induction items with
  | nil => intro vars queue; simp [propagateSat]
  | cons p rest ih =>
    intro vars queue
    rcases p with ⟨var, par⟩
    rw [propagateSat]
    by_cases h1 : var = av
    · rw [if_pos h1]
      exact ih vars queue
    · rw [if_neg h1]
      rcases hg : dget vars var with _ | ⟨var_neg, var_pos⟩
      · simp
      · have hsome : (dget vars var).isSome := by rw [hg]; rfl
        dsimp only
        by_cases hpar : par
        · rw [if_pos hpar]
          by_cases hz : var_pos - 1 = 0
          · rw [if_pos hz]
            by_cases hn : var_neg = 0
            · rw [if_pos hn]
              exact (ih _ _).trans (length_ddel_le _ _)
            · rw [if_neg hn]
              rcases dget queue (some var) with _ | pair
              · exact (ih _ _).trans (by rw [length_dinsert_of_mem _ hsome])
              · dsimp only
                by_cases hpair : pair = some true
                · rw [if_pos hpair]
                · rw [if_neg hpair]
                  exact (ih _ _).trans (by rw [length_dinsert_of_mem _ hsome])
          · rw [if_neg hz]
            exact (ih _ _).trans (by rw [length_dinsert_of_mem _ hsome])
        · rw [if_neg hpar]
          by_cases hz : var_neg - 1 = 0
          · rw [if_pos hz]
            by_cases hn : var_pos = 0
            · rw [if_pos hn]
              exact (ih _ _).trans (length_ddel_le _ _)
            · rw [if_neg hn]
              rcases dget queue (some var) with _ | pair
              · exact (ih _ _).trans (by rw [length_dinsert_of_mem _ hsome])
              · dsimp only
                by_cases hpair : pair = some false
                · rw [if_pos hpair]
                · rw [if_neg hpair]
                  exact (ih _ _).trans (by rw [length_dinsert_of_mem _ hsome])
          · rw [if_neg hz]
            exact (ih _ _).trans (by rw [length_dinsert_of_mem _ hsome])

theorem processClause_vars_length (av : Nat) (aval : Option Bool) (c : Clause)
    (vars : Vars) (queue : Assignment) :
    (processClause av aval c vars queue).2.2.1.length ≤ vars.length := by
  rw [processClause]
  rcases dget c.variables' av with _ | cv
  · exact le_refl _
  · dsimp only
    by_cases hv : aval = some cv
    · rw [if_pos hv]
      exact propagateSat_vars_length av c.variables' vars queue
    · rw [if_neg hv]
      rcases hdd : ddel c.variables' av with _ | ⟨⟨w, p⟩, rest⟩
      · exact le_refl _
      · rcases rest with _ | ⟨q2, rest2⟩
        · dsimp only
          rcases dget queue (some w) with _ | pair
          · exact le_refl _
          · dsimp only
            by_cases hpair : pair = some p
            · rw [if_pos hpair]
            · rw [if_neg hpair]
        · exact le_refl _

theorem processClause_keep_length (av : Nat) (aval : Option Bool) (c : Clause)
    (vars : Vars) (queue : Assignment) :
    (processClause av aval c vars queue).1.toList.length ≤ 1 := by
  rw [processClause]
  rcases dget c.variables' av with _ | cv
  · simp
  · dsimp only
    by_cases hv : aval = some cv
    · rw [if_pos hv]
      simp
    · rw [if_neg hv]
      rcases hdd : ddel c.variables' av with _ | ⟨⟨w, p⟩, rest⟩
      · simp
      · rcases rest with _ | ⟨q2, rest2⟩
        · dsimp only
          rcases dget queue (some w) with _ | pair
          · simp
          · dsimp only
            by_cases hpair : pair = some p
            · rw [if_pos hpair]
              simp
            · rw [if_neg hpair]
              simp
        · simp

theorem runPass_lengths (av : Nat) (aval : Option Bool) :
    ∀ (cs : List Clause) (vars : Vars) (queue : Assignment),
      (runPass av aval cs vars queue).1.length ≤ cs.length ∧
      (runPass av aval cs vars queue).2.1.length = cs.length ∧
      (runPass av aval cs vars queue).2.2.1.length ≤ vars.length := by
  intro cs
  induction cs with
  | nil => intro vars queue; simp [runPass]
  | cons c rest ih =>
    intro vars queue
    rw [runPass]
    rcases hpc : processClause av aval c vars queue with ⟨keep, cmut, vars1, queue1, err⟩
    have hv1 : vars1.length ≤ vars.length := by
      have := processClause_vars_length av aval c vars queue
      rw [hpc] at this
      exact this
    have hk1 : keep.toList.length ≤ 1 := by
      have := processClause_keep_length av aval c vars queue
      rw [hpc] at this
      exact this
    rcases err with _ | e
    · dsimp only
      rcases hrp : runPass av aval rest vars1 queue1 with ⟨new, mutated, vars2, queue2, err2⟩
      dsimp only
      have := ih vars1 queue1
      rw [hrp] at this
      dsimp only at this
      rcases this with ⟨h1, h2, h3⟩
      refine ⟨?_, ?_, h3.trans hv1⟩
      · simp only [List.length_append, List.length_cons]
        omega
      · simp only [List.length_cons]
        omega
    · dsimp only
      exact ⟨by simp, by simp, hv1⟩

theorem propagateLoop_lengths (fuel : Nat) :
    ∀ (vars : Vars) (cs : List Clause) (queue A : Assignment)
      (r : Except PErr Assignment) (F' : Cnf),
      propagateLoop fuel vars cs queue A = some (r, F') →
      F'.clauses.length ≤ cs.length ∧ F'.variables'.length ≤ vars.length := by
  induction fuel with
  | zero => intro vars cs queue A r F' h; simp [propagateLoop] at h
  | succ fuel ih =>
    intro vars cs queue A r F' h
    rw [propagateLoop] at h
    rcases hq : dpop queue with _ | ⟨⟨av, aval⟩, queue'⟩
    · rw [hq] at h
      cases h
      exact ⟨le_refl _, le_refl _⟩
    · rw [hq] at h
      rcases av with _ | v
      · exact ih _ _ _ _ _ _ h
      · dsimp only at h
        by_cases hm : dmem vars v
        · rw [if_pos hm] at h
          rcases hrp : runPass v aval cs (ddel vars v) queue' with
            ⟨new, mutOld, vars1, queue1, err⟩
          rw [hrp] at h
          have hlen := runPass_lengths v aval cs (ddel vars v) queue'
          rw [hrp] at hlen
          rcases hlen with ⟨hn, hmo, hv1⟩
          have hv1' : vars1.length ≤ vars.length := hv1.trans (length_ddel_le _ _)
          rcases err with _ | e
          · dsimp only at h
            by_cases hnew : new = []
            · rw [if_pos hnew] at h
              cases h
              exact ⟨by simp, hv1'⟩
            · rw [if_neg hnew] at h
              have := ih _ _ _ _ _ _ h
              exact ⟨this.1.trans hn, this.2.trans hv1'⟩
          · dsimp only at h
            cases h
            exact ⟨le_of_eq hmo, hv1'⟩
        · rw [if_neg hm] at h
          exact ih _ _ _ _ _ _ h

/-- C7: across any single `propagate` call that completes (whether it
returns normally or raises `UnsatisfiedException`), the number of live
clauses never increases and the number of variables in the occurrence
index never increases. -/
theorem C7_monotonic_shrinkage (fuel : Nat) (F : Cnf) (Q : Assignment)
    (r : Except PErr Assignment) (F' : Cnf)
    (h : Cnf.propagate fuel F Q = some (r, F')) :
    F'.clauses.length ≤ F.clauses.length ∧
    F'.variables'.length ≤ F.variables'.length :=
  propagateLoop_lengths fuel F.variables' F.clauses Q [] r F' h

/-- C7, witness: the shrinkage bound applied to a concrete raising call:
propagating `{1: True}` on the formula `{1}, {-1}` raises with one
(mutated) clause list of the original length and an emptied index. -/
theorem C7_witness :
    Cnf.propagate 5 ⟨[(1, ((1 : Int), (1 : Int)))], [⟨[(1, true)]⟩, ⟨[(1, false)]⟩]⟩
        [(some 1, some true)] =
      some (.error PErr.unsat, ⟨[], [⟨[(1, true)]⟩, ⟨[]⟩]⟩) ∧
    (2 : Nat) ≤ 2 ∧ (0 : Nat) ≤ 1 :=
  ⟨by decide,
   (C7_monotonic_shrinkage 5 ⟨[(1, ((1 : Int), (1 : Int)))],
      [⟨[(1, true)]⟩, ⟨[(1, false)]⟩]⟩ [(some 1, some true)]
      (.error PErr.unsat) ⟨[], [⟨[(1, true)]⟩, ⟨[]⟩]⟩ (by decide)).1,
   (C7_monotonic_shrinkage 5 ⟨[(1, ((1 : Int), (1 : Int)))],
      [⟨[(1, true)]⟩, ⟨[(1, false)]⟩]⟩ [(some 1, some true)]
      (.error PErr.unsat) ⟨[], [⟨[(1, true)]⟩, ⟨[]⟩]⟩ (by decide)).2⟩

/-! ### Further dictionary lemmas for the invariant development -/

section PyDictLemmas2

variable {K V : Type} [DecidableEq K]

theorem mem_dinsert_of_nodup {d : PyDict K V} {k : K} {v : V} {q : K × V}
    (hnd : (dkeys d).Nodup) (h : q ∈ dinsert d k v) :
    q = (k, v) ∨ (q ∈ d ∧ q.1 ≠ k) := by
  induction d with
  | nil =>
    rw [dinsert] at h
    rcases List.mem_singleton.mp h with rfl
    exact Or.inl rfl
  | cons p rest ih =>
    rw [dkeys_cons, List.nodup_cons] at hnd
    by_cases hp : p.1 = k
    · rw [dinsert, if_pos hp] at h
      rcases List.mem_cons.mp h with rfl | h1
      · exact Or.inl rfl
      · refine Or.inr ⟨List.mem_cons_of_mem _ h1, ?_⟩
        intro hq
        subst hp
        exact hnd.1 (by
          rw [← hq]
          exact List.mem_map.mpr ⟨q, h1, rfl⟩)
    · rw [dinsert, if_neg hp] at h
      rcases List.mem_cons.mp h with rfl | h1
      · exact Or.inr ⟨List.mem_cons_self _ _, hp⟩
      · rcases ih hnd.2 h1 with h2 | ⟨h2, h3⟩
        · exact Or.inl h2
        · exact Or.inr ⟨List.mem_cons_of_mem _ h2, h3⟩

theorem mem_dinsert_of_mem_ne {d : PyDict K V} {k : K} {v : V} {q : K × V}
    (h : q ∈ d) (hne : q.1 ≠ k) : q ∈ dinsert d k v := by
  induction d with
  | nil => simp at h
  | cons p rest ih =>
    by_cases hp : p.1 = k
    · rw [dinsert, if_pos hp]
      rcases List.mem_cons.mp h with rfl | h1
      · exact absurd hp hne
      · exact List.mem_cons_of_mem _ h1
    · rw [dinsert, if_neg hp]
      rcases List.mem_cons.mp h with rfl | h1
      · exact List.mem_cons_self _ _
      · exact List.mem_cons_of_mem _ (ih h1)

theorem self_mem_dinsert (d : PyDict K V) (k : K) (v : V) : (k, v) ∈ dinsert d k v := by
  induction d with
  | nil => exact List.mem_singleton.mpr rfl
  | cons p rest ih =>
    by_cases hp : p.1 = k
    · rw [dinsert, if_pos hp]
      exact List.mem_cons_self _ _
    · rw [dinsert, if_neg hp]
      exact List.mem_cons_of_mem _ ih

theorem nodup_dkeys_dinsert {d : PyDict K V} {k : K} (v : V)
    (hnd : (dkeys d).Nodup) : (dkeys (dinsert d k v)).Nodup := by
  by_cases hm : k ∈ dkeys d
  · rw [dkeys_dinsert_of_mem v hm]
    exact hnd
  · rw [dinsert_append_of_not_mem v hm, dkeys_append]
    rw [List.nodup_append]
    exact ⟨hnd, by simp [dkeys], by
      intro a ha hb
      rw [dkeys_cons, dkeys_nil, List.mem_singleton] at hb
      subst hb
      exact hm ha⟩

theorem nodup_dkeys_ddel {d : PyDict K V} (k : K)
    (hnd : (dkeys d).Nodup) : (dkeys (ddel d k)).Nodup := by
  induction d with
  | nil => simp [ddel, dkeys]
  | cons p rest ih =>
    rw [dkeys_cons, List.nodup_cons] at hnd
    by_cases hp : p.1 = k
    · rw [ddel, if_pos hp]
      exact ih hnd.2
    · rw [ddel, if_neg hp, dkeys_cons, List.nodup_cons]
      refine ⟨?_, ih hnd.2⟩
      intro hmem
      rw [show dkeys (ddel rest k) = List.map Prod.fst (ddel rest k) from rfl,
        List.mem_map] at hmem
      rcases hmem with ⟨q, hq, hq1⟩
      exact hnd.1 (List.mem_map.mpr ⟨q, mem_ddel.mp hq |>.1, hq1⟩)

theorem dkeys_ddel_subset (d : PyDict K V) (k : K) : dkeys (ddel d k) ⊆ dkeys d := by
  intro a ha
  rw [show dkeys (ddel d k) = List.map Prod.fst (ddel d k) from rfl, List.mem_map] at ha
  rcases ha with ⟨q, hq, rfl⟩
  exact List.mem_map.mpr ⟨q, (mem_ddel.mp hq).1, rfl⟩

theorem dkeys_dinsert_subset (d : PyDict K V) (k : K) (v : V) :
    dkeys (dinsert d k v) ⊆ k :: dkeys d := by
  intro a ha
  by_cases hm : k ∈ dkeys d
  · rw [dkeys_dinsert_of_mem v hm] at ha
    exact List.mem_cons_of_mem _ ha
  · rw [dinsert_append_of_not_mem v hm, dkeys_append] at ha
    rcases List.mem_append.mp ha with h1 | h1
    · exact List.mem_cons_of_mem _ h1
    · rw [dkeys_cons, dkeys_nil, List.mem_singleton] at h1
      exact h1 ▸ List.mem_cons_self _ _

theorem dget_dinsert_eq_none {d : PyDict K V} {k k' : K} {v : V}
    (h : dget (dinsert d k v) k' = Option.none) : dget d k' = Option.none ∧ k' ≠ k := by
  by_cases hk : k' = k
  · subst hk
    rw [dget_dinsert_self] at h
    cases h
  · rw [dget_dinsert_ne _ _ _ _ hk] at h
    exact ⟨h, hk⟩

end PyDictLemmas2

/-! ### Occurrence-count lemmas -/

theorem countLit_nil (k : Nat) (b : Bool) : countLit [] k b = 0 := rfl

theorem countLit_nonneg (cs : List Clause) (k : Nat) (b : Bool) : 0 ≤ countLit cs k b := by
  rw [countLit]
  exact_mod_cast Nat.zero_le _

theorem countLit_cons (c : Clause) (cs : List Clause) (k : Nat) (b : Bool) :
    countLit (c :: cs) k b =
      (if dget c.variables' k = some b then 1 else 0) + countLit cs k b := by
  rw [countLit, countLit, List.countP_cons]
  by_cases h : dget c.variables' k = some b
  · simp [h, Int.add_comm]
  · simp [h]

theorem countLit_append (cs ds : List Clause) (k : Nat) (b : Bool) :
    countLit (cs ++ ds) k b = countLit cs k b + countLit ds k b := by
  rw [countLit, countLit, countLit, List.countP_append]
  push_cast
  ring

theorem countLit_eq_zero_notmem {cs : List Clause} {k : Nat}
    (hf : countLit cs k false = 0) (ht : countLit cs k true = 0) :
    ∀ c ∈ cs, k ∉ dkeys c.variables' := by
  intro c hc hk
  rcases hb : dget c.variables' k with _ | b
  · rw [mem_dkeys_iff_dget, hb] at hk
    simp at hk
  · have h1 : (1 : Int) ≤ countLit cs k b := by
      rw [countLit]
      have : 0 < cs.countP (fun c => decide (dget c.variables' k = some b)) :=
        List.countP_pos.mpr ⟨c, hc, by simp [hb]⟩
      exact_mod_cast this
    cases b
    · omega
    · omega

theorem countLit_one_le {cs : List Clause} {c : Clause} {k : Nat} {b : Bool}
    (hc : c ∈ cs) (hb : dget c.variables' k = some b) : 1 ≤ countLit cs k b := by
  rw [countLit]
  have : 0 < cs.countP (fun c => decide (dget c.variables' k = some b)) :=
    List.countP_pos.mpr ⟨c, hc, by simp [hb]⟩
  exact_mod_cast this

/-- The pending-decrement indicator of the satisfied-clause walk: `1` while
the literal `(k, b)` still sits in the unprocessed suffix of the clause
items, `0` afterwards. -/
def ex (its : List (Nat × Bool)) (k : Nat) (b : Bool) : Int :=
  if (k, b) ∈ its then 1 else 0

theorem ex_nil (k : Nat) (b : Bool) : ex [] k b = 0 := rfl

theorem ex_nonneg (its : List (Nat × Bool)) (k : Nat) (b : Bool) : 0 ≤ ex its k b := by
  rw [ex]
  split <;> omega

theorem ex_cons_ne {its : List (Nat × Bool)} {p : Nat × Bool} {k : Nat} {b : Bool}
    (h : k ≠ p.1) : ex (p :: its) k b = ex its k b := by
  rw [ex, ex]
  have : (k, b) ∈ p :: its ↔ (k, b) ∈ its := by
    rw [List.mem_cons]
    constructor
    · rintro (h1 | h1)
      · exact absurd (congrArg Prod.fst h1) h
      · exact h1
    · exact Or.inr
  rw [if_congr this rfl rfl]

theorem ex_head {its : List (Nat × Bool)} {k : Nat} {b : Bool} :
    ex ((k, b) :: its) k b = 1 := by
  rw [ex, if_pos (List.mem_cons_self _ _)]

theorem ex_eq_zero_of_not_key {its : List (Nat × Bool)} {k : Nat} (b : Bool)
    (h : k ∉ its.map Prod.fst) : ex its k b = 0 := by
  rw [ex, if_neg]
  intro hmem
  exact h (List.mem_map.mpr ⟨(k, b), hmem, rfl⟩)

theorem ex_cons_other_parity {its : List (Nat × Bool)} {k : Nat} {b : Bool}
    (hnd : ((⟨k, b⟩ :: its).map Prod.fst).Nodup) :
    ex ((k, b) :: its) k (!b) = ex its k (!b) := by
  rw [ex, ex]
  have : ((k, !b) ∈ (k, b) :: its) ↔ ((k, !b) ∈ its) := by
    rw [List.mem_cons]
    constructor
    · rintro (h1 | h1)
      · cases b <;> simp at h1
      · exact h1
    · exact Or.inr
  rw [if_congr this rfl rfl]

theorem dmem_dinsert_self {K V : Type} [DecidableEq K] (d : PyDict K V) (k : K) (v : V) :
    dmem (dinsert d k v) k = true := by
  rw [dmem, dget_dinsert_self]
  rfl

theorem dmem_dinsert_of_dmem {K V : Type} [DecidableEq K] {d : PyDict K V} {k' : K}
    (k : K) (v : V) (h : dmem d k' = true) : dmem (dinsert d k v) k' = true := by
  by_cases hk : k' = k
  · subst hk
    exact dmem_dinsert_self d k' v
  · rw [dmem, dget_dinsert_ne _ _ _ _ hk]
    exact h

theorem dmem_ddel_of_ne {K V : Type} [DecidableEq K] {d : PyDict K V} {k' : K}
    (k : K) (h : dmem d k' = true) (hne : k' ≠ k) : dmem (ddel d k) k' = true := by
  rw [dmem, dget_ddel_ne _ _ _ hne]
  exact h

/-! ### The invariant of the satisfied-clause walk -/

/-- Invariant relating the occurrence index and the queue to the
effective live clauses `eff` during `propagate`.  `v` is the variable
being assumed (already deleted from the index), `its` the still
unprocessed items of the satisfied clause being consumed (each pending
item means one not-yet-applied counter decrement, the `ex` term). -/
structure SatInv (v : Nat) (eff : List Clause) (its : List (Nat × Bool))
    (vars : Vars) (queue : Assignment) : Prop where
  nodup : (dkeys vars).Nodup
  nev : ∀ q ∈ vars, q.1 ≠ v
  boundN : ∀ q ∈ vars, countLit eff q.1 false + ex its q.1 false ≤ q.2.1
  boundP : ∀ q ∈ vars, countLit eff q.1 true + ex its q.1 true ≤ q.2.2
  exactN : ∀ q ∈ vars, dget queue (some q.1) = Option.none →
    q.2.1 = countLit eff q.1 false + ex its q.1 false
  exactP : ∀ q ∈ vars, dget queue (some q.1) = Option.none →
    q.2.2 = countLit eff q.1 true + ex its q.1 true
  pos : ∀ q ∈ vars, 0 < q.2.1 + q.2.2
  covers : ∀ c ∈ eff, ∀ k ∈ dkeys c.variables', k ≠ v → dmem vars k = true

theorem propagateSat_master (av : Nat) (eff : List Clause) :
    ∀ (its : List (Nat × Bool)) (vars : Vars) (queue : Assignment)
      (vars' : Vars) (queue' : Assignment),
      propagateSat av its vars queue = (vars', queue', Option.none) →
      SatInv av eff its vars queue →
      (its.map Prod.fst).Nodup →
      SatInv av eff [] vars' queue' ∧
      (∀ k val, dget queue k = some val → dget queue' k = some val) ∧
      (∀ k ∈ dkeys queue', k ∈ dkeys queue ∨
        ∃ w, k = some w ∧ w ∈ its.map Prod.fst ∧ w ≠ av) ∧
      ((dkeys queue).Nodup → (dkeys queue').Nodup) ∧
      dkeys vars' ⊆ dkeys vars := by
  intro its
  induction its with
  | nil =>
    intro vars queue vars' queue' h inv hnd
    rw [propagateSat] at h
    cases h
    exact ⟨inv, fun k val hv => hv, fun k hk => Or.inl hk, fun hq => hq, fun a ha => ha⟩
  | cons it rest ih =>
    intro vars queue vars' queue' h inv hnd
    rcases it with ⟨var, par⟩
    rw [propagateSat] at h
    rw [List.map_cons, List.nodup_cons] at hnd
    by_cases h1 : var = av
    · rw [if_pos h1] at h
      have hnev' : ∀ q ∈ vars, q.1 ≠ var := by
        intro q hq
        rw [h1]
        exact inv.nev q hq
      have inv' : SatInv av eff rest vars queue :=
        { nodup := inv.nodup
          nev := inv.nev
          boundN := fun q hq => by
            have := inv.boundN q hq
            rwa [ex_cons_ne (hnev' q hq)] at this
          boundP := fun q hq => by
            have := inv.boundP q hq
            rwa [ex_cons_ne (hnev' q hq)] at this
          exactN := fun q hq hu => by
            have := inv.exactN q hq hu
            rwa [ex_cons_ne (hnev' q hq)] at this
          exactP := fun q hq hu => by
            have := inv.exactP q hq hu
            rwa [ex_cons_ne (hnev' q hq)] at this
          pos := inv.pos
          covers := inv.covers }
      rcases ih vars queue vars' queue' h inv' hnd.2 with ⟨c1, c2, c3, c4, c5⟩
      refine ⟨c1, c2, ?_, c4, c5⟩
      intro k hk
      rcases c3 k hk with hk1 | ⟨w, rfl, hw1, hw2⟩
      · exact Or.inl hk1
      · exact Or.inr ⟨w, rfl, List.mem_cons_of_mem _ hw1, hw2⟩
    · rw [if_neg h1] at h
      rcases hg : dget vars var with _ | ⟨var_neg, var_pos⟩
      · rw [hg] at h
        cases h
      · rw [hg] at h
        dsimp only at h
        have hvmem : (var, (var_neg, var_pos)) ∈ vars := mem_of_dget_eq_some hg
        have hnev := inv.nev _ hvmem
        have hexr : ∀ b, ex rest var b = 0 := fun b => ex_eq_zero_of_not_key b hnd.1
        -- the generic step: update the entry of `var` and recurse
        have step : ∀ (nv pv : Int) (queue1 : Assignment),
            (countLit eff var false + ex rest var false ≤ nv) →
            (countLit eff var true + ex rest var true ≤ pv) →
            (dget queue1 (some var) = Option.none →
              nv = countLit eff var false + ex rest var false) →
            (dget queue1 (some var) = Option.none →
              pv = countLit eff var true + ex rest var true) →
            (0 < nv + pv) →
            (∀ q ∈ vars, q.1 ≠ var → dget queue1 (some q.1) = Option.none →
              dget queue (some q.1) = Option.none) →
            (∀ k val, dget queue k = some val → dget queue1 k = some val) →
            (∀ k ∈ dkeys queue1, k ∈ dkeys queue ∨ k = some var) →
            ((dkeys queue).Nodup → (dkeys queue1).Nodup) →
            propagateSat av rest (dinsert vars var (nv, pv)) queue1 =
              (vars', queue', Option.none) →
            SatInv av eff [] vars' queue' ∧
            (∀ k val, dget queue k = some val → dget queue' k = some val) ∧
            (∀ k ∈ dkeys queue', k ∈ dkeys queue ∨
              ∃ w, k = some w ∧ w ∈ ((var, par) :: rest).map Prod.fst ∧ w ≠ av) ∧
            ((dkeys queue).Nodup → (dkeys queue').Nodup) ∧
            dkeys vars' ⊆ dkeys vars := by
          intro nv pv queue1 hbn hbp hen hep hpos hqback hqpres hqdom hqnd hrec
          have inv1 : SatInv av eff rest (dinsert vars var (nv, pv)) queue1 :=
            { nodup := nodup_dkeys_dinsert _ inv.nodup
              nev := by
                intro q hq
                rcases mem_dinsert_of_nodup inv.nodup hq with rfl | ⟨hq1, hq2⟩
                · exact h1
                · exact inv.nev q hq1
              boundN := by
                intro q hq
                rcases mem_dinsert_of_nodup inv.nodup hq with rfl | ⟨hq1, hq2⟩
                · exact hbn
                · have := inv.boundN q hq1
                  rwa [ex_cons_ne hq2] at this
              boundP := by
                intro q hq
                rcases mem_dinsert_of_nodup inv.nodup hq with rfl | ⟨hq1, hq2⟩
                · exact hbp
                · have := inv.boundP q hq1
                  rwa [ex_cons_ne hq2] at this
              exactN := by
                intro q hq hu
                rcases mem_dinsert_of_nodup inv.nodup hq with rfl | ⟨hq1, hq2⟩
                · exact hen hu
                · have := inv.exactN q hq1 (hqback q hq1 hq2 hu)
                  rwa [ex_cons_ne hq2] at this
              exactP := by
                intro q hq hu
                rcases mem_dinsert_of_nodup inv.nodup hq with rfl | ⟨hq1, hq2⟩
                · exact hep hu
                · have := inv.exactP q hq1 (hqback q hq1 hq2 hu)
                  rwa [ex_cons_ne hq2] at this
              pos := by
                intro q hq
                rcases mem_dinsert_of_nodup inv.nodup hq with rfl | ⟨hq1, hq2⟩
                · exact hpos
                · exact inv.pos q hq1
              covers := by
                intro c hc k hk hkv
                exact dmem_dinsert_of_dmem _ _ (inv.covers c hc k hk hkv) }
          rcases ih _ _ _ _ hrec inv1 hnd.2 with ⟨c1, c2, c3, c4, c5⟩
          refine ⟨c1, ?_, ?_, ?_, ?_⟩
          · intro k val hv
            exact c2 k val (hqpres k val hv)
          · intro k hk
            rcases c3 k hk with hk1 | ⟨w, rfl, hw1, hw2⟩
            · rcases hqdom k hk1 with hk2 | rfl
              · exact Or.inl hk2
              · exact Or.inr ⟨var, rfl, by simp, h1⟩
            · exact Or.inr ⟨w, rfl, List.mem_cons_of_mem _ hw1, hw2⟩
          · intro hq
            exact c4 (hqnd hq)
          · intro a ha
            have := c5 ha
            rw [dkeys_dinsert_of_mem _ (mem_dkeys_iff_dget.mpr (by rw [hg]; rfl))] at this
            exact this
        have hdel : ∀ (hcf : countLit eff var false = 0)
            (hct : countLit eff var true = 0),
            propagateSat av rest (ddel vars var) queue = (vars', queue', Option.none) →
            SatInv av eff [] vars' queue' ∧
            (∀ k val, dget queue k = some val → dget queue' k = some val) ∧
            (∀ k ∈ dkeys queue', k ∈ dkeys queue ∨
              ∃ w, k = some w ∧ w ∈ ((var, par) :: rest).map Prod.fst ∧ w ≠ av) ∧
            ((dkeys queue).Nodup → (dkeys queue').Nodup) ∧
            dkeys vars' ⊆ dkeys vars := by
          intro hcf hct hrec
          have hnotmem := countLit_eq_zero_notmem hcf hct
          have invd : SatInv av eff rest (ddel vars var) queue :=
            { nodup := nodup_dkeys_ddel _ inv.nodup
              nev := fun q hq => inv.nev q (mem_ddel.mp hq).1
              boundN := fun q hq => by
                have := inv.boundN q (mem_ddel.mp hq).1
                rwa [ex_cons_ne (mem_ddel.mp hq).2] at this
              boundP := fun q hq => by
                have := inv.boundP q (mem_ddel.mp hq).1
                rwa [ex_cons_ne (mem_ddel.mp hq).2] at this
              exactN := fun q hq hu => by
                have := inv.exactN q (mem_ddel.mp hq).1 hu
                rwa [ex_cons_ne (mem_ddel.mp hq).2] at this
              exactP := fun q hq hu => by
                have := inv.exactP q (mem_ddel.mp hq).1 hu
                rwa [ex_cons_ne (mem_ddel.mp hq).2] at this
              pos := fun q hq => inv.pos q (mem_ddel.mp hq).1
              covers := by
                intro c hc k hk hkv
                have hkvar : k ≠ var := by
                  rintro rfl
                  exact hnotmem c hc hk
                exact dmem_ddel_of_ne _ (inv.covers c hc k hk hkv) hkvar }
          rcases ih _ _ _ _ hrec invd hnd.2 with ⟨c1, c2, c3, c4, c5⟩
          refine ⟨c1, c2, ?_, c4, fun a ha => dkeys_ddel_subset _ _ (c5 ha)⟩
          intro k hk
          rcases c3 k hk with hk1 | ⟨w, rfl, hw1, hw2⟩
          · exact Or.inl hk1
          · exact Or.inr ⟨w, rfl, List.mem_cons_of_mem _ hw1, hw2⟩
        cases par
        · -- negative parity: var_neg is decremented
          rw [if_neg (by simp)] at h
          have hbN : countLit eff var false + ex ((var, false) :: rest) var false ≤
              var_neg := inv.boundN _ hvmem
          have hbP : countLit eff var true + ex ((var, false) :: rest) var true ≤
              var_pos := inv.boundP _ hvmem
          rw [ex_head] at hbN
          rw [show ex ((var, false) :: rest) var true = ex rest var true from
            ex_cons_other_parity (b := false) (by
              rw [List.map_cons]
              exact List.nodup_cons.mpr hnd), hexr] at hbP
          by_cases hz : var_neg - 1 = 0
          · rw [if_pos hz] at h
            by_cases hp0 : var_pos = 0
            · rw [if_pos hp0] at h
              have hcf : countLit eff var false = 0 := by
                have := countLit_nonneg eff var false
                omega
              have hct : countLit eff var true = 0 := by
                have := countLit_nonneg eff var true
                omega
              exact hdel hcf hct h
            · rw [if_neg hp0] at h
              rcases hqv : dget queue (some var) with _ | pair
              · rw [hqv] at h
                refine step (var_neg - 1) var_pos
                  (dinsert queue (some var) (some true)) ?_ ?_ ?_ ?_ ?_ ?_ ?_ ?_ ?_ h
                · rw [hexr]
                  omega
                · rw [hexr]
                  omega
                · intro hu
                  rw [dget_dinsert_self] at hu
                  cases hu
                · intro hu
                  rw [dget_dinsert_self] at hu
                  cases hu
                · have := countLit_nonneg eff var true
                  have := countLit_nonneg eff var false
                  omega
                · intro q hq hne hu
                  exact (dget_dinsert_eq_none hu).1
                · intro k val hv
                  by_cases hk : k = some var
                  · subst hk
                    rw [hqv] at hv
                    cases hv
                  · rwa [dget_dinsert_ne _ _ _ _ hk]
                · intro k hk
                  by_cases hk2 : k = some var
                  · exact Or.inr hk2
                  · left
                    rw [mem_dkeys_iff_dget] at hk ⊢
                    rwa [dget_dinsert_ne _ _ _ _ hk2] at hk
                · intro hq
                  exact nodup_dkeys_dinsert _ hq
              · rw [hqv] at h
                dsimp only at h
                by_cases hpair : pair = some false
                · rw [if_pos hpair] at h
                  cases h
                · rw [if_neg hpair] at h
                  refine step (var_neg - 1) var_pos queue ?_ ?_ ?_ ?_ ?_ ?_ ?_ ?_ ?_ h
                  · rw [hexr]
                    omega
                  · rw [hexr]
                    omega
                  · intro hu
                    rw [hqv] at hu
                    cases hu
                  · intro hu
                    rw [hqv] at hu
                    cases hu
                  · have := countLit_nonneg eff var true
                    omega
                  · intro q hq hne hu
                    exact hu
                  · intro k val hv
                    exact hv
                  · intro k hk
                    exact Or.inl hk
                  · intro hq
                    exact hq
          · rw [if_neg hz] at h
            refine step (var_neg - 1) var_pos queue ?_ ?_ ?_ ?_ ?_ ?_ ?_ ?_ ?_ h
            · rw [hexr]
              omega
            · rw [hexr]
              omega
            · intro hu
              have hen : var_neg = countLit eff var false +
                  ex ((var, false) :: rest) var false := inv.exactN _ hvmem hu
              rw [ex_head] at hen
              rw [hexr]
              omega
            · intro hu
              have hep : var_pos = countLit eff var true +
                  ex ((var, false) :: rest) var true := inv.exactP _ hvmem hu
              rw [show ex ((var, false) :: rest) var true = ex rest var true from
                ex_cons_other_parity (b := false) (by
                  rw [List.map_cons]
                  exact List.nodup_cons.mpr hnd)] at hep
              omega
            · have h2 := countLit_nonneg eff var false
              have h3 := countLit_nonneg eff var true
              have h4 : 0 ≤ var_neg - 1 := by omega
              omega
            · intro q hq hne hu
              exact hu
            · intro k val hv
              exact hv
            · intro k hk
              exact Or.inl hk
            · intro hq
              exact hq
        · -- positive parity: var_pos is decremented
          rw [if_pos rfl] at h
          have hbN : countLit eff var false + ex ((var, true) :: rest) var false ≤
              var_neg := inv.boundN _ hvmem
          have hbP : countLit eff var true + ex ((var, true) :: rest) var true ≤
              var_pos := inv.boundP _ hvmem
          rw [ex_head] at hbP
          rw [show ex ((var, true) :: rest) var false = ex rest var false from
            ex_cons_other_parity (b := true) (by
              rw [List.map_cons]
              exact List.nodup_cons.mpr hnd), hexr] at hbN
          by_cases hz : var_pos - 1 = 0
          · rw [if_pos hz] at h
            by_cases hp0 : var_neg = 0
            · rw [if_pos hp0] at h
              have hcf : countLit eff var false = 0 := by
                have := countLit_nonneg eff var false
                omega
              have hct : countLit eff var true = 0 := by
                have := countLit_nonneg eff var true
                omega
              exact hdel hcf hct h
            · rw [if_neg hp0] at h
              rcases hqv : dget queue (some var) with _ | pair
              · rw [hqv] at h
                refine step var_neg (var_pos - 1)
                  (dinsert queue (some var) (some false)) ?_ ?_ ?_ ?_ ?_ ?_ ?_ ?_ ?_ h
                · rw [hexr]
                  omega
                · rw [hexr]
                  omega
                · intro hu
                  rw [dget_dinsert_self] at hu
                  cases hu
                · intro hu
                  rw [dget_dinsert_self] at hu
                  cases hu
                · have := countLit_nonneg eff var true
                  have := countLit_nonneg eff var false
                  omega
                · intro q hq hne hu
                  exact (dget_dinsert_eq_none hu).1
                · intro k val hv
                  by_cases hk : k = some var
                  · subst hk
                    rw [hqv] at hv
                    cases hv
                  · rwa [dget_dinsert_ne _ _ _ _ hk]
                · intro k hk
                  by_cases hk2 : k = some var
                  · exact Or.inr hk2
                  · left
                    rw [mem_dkeys_iff_dget] at hk ⊢
                    rwa [dget_dinsert_ne _ _ _ _ hk2] at hk
                · intro hq
                  exact nodup_dkeys_dinsert _ hq
              · rw [hqv] at h
                dsimp only at h
                by_cases hpair : pair = some true
                · rw [if_pos hpair] at h
                  cases h
                · rw [if_neg hpair] at h
                  refine step var_neg (var_pos - 1) queue ?_ ?_ ?_ ?_ ?_ ?_ ?_ ?_ ?_ h
                  · rw [hexr]
                    omega
                  · rw [hexr]
                    omega
                  · intro hu
                    rw [hqv] at hu
                    cases hu
                  · intro hu
                    rw [hqv] at hu
                    cases hu
                  · have := countLit_nonneg eff var false
                    omega
                  · intro q hq hne hu
                    exact hu
                  · intro k val hv
                    exact hv
                  · intro k hk
                    exact Or.inl hk
                  · intro hq
                    exact hq
          · rw [if_neg hz] at h
            refine step var_neg (var_pos - 1) queue ?_ ?_ ?_ ?_ ?_ ?_ ?_ ?_ ?_ h
            · rw [hexr]
              omega
            · rw [hexr]
              omega
            · intro hu
              have hen : var_neg = countLit eff var false +
                  ex ((var, true) :: rest) var false := inv.exactN _ hvmem hu
              rw [show ex ((var, true) :: rest) var false = ex rest var false from
                ex_cons_other_parity (b := true) (by
                  rw [List.map_cons]
                  exact List.nodup_cons.mpr hnd)] at hen
              omega
            · intro hu
              have hep : var_pos = countLit eff var true +
                  ex ((var, true) :: rest) var true := inv.exactP _ hvmem hu
              rw [ex_head] at hep
              rw [hexr]
              omega
            · have h2 := countLit_nonneg eff var false
              have h3 := countLit_nonneg eff var true
              have h4 : 0 ≤ var_pos - 1 := by omega
              omega
            · intro q hq hne hu
              exact hu
            · intro k val hv
              exact hv
            · intro k hk
              exact Or.inl hk
            · intro hq
              exact hq

theorem ex_eq_indicator {c : Clause} (hnd : (dkeys c.variables').Nodup) (k : Nat) (b : Bool) :
    ex c.variables' k b = if dget c.variables' k = some b then 1 else 0 := by
  by_cases h : dget c.variables' k = some b
  · rw [if_pos h, ex, if_pos (mem_of_dget_eq_some h)]
  · rw [if_neg h, ex, if_neg]
    intro hmem
    exact h (dget_eq_some_of_mem hnd hmem)

theorem SatInv_congr {v : Nat} {eff eff' : List Clause} {its : List (Nat × Bool)}
    {vars : Vars} {queue : Assignment}
    (hmem : ∀ c, c ∈ eff ↔ c ∈ eff')
    (hcount : ∀ k b, countLit eff k b = countLit eff' k b)
    (inv : SatInv v eff its vars queue) : SatInv v eff' its vars queue :=
  { nodup := inv.nodup
    nev := inv.nev
    boundN := fun q hq => hcount q.1 false ▸ inv.boundN q hq
    boundP := fun q hq => hcount q.1 true ▸ inv.boundP q hq
    exactN := fun q hq hu => hcount q.1 false ▸ inv.exactN q hq hu
    exactP := fun q hq hu => hcount q.1 true ▸ inv.exactP q hq hu
    pos := inv.pos
    covers := fun c hc => inv.covers c ((hmem c).mpr hc) }

theorem countLit_middle (E : List Clause) (c : Clause) (cs : List Clause) (k : Nat) (b : Bool) :
    countLit (E ++ c :: cs) k b = countLit (c :: (E ++ cs)) k b := by
  rw [countLit_append, countLit_cons, countLit_cons, countLit_append]
  ring

theorem keys_of_ddel_singleton {c : Clause} {av w : Nat} {p : Bool}
    (hdd : ddel c.variables' av = [(w, p)]) :
    (∀ k ∈ dkeys c.variables', k = av ∨ k = w) ∧ w ≠ av ∧ w ∈ dkeys c.variables' := by
  have hwp : (w, p) ∈ ddel c.variables' av := by
    rw [hdd]
    exact List.mem_singleton.mpr rfl
  rcases mem_ddel.mp hwp with ⟨hwc, hwav⟩
  refine ⟨?_, hwav, List.mem_map.mpr ⟨(w, p), hwc, rfl⟩⟩
  intro k hk
  rcases List.mem_map.mp hk with ⟨q, hq, rfl⟩
  by_cases hkav : q.1 = av
  · exact Or.inl hkav
  · have : q ∈ ddel c.variables' av := mem_ddel.mpr ⟨hq, hkav⟩
    rw [hdd] at this
    rcases List.mem_singleton.mp this with rfl
    exact Or.inr rfl

theorem processClause_master {av : Nat} {aval : Option Bool} {c : Clause} {R : List Clause}
    {vars : Vars} {queue : Assignment} {keep : Option Clause} {cmut : Clause}
    {vars1 : Vars} {queue1 : Assignment}
    (h : processClause av aval c vars queue = (keep, cmut, vars1, queue1, Option.none))
    (inv : SatInv av (c :: R) [] vars queue)
    (hcnd : (dkeys c.variables').Nodup) :
    SatInv av (keep.toList ++ R) [] vars1 queue1 ∧
    (∀ c' ∈ keep.toList, (dkeys c'.variables').Nodup ∧ av ∉ dkeys c'.variables' ∧
      ∀ k ∈ dkeys c'.variables', k ∈ dkeys c.variables') ∧
    (∀ k val, dget queue k = some val → dget queue1 k = some val) ∧
    (∀ k ∈ dkeys queue1, k ∈ dkeys queue ∨
      ∃ w, k = some w ∧ w ∈ dkeys c.variables' ∧ w ≠ av) ∧
    ((dkeys queue).Nodup → (dkeys queue1).Nodup) ∧
    dkeys vars1 ⊆ dkeys vars := by
  rw [processClause] at h
  rcases hcv : dget c.variables' av with _ | cv
  · rw [hcv] at h
    cases h
    refine ⟨inv, ?_, fun k val hv => hv, fun k hk => Or.inl hk, fun hq => hq, fun a ha => ha⟩
    intro c' hc'
    rcases List.mem_singleton.mp (by simpa using hc') with rfl
    exact ⟨hcnd, by rw [← dget_eq_none_iff_not_mem, hcv], fun k hk => hk⟩
  · rw [hcv] at h
    dsimp only at h
    by_cases hs : aval = some cv
    · rw [if_pos hs] at h
      rcases hps : propagateSat av c.variables' vars queue with ⟨varsx, queuex, errx⟩
      rw [hps] at h
      dsimp only at h
      cases h
      have invc : SatInv av R c.variables' vars queue :=
        { nodup := inv.nodup
          nev := inv.nev
          boundN := fun q hq => by
            have h0 := inv.boundN q hq
            rw [countLit_cons, ex_nil, ← ex_eq_indicator hcnd] at h0
            omega
          boundP := fun q hq => by
            have h0 := inv.boundP q hq
            rw [countLit_cons, ex_nil, ← ex_eq_indicator hcnd] at h0
            omega
          exactN := fun q hq hu => by
            have h0 := inv.exactN q hq hu
            rw [countLit_cons, ex_nil, ← ex_eq_indicator hcnd] at h0
            omega
          exactP := fun q hq hu => by
            have h0 := inv.exactP q hq hu
            rw [countLit_cons, ex_nil, ← ex_eq_indicator hcnd] at h0
            omega
          pos := inv.pos
          covers := fun c' hc' => inv.covers c' (List.mem_cons_of_mem _ hc') }
      rcases propagateSat_master av R c.variables' vars queue _ _ hps invc
        (by simpa [dkeys] using hcnd) with ⟨c1, c2, c3, c4, c5⟩
      exact ⟨c1, by simp, c2, fun k hk => by
        rcases c3 k hk with hk1 | ⟨w, rfl, hw1, hw2⟩
        · exact Or.inl hk1
        · exact Or.inr ⟨w, rfl, by simpa [dkeys] using hw1, hw2⟩, c4, c5⟩
    · rw [if_neg hs] at h
      have hkeyeq : ∀ k, k ≠ av →
          (dget (⟨ddel c.variables' av⟩ : Clause).variables' k = dget c.variables' k) :=
        fun k hk => dget_ddel_ne _ _ _ hk
      have hcounteq : ∀ (X : List Clause) (k : Nat) (b : Bool), k ≠ av →
          countLit ((⟨ddel c.variables' av⟩ : Clause) :: X) k b = countLit (c :: X) k b := by
        intro X k b hk
        rw [countLit_cons, countLit_cons, hkeyeq k hk]
      rcases hdd : ddel c.variables' av with _ | ⟨⟨w, p⟩, restc⟩
      · rw [hdd] at h
        cases h
      · rcases restc with _ | ⟨q2, rest2⟩
        · -- the clause shrank to the unit clause [(w, p)]
          rw [hdd] at h
          dsimp only at h
          rcases keys_of_ddel_singleton hdd with ⟨hkaw, hwav, hwc⟩
          have hcnone : ∀ k, k ≠ av → k ≠ w → dget c.variables' k = Option.none := by
            intro k h1 h2
            rw [dget_eq_none_iff_not_mem]
            intro hmem
            rcases hkaw k hmem with rfl | rfl
            · exact h1 rfl
            · exact h2 rfl
          have hdropW : ∀ (q : Nat × (Int × Int)), q ∈ vars → q.1 ≠ w →
              ∀ b, countLit (c :: R) q.1 b = countLit R q.1 b := by
            intro q hq hqw b
            rw [countLit_cons, hcnone q.1 (inv.nev q hq) hqw]
            simp
          have hboundR : ∀ (q : Nat × (Int × Int)), q ∈ vars →
              ∀ b, countLit R q.1 b ≤ countLit (c :: R) q.1 b := by
            intro q hq b
            rw [countLit_cons]
            split <;> omega
          rcases hqw : dget queue (some w) with _ | pair
          · rw [hqw] at h
            cases h
            refine ⟨?_, by simp, ?_, ?_, ?_, fun a ha => ha⟩
            · exact
                { nodup := inv.nodup
                  nev := inv.nev
                  boundN := fun q hq => by
                    show countLit R q.1 false + ex [] q.1 false ≤ q.2.1
                    have := inv.boundN q hq
                    have := hboundR q hq false
                    omega
                  boundP := fun q hq => by
                    show countLit R q.1 true + ex [] q.1 true ≤ q.2.2
                    have := inv.boundP q hq
                    have := hboundR q hq true
                    omega
                  exactN := fun q hq hu => by
                    have hqnw : q.1 ≠ w := by
                      rintro rfl
                      rw [dget_dinsert_self] at hu
                      cases hu
                    have h0 := inv.exactN q hq (dget_dinsert_eq_none hu).1
                    rw [hdropW q hq hqnw false] at h0
                    exact h0
                  exactP := fun q hq hu => by
                    have hqnw : q.1 ≠ w := by
                      rintro rfl
                      rw [dget_dinsert_self] at hu
                      cases hu
                    have h0 := inv.exactP q hq (dget_dinsert_eq_none hu).1
                    rw [hdropW q hq hqnw true] at h0
                    exact h0
                  pos := inv.pos
                  covers := fun c' hc' => inv.covers c' (List.mem_cons_of_mem _ hc') }
            · intro k val hv
              have hkw : k ≠ some w := by
                rintro rfl
                rw [hqw] at hv
                cases hv
              rwa [dget_dinsert_ne _ _ _ _ hkw]
            · intro k hk
              by_cases hkw : k = some w
              · exact Or.inr ⟨w, hkw, hwc, hwav⟩
              · left
                rw [mem_dkeys_iff_dget] at hk ⊢
                rwa [dget_dinsert_ne _ _ _ _ hkw] at hk
            · intro hq
              exact nodup_dkeys_dinsert _ hq
          · rw [hqw] at h
            dsimp only at h
            by_cases hpair : pair = some p
            · rw [if_pos hpair] at h
              cases h
              refine ⟨?_, by simp, fun k val hv => hv, fun k hk => Or.inl hk,
                fun hq => hq, fun a ha => ha⟩
              exact
                { nodup := inv.nodup
                  nev := inv.nev
                  boundN := fun q hq => by
                    show countLit R q.1 false + ex [] q.1 false ≤ q.2.1
                    have := inv.boundN q hq
                    have := hboundR q hq false
                    omega
                  boundP := fun q hq => by
                    show countLit R q.1 true + ex [] q.1 true ≤ q.2.2
                    have := inv.boundP q hq
                    have := hboundR q hq true
                    omega
                  exactN := fun q hq hu => by
                    have hqnw : q.1 ≠ w := by
                      rintro rfl
                      rw [hqw] at hu
                      cases hu
                    have h0 := inv.exactN q hq hu
                    rw [hdropW q hq hqnw false] at h0
                    exact h0
                  exactP := fun q hq hu => by
                    have hqnw : q.1 ≠ w := by
                      rintro rfl
                      rw [hqw] at hu
                      cases hu
                    have h0 := inv.exactP q hq hu
                    rw [hdropW q hq hqnw true] at h0
                    exact h0
                  pos := inv.pos
                  covers := fun c' hc' => inv.covers c' (List.mem_cons_of_mem _ hc') }
            · rw [if_neg hpair] at h
              cases h
        · -- the clause shrank but still has at least two literals
          rw [hdd] at h
          dsimp only at h
          cases h
          have hc'eq : ((w, p) :: q2 :: rest2 : PyDict Nat Bool) = ddel c.variables' av :=
            hdd.symm
          have hgetc' : ∀ k, k ≠ av →
              dget ((w, p) :: q2 :: rest2 : PyDict Nat Bool) k = dget c.variables' k := by
            intro k hk
            rw [hc'eq]
            exact dget_ddel_ne _ _ _ hk
          have hkeysc' : ∀ k, k ∈ dkeys ((w, p) :: q2 :: rest2 : PyDict Nat Bool) →
              k ≠ av ∧ k ∈ dkeys c.variables' := by
            intro k hk
            rcases List.mem_map.mp hk with ⟨q, hq, rfl⟩
            rw [hc'eq] at hq
            rcases mem_ddel.mp hq with ⟨hq1, hq2⟩
            exact ⟨hq2, List.mem_map.mpr ⟨q, hq1, rfl⟩⟩
          have hcount' : ∀ (k : Nat) (b : Bool), k ≠ av →
              countLit ((⟨(w, p) :: q2 :: rest2⟩ : Clause) :: R) k b =
                countLit (c :: R) k b := by
            intro k b hk
            rw [countLit_cons, countLit_cons]
            rw [show (⟨(w, p) :: q2 :: rest2⟩ : Clause).variables' =
              ((w, p) :: q2 :: rest2 : PyDict Nat Bool) from rfl, hgetc' k hk]
          refine ⟨?_, ?_, fun k val hv => hv, fun k hk => Or.inl hk,
            fun hq => hq, fun a ha => ha⟩
          · exact
              { nodup := inv.nodup
                nev := inv.nev
                boundN := fun q hq => by
                  rw [show ((some (⟨(w, p) :: q2 :: rest2⟩ : Clause)).toList ++ R) =
                    ((⟨(w, p) :: q2 :: rest2⟩ : Clause) :: R) from rfl,
                    hcount' q.1 false (inv.nev q hq)]
                  exact inv.boundN q hq
                boundP := fun q hq => by
                  rw [show ((some (⟨(w, p) :: q2 :: rest2⟩ : Clause)).toList ++ R) =
                    ((⟨(w, p) :: q2 :: rest2⟩ : Clause) :: R) from rfl,
                    hcount' q.1 true (inv.nev q hq)]
                  exact inv.boundP q hq
                exactN := fun q hq hu => by
                  rw [show ((some (⟨(w, p) :: q2 :: rest2⟩ : Clause)).toList ++ R) =
                    ((⟨(w, p) :: q2 :: rest2⟩ : Clause) :: R) from rfl,
                    hcount' q.1 false (inv.nev q hq)]
                  exact inv.exactN q hq hu
                exactP := fun q hq hu => by
                  rw [show ((some (⟨(w, p) :: q2 :: rest2⟩ : Clause)).toList ++ R) =
                    ((⟨(w, p) :: q2 :: rest2⟩ : Clause) :: R) from rfl,
                    hcount' q.1 true (inv.nev q hq)]
                  exact inv.exactP q hq hu
                pos := inv.pos
                covers := by
                  intro c'' hc'' k hk hkav
                  rcases List.mem_cons.mp hc'' with rfl | hmem
                  · exact inv.covers c (List.mem_cons_self _ _) k (hkeysc' k hk).2 hkav
                  · exact inv.covers c'' (List.mem_cons_of_mem _ hmem) k hk hkav }
          · intro c' hc'
            rcases List.mem_singleton.mp (by simpa using hc') with rfl
            refine ⟨?_, ?_, fun k hk => (hkeysc' k hk).2⟩
            · rw [show (⟨(w, p) :: q2 :: rest2⟩ : Clause).variables' =
                ((w, p) :: q2 :: rest2 : PyDict Nat Bool) from rfl, hc'eq]
              exact nodup_dkeys_ddel _ hcnd
            · intro hmem
              exact (hkeysc' av hmem).1 rfl

theorem countLit_rot (X Y Z : List Clause) (k : Nat) (b : Bool) :
    countLit (X ++ (Y ++ Z)) k b = countLit ((Y ++ X) ++ Z) k b := by
  rw [countLit_append, countLit_append, countLit_append, countLit_append]
  ring

theorem countLit_assoc (X Y Z : List Clause) (k : Nat) (b : Bool) :
    countLit ((X ++ Y) ++ Z) k b = countLit (X ++ (Y ++ Z)) k b := by
  rw [List.append_assoc]

theorem runPass_master (av : Nat) (aval : Option Bool) :
    ∀ (cs E : List Clause) (vars : Vars) (queue : Assignment)
      (new mutated : List Clause) (vars1 : Vars) (queue1 : Assignment),
      runPass av aval cs vars queue = (new, mutated, vars1, queue1, Option.none) →
      SatInv av (E ++ cs) [] vars queue →
      (∀ c ∈ cs, (dkeys c.variables').Nodup) →
      SatInv av (E ++ new) [] vars1 queue1 ∧
      (∀ c' ∈ new, (dkeys c'.variables').Nodup ∧ av ∉ dkeys c'.variables' ∧
        ∃ c ∈ cs, ∀ k ∈ dkeys c'.variables', k ∈ dkeys c.variables') ∧
      (∀ k val, dget queue k = some val → dget queue1 k = some val) ∧
      (∀ k ∈ dkeys queue1, k ∈ dkeys queue ∨
        ∃ w, k = some w ∧ w ≠ av ∧ ∃ c ∈ cs, w ∈ dkeys c.variables') ∧
      ((dkeys queue).Nodup → (dkeys queue1).Nodup) ∧
      dkeys vars1 ⊆ dkeys vars := by
  intro cs
  induction cs with
  | nil =>
    intro E vars queue new mutated vars1 queue1 h inv hwf
    rw [runPass] at h
    cases h
    exact ⟨inv, by simp, fun k val hv => hv, fun k hk => Or.inl hk, fun hq => hq,
      fun a ha => ha⟩
  | cons c rest ih =>
    intro E vars queue new mutated vars1 queue1 h inv hwf
    rw [runPass] at h
    rcases hpc : processClause av aval c vars queue with ⟨keep, cmut, varsx, queuex, errx⟩
    rw [hpc] at h
    dsimp only at h
    rcases errx with _ | e
    · rcases hrp : runPass av aval rest varsx queuex with ⟨new2, mut2, vars2, queue2, err2⟩
      rw [hrp] at h
      dsimp only at h
      cases h
      have invh : SatInv av (c :: (E ++ rest)) [] vars queue :=
        SatInv_congr (by intro c''; simp; tauto)
          (fun k b => countLit_middle E c rest k b) inv
      rcases processClause_master hpc invh (hwf c (List.mem_cons_self _ _)) with
        ⟨pinv, pc2, pc3, pc4, pc5, pc6⟩
      have pinv' : SatInv av ((E ++ keep.toList) ++ rest) [] varsx queuex :=
        SatInv_congr (by intro c''; simp; tauto)
          (fun k b => countLit_rot keep.toList E rest k b) pinv
      rcases ih (E ++ keep.toList) varsx queuex _ _ _ _ hrp pinv'
        (fun c' hc' => hwf c' (List.mem_cons_of_mem _ hc')) with
        ⟨rinv, rc2, rc3, rc4, rc5, rc6⟩
      have rinv' : SatInv av (E ++ (keep.toList ++ new2)) [] vars1 queue1 :=
        SatInv_congr (by intro c''; simp)
          (fun k b => countLit_assoc E keep.toList new2 k b) rinv
      refine ⟨rinv', ?_, ?_, ?_, ?_, ?_⟩
      · intro c' hc'
        rcases List.mem_append.mp hc' with hc1 | hc1
        · rcases pc2 c' hc1 with ⟨h1, h2, h3⟩
          exact ⟨h1, h2, c, List.mem_cons_self _ _, h3⟩
        · rcases rc2 c' hc1 with ⟨h1, h2, cc, hcc, h3⟩
          exact ⟨h1, h2, cc, List.mem_cons_of_mem _ hcc, h3⟩
      · intro k val hv
        exact rc3 k val (pc3 k val hv)
      · intro k hk
        rcases rc4 k hk with hk1 | ⟨w, rfl, hw1, cc, hcc, hw2⟩
        · rcases pc4 k hk1 with hk2 | ⟨w, rfl, hw1, hw2⟩
          · exact Or.inl hk2
          · exact Or.inr ⟨w, rfl, hw2, c, List.mem_cons_self _ _, hw1⟩
        · exact Or.inr ⟨w, rfl, hw1, cc, List.mem_cons_of_mem _ hcc, hw2⟩
      · intro hq
        exact rc5 (pc5 hq)
      · intro a ha
        exact pc6 (rc6 ha)
    · cases h

section PyDictLemmas3

variable {K V : Type} [DecidableEq K]

theorem dget_concat (xs : PyDict K V) (y : K × V) (k : K) :
    dget (xs ++ [y]) k =
      match dget xs k with
      | some v => some v
      | Option.none => if y.1 = k then some y.2 else Option.none := by
  induction xs with
  | nil => rfl
  | cons p rest ih =>
    by_cases hp : p.1 = k
    · rw [List.cons_append, dget, if_pos hp, dget, if_pos hp]
    · rw [List.cons_append, dget, if_neg hp, dget, if_neg hp, ih]

theorem dget_concat_left {xs : PyDict K V} {y : K × V} {k : K} {v : V}
    (h : dget xs k = some v) : dget (xs ++ [y]) k = some v := by
  rw [dget_concat, h]

theorem dget_concat_none {xs : PyDict K V} {y : K × V} {k : K}
    (h : dget (xs ++ [y]) k = Option.none) : dget xs k = Option.none := by
  rw [dget_concat] at h
  rcases hx : dget xs k with _ | v
  · rfl
  · rw [hx] at h
    cases h

theorem dget_concat_of_none_ne {xs : PyDict K V} {y : K × V} {k : K}
    (h : dget xs k = Option.none) (hne : y.1 ≠ k) :
    dget (xs ++ [y]) k = Option.none := by
  rw [dget_concat, h]
  exact if_neg hne

theorem not_mem_dkeys_ddel_self (d : PyDict K V) (k : K) : k ∉ dkeys (ddel d k) := by
  intro hmem
  rcases List.mem_map.mp hmem with ⟨q, hq, hq1⟩
  exact (mem_ddel.mp hq).2 hq1

theorem dkeys_dmerge_mem {a b : PyDict K V} {k : K} (h : k ∈ dkeys (dmerge a b)) :
    k ∈ dkeys a ∨ k ∈ dkeys b := by
  induction b generalizing a with
  | nil => exact Or.inl h
  | cons p rest ih =>
    rw [dmerge_cons] at h
    rcases ih h with h1 | h1
    · rcases List.mem_cons.mp (dkeys_dinsert_subset a p.1 p.2 h1) with h2 | h2
      · refine Or.inr ?_
        rw [dkeys_cons, h2]
        exact List.mem_cons_self _ _
      · exact Or.inl h2
    · exact Or.inr (by rw [dkeys_cons]; exact List.mem_cons_of_mem _ h1)

theorem nodup_dkeys_dmerge {a : PyDict K V} (b : PyDict K V)
    (h : (dkeys a).Nodup) : (dkeys (dmerge a b)).Nodup := by
  induction b generalizing a with
  | nil => exact h
  | cons p rest ih =>
    rw [dmerge_cons]
    exact ih (nodup_dkeys_dinsert _ h)

theorem dmem_eq_false_iff {d : PyDict K V} {k : K} :
    dmem d k = false ↔ k ∉ dkeys d := by
  rw [dmem, mem_dkeys_iff_dget]
  cases dget d k <;> simp

theorem dpop_facts {queue queue' : PyDict K V} {av : K} {aval : V}
    (hpop : dpop queue = some ((av, aval), queue'))
    (hnd : (dkeys queue).Nodup) :
    (dkeys queue').Nodup ∧ av ∉ dkeys queue' ∧ av ∈ dkeys queue ∧
    (∀ k, k ∈ dkeys queue' → k ∈ dkeys queue) ∧
    (∀ k, dget queue k = Option.none → dget queue' k = Option.none) ∧
    (∀ k, k ≠ av → dget queue' k = Option.none → dget queue k = Option.none) := by
  have heq : queue = queue' ++ [(av, aval)] := dpop_eq_some hpop
  subst heq
  have hnd' : (dkeys queue' ++ [av]).Nodup := by
    rw [dkeys_append] at hnd
    exact hnd
  rcases List.nodup_append.mp hnd' with ⟨nd1, _, hdisj⟩
  refine ⟨nd1, fun hm => hdisj hm (List.mem_singleton.mpr rfl), ?_, ?_, ?_, ?_⟩
  · rw [dkeys_append]
    exact List.mem_append_right _ (List.mem_singleton.mpr rfl)
  · intro k hk
    rw [dkeys_append]
    exact List.mem_append_left _ hk
  · intro k hk
    exact dget_concat_none hk
  · intro k hk h0
    exact dget_concat_of_none_ne h0 (fun hc => hk hc.symm)

end PyDictLemmas3

/-- The parts of the occurrence-index invariant that survive the early
exit of the `propagate` loop (which dumps the pending queue): key lists
are duplicate-free, every clause variable is indexed, the stored counters
bound the live occurrence counts from above, and every indexed entry has
a positive counter sum. -/
structure CnfUB (F : Cnf) : Prop where
  varsNodup : (dkeys F.variables').Nodup
  clsWF : ∀ c ∈ F.clauses, (dkeys c.variables').Nodup
  covers : ∀ c ∈ F.clauses, ∀ k ∈ dkeys c.variables', dmem F.variables' k = true
  boundN : ∀ q ∈ F.variables', countLit F.clauses q.1 false ≤ q.2.1
  boundP : ∀ q ∈ F.variables', countLit F.clauses q.1 true ≤ q.2.2
  pos : ∀ q ∈ F.variables', 0 < q.2.1 + q.2.2

/-- Loop-head invariant of the `while var_queue` loop of `propagate`:
exactness of the counters for variables with no pending queue entry,
upper bounds and positivity in general, well-formed key lists, and the
accumulated `assumptions` map being disjoint from the remaining state. -/
structure LoopInv (vars : Vars) (cs : List Clause) (queue A : Assignment) : Prop where
  varsNodup : (dkeys vars).Nodup
  clsWF : ∀ c ∈ cs, (dkeys c.variables').Nodup
  covers : ∀ c ∈ cs, ∀ k ∈ dkeys c.variables', dmem vars k = true
  boundN : ∀ q ∈ vars, countLit cs q.1 false ≤ q.2.1
  boundP : ∀ q ∈ vars, countLit cs q.1 true ≤ q.2.2
  exactN : ∀ q ∈ vars, dget queue (some q.1) = Option.none →
    q.2.1 = countLit cs q.1 false
  exactP : ∀ q ∈ vars, dget queue (some q.1) = Option.none →
    q.2.2 = countLit cs q.1 true
  pos : ∀ q ∈ vars, 0 < q.2.1 + q.2.2
  queueNodup : (dkeys queue).Nodup
  aNodup : (dkeys A).Nodup
  disj : ∀ w : Nat, some w ∈ dkeys A →
    dmem vars w = false ∧ (∀ c ∈ cs, w ∉ dkeys c.variables') ∧
    dget queue (some w) = Option.none

/-- Master lemma for the `while var_queue` loop of `propagate`: a
successful run from a loop-invariant state yields a formula whose index
is duplicate-free, covering, upper-bounding and positive; if moreover the
final clause list is non-empty (the early exit was not taken) the full
exact invariant holds again, with the returned assumptions disjoint from
the final state; the final index keys come from the initial ones and the
returned keys from the initial assumptions, queue, or index. -/
theorem propagateLoop_master (fuel : Nat) :
    ∀ (vars : Vars) (cs : List Clause) (queue A Af : Assignment) (F' : Cnf),
      propagateLoop fuel vars cs queue A = some (.ok Af, F') →
      LoopInv vars cs queue A →
      CnfUB F' ∧
      (F'.clauses ≠ [] → LoopInv F'.variables' F'.clauses [] Af) ∧
      dkeys F'.variables' ⊆ dkeys vars ∧
      (∀ k ∈ dkeys Af, k ∈ dkeys A ∨ k ∈ dkeys queue ∨
        ∃ w, k = some w ∧ w ∈ dkeys vars) ∧
      (dkeys Af).Nodup := by
  induction fuel with
  | zero =>
    intro vars cs queue A Af F' h inv
    simp [propagateLoop] at h
  | succ fuel ih =>
    intro vars cs queue A Af F' h inv
    rw [propagateLoop] at h
    rcases hq : dpop queue with _ | ⟨⟨av, aval⟩, queue'⟩
    · rw [hq] at h
      have hqe : queue = [] := dpop_eq_none_iff.mp hq
      subst hqe
      cases h
      refine ⟨⟨inv.varsNodup, inv.clsWF, inv.covers, inv.boundN, inv.boundP, inv.pos⟩,
        fun _ => ⟨inv.varsNodup, inv.clsWF, inv.covers, inv.boundN, inv.boundP,
          fun q hq2 _ => inv.exactN q hq2 rfl, fun q hq2 _ => inv.exactP q hq2 rfl,
          inv.pos, List.nodup_nil, inv.aNodup,
          fun w hw => ⟨(inv.disj w hw).1, (inv.disj w hw).2.1, rfl⟩⟩,
        fun a ha => ha, fun k hk => Or.inl hk, inv.aNodup⟩
    · rw [hq] at h
      rcases dpop_facts hq inv.queueNodup with
        ⟨hnd', havnot, havmem, hsub', hnone, hnone'⟩
      rcases av with _ | v
      · have inv' : LoopInv vars cs queue' (dinsert A Option.none aval) := by
          refine ⟨inv.varsNodup, inv.clsWF, inv.covers, inv.boundN, inv.boundP,
            ?_, ?_, inv.pos, hnd', nodup_dkeys_dinsert _ inv.aNodup, ?_⟩
          · intro q hq2 h0
            exact inv.exactN q hq2 (hnone' _ (fun hc => Option.noConfusion hc) h0)
          · intro q hq2 h0
            exact inv.exactP q hq2 (hnone' _ (fun hc => Option.noConfusion hc) h0)
          · intro w hw
            rcases List.mem_cons.mp (dkeys_dinsert_subset A Option.none aval hw) with
              h1 | h1
            · exact absurd h1 (fun hc => Option.noConfusion hc)
            · exact ⟨(inv.disj w h1).1, (inv.disj w h1).2.1,
                hnone _ (inv.disj w h1).2.2⟩
        rcases ih vars cs queue' (dinsert A Option.none aval) Af F' h inv' with
          ⟨c1, c2, c3, c4, c5⟩
        refine ⟨c1, c2, c3, ?_, c5⟩
        intro k hk
        rcases c4 k hk with h1 | h1 | h1
        · rcases List.mem_cons.mp (dkeys_dinsert_subset A Option.none aval h1) with
            h2 | h2
          · subst h2
            exact Or.inr (Or.inl havmem)
          · exact Or.inl h2
        · exact Or.inr (Or.inl (hsub' _ h1))
        · exact Or.inr (Or.inr h1)
      · dsimp only at h
        by_cases hm : dmem vars v
        · rw [if_pos hm] at h
          have hvmem : v ∈ dkeys vars := dmem_iff_mem_dkeys.mp hm
          rcases hrp : runPass v aval cs (ddel vars v) queue' with
            ⟨new, mutOld, vars1, queue1, err⟩
          rw [hrp] at h
          rcases err with _ | e
          · dsimp only at h
            have hsat : SatInv v cs [] (ddel vars v) queue' := by
              refine ⟨nodup_dkeys_ddel v inv.varsNodup,
                fun q hq2 => (mem_ddel.mp hq2).2, ?_, ?_, ?_, ?_, ?_, ?_⟩
              · intro q hq2
                have := inv.boundN q (mem_ddel.mp hq2).1
                rw [ex_nil]
                omega
              · intro q hq2
                have := inv.boundP q (mem_ddel.mp hq2).1
                rw [ex_nil]
                omega
              · intro q hq2 h0
                have hne : (some q.1 : Option Nat) ≠ some v :=
                  fun hc => (mem_ddel.mp hq2).2 (Option.some.inj hc)
                have := inv.exactN q (mem_ddel.mp hq2).1 (hnone' _ hne h0)
                rw [ex_nil]
                omega
              · intro q hq2 h0
                have hne : (some q.1 : Option Nat) ≠ some v :=
                  fun hc => (mem_ddel.mp hq2).2 (Option.some.inj hc)
                have := inv.exactP q (mem_ddel.mp hq2).1 (hnone' _ hne h0)
                rw [ex_nil]
                omega
              · exact fun q hq2 => inv.pos q (mem_ddel.mp hq2).1
              · intro c hc k hk hkne
                exact dmem_ddel_of_ne v (inv.covers c hc k hk) hkne
            rcases runPass_master v aval cs [] (ddel vars v) queue' new mutOld
              vars1 queue1 hrp hsat inv.clsWF with ⟨r1, r2, r3, r4, r5, r6⟩
            rw [List.nil_append] at r1
            by_cases hnew : new = []
            · subst hnew
              rw [if_pos rfl] at h
              cases h
              refine ⟨⟨r1.nodup, fun c hc => absurd hc (List.not_mem_nil c),
                fun c hc => absurd hc (List.not_mem_nil c), ?_, ?_, r1.pos⟩,
                fun hne => absurd rfl hne, ?_, ?_, ?_⟩
              · intro q hq2
                have := r1.boundN q hq2
                rw [ex_nil] at this
                show countLit [] q.1 false ≤ q.2.1
                omega
              · intro q hq2
                have := r1.boundP q hq2
                rw [ex_nil] at this
                show countLit [] q.1 true ≤ q.2.2
                omega
              · exact fun a ha => dkeys_ddel_subset vars v (r6 ha)
              · intro k hk
                rcases dkeys_dmerge_mem hk with h1 | h1
                · rcases List.mem_cons.mp
                    (dkeys_dinsert_subset A (some v) aval h1) with h2 | h2
                  · subst h2
                    exact Or.inr (Or.inl havmem)
                  · exact Or.inl h2
                · rcases r4 k h1 with h2 | ⟨w, hkw, _, c, hc, hwc⟩
                  · exact Or.inr (Or.inl (hsub' _ h2))
                  · exact Or.inr (Or.inr ⟨w, hkw,
                      dmem_iff_mem_dkeys.mp (inv.covers c hc w hwc)⟩)
              · exact nodup_dkeys_dmerge queue1
                  (nodup_dkeys_dinsert _ inv.aNodup)
            · rw [if_neg hnew] at h
              have inv' : LoopInv vars1 new queue1 (dinsert A (some v) aval) := by
                refine ⟨r1.nodup, fun c' hc' => (r2 c' hc').1, ?_, ?_, ?_, ?_, ?_,
                  r1.pos, r5 hnd', nodup_dkeys_dinsert _ inv.aNodup, ?_⟩
                · intro c' hc' k hk
                  have hkne : k ≠ v := fun hc => (r2 c' hc').2.1 (hc ▸ hk)
                  exact r1.covers c' hc' k hk hkne
                · intro q hq2
                  have := r1.boundN q hq2
                  rw [ex_nil] at this
                  omega
                · intro q hq2
                  have := r1.boundP q hq2
                  rw [ex_nil] at this
                  omega
                · intro q hq2 h0
                  have := r1.exactN q hq2 h0
                  rw [ex_nil] at this
                  omega
                · intro q hq2 h0
                  have := r1.exactP q hq2 h0
                  rw [ex_nil] at this
                  omega
                · intro w hw
                  rcases List.mem_cons.mp
                    (dkeys_dinsert_subset A (some v) aval hw) with h1 | h1
                  · have hwv : w = v := Option.some.inj h1
                    subst hwv
                    refine ⟨?_, fun c' hc' => (r2 c' hc').2.1, ?_⟩
                    · rw [dmem_eq_false_iff]
                      exact fun hmm => not_mem_dkeys_ddel_self vars w (r6 hmm)
                    · rw [dget_eq_none_iff_not_mem]
                      intro hmm
                      rcases r4 _ hmm with h2 | ⟨w', hw', hw'ne, _⟩
                      · exact havnot h2
                      · exact hw'ne (Option.some.inj hw').symm
                  · rcases inv.disj w h1 with ⟨hd1, hd2, hd3⟩
                    refine ⟨?_, ?_, ?_⟩
                    · rw [dmem_eq_false_iff]
                      intro hmm
                      rw [dmem_eq_false_iff] at hd1
                      exact hd1 (dkeys_ddel_subset vars v (r6 hmm))
                    · intro c' hc' hwk
                      rcases (r2 c' hc').2.2 with ⟨c, hc, hsubk⟩
                      exact hd2 c hc (hsubk w hwk)
                    · rw [dget_eq_none_iff_not_mem]
                      intro hmm
                      rcases r4 _ hmm with h2 | ⟨w', hw', _, c, hc, hwc⟩
                      · rw [dget_eq_none_iff_not_mem] at hd3
                        exact hd3 (hsub' _ h2)
                      · have : w' = w := (Option.some.inj hw').symm
                        subst this
                        exact hd2 c hc hwc
              rcases ih vars1 new queue1 (dinsert A (some v) aval) Af F' h inv' with
                ⟨c1, c2, c3, c4, c5⟩
              refine ⟨c1, c2,
                fun a ha => dkeys_ddel_subset vars v (r6 (c3 ha)), ?_, c5⟩
              intro k hk
              rcases c4 k hk with h1 | h1 | h1
              · rcases List.mem_cons.mp
                  (dkeys_dinsert_subset A (some v) aval h1) with h2 | h2
                · exact Or.inr (Or.inr ⟨v, h2, hvmem⟩)
                · exact Or.inl h2
              · rcases r4 k h1 with h2 | ⟨w, hkw, _, c, hc, hwc⟩
                · exact Or.inr (Or.inl (hsub' _ h2))
                · exact Or.inr (Or.inr ⟨w, hkw,
                    dmem_iff_mem_dkeys.mp (inv.covers c hc w hwc)⟩)
              · rcases h1 with ⟨w, hkw, hwm⟩
                exact Or.inr (Or.inr ⟨w, hkw,
                  dkeys_ddel_subset vars v (r6 hwm)⟩)
          · dsimp only at h
            cases h
        · rw [if_neg hm] at h
          have hmf : dmem vars v = false := by
            cases hmv : dmem vars v
            · rfl
            · exact absurd hmv hm
          have inv' : LoopInv vars cs queue' (dinsert A (some v) aval) := by
            have hq1ne : ∀ q : Nat × (Int × Int), q ∈ vars → q.1 ≠ v := by
              intro q hq2 hc
              rw [dmem_eq_false_iff] at hmf
              exact hmf (hc ▸ List.mem_map_of_mem Prod.fst hq2)
            refine ⟨inv.varsNodup, inv.clsWF, inv.covers, inv.boundN, inv.boundP,
              ?_, ?_, inv.pos, hnd', nodup_dkeys_dinsert _ inv.aNodup, ?_⟩
            · intro q hq2 h0
              exact inv.exactN q hq2 (hnone' _
                (fun hc => hq1ne q hq2 (Option.some.inj hc)) h0)
            · intro q hq2 h0
              exact inv.exactP q hq2 (hnone' _
                (fun hc => hq1ne q hq2 (Option.some.inj hc)) h0)
            · intro w hw
              rcases List.mem_cons.mp
                (dkeys_dinsert_subset A (some v) aval hw) with h1 | h1
              · have hwv : w = v := Option.some.inj h1
                subst hwv
                refine ⟨hmf, ?_, ?_⟩
                · intro c hc hwk
                  rw [dmem_eq_false_iff] at hmf
                  exact hmf (dmem_iff_mem_dkeys.mp (inv.covers c hc w hwk))
                · rw [dget_eq_none_iff_not_mem]
                  exact havnot
              · exact ⟨(inv.disj w h1).1, (inv.disj w h1).2.1,
                  hnone _ (inv.disj w h1).2.2⟩
          rcases ih vars cs queue' (dinsert A (some v) aval) Af F' h inv' with
            ⟨c1, c2, c3, c4, c5⟩
          refine ⟨c1, c2, c3, ?_, c5⟩
          intro k hk
          rcases c4 k hk with h1 | h1 | h1
          · rcases List.mem_cons.mp
              (dkeys_dinsert_subset A (some v) aval h1) with h2 | h2
            · subst h2
              exact Or.inr (Or.inl havmem)
            · exact Or.inl h2
          · exact Or.inr (Or.inl (hsub' _ h1))
          · exact Or.inr (Or.inr h1)

/-! ### Semantic soundness of propagation -/

/-- `c'` descends from `c`: every surviving literal of `c'` is a literal
of `c` with the same parity (shrinking only deletes literals). -/
def descend (c' c : Clause) : Prop :=
  ∀ w b, dget c'.variables' w = some b → dget c.variables' w = some b

/-- The assignment map `R` satisfies clause `c` outright: some literal of
`c` is assigned its own parity by `R`. -/
def okClause (R : Assignment) (c : Clause) : Prop :=
  ∃ w b, dget c.variables' w = some b ∧ dget R (some w) = some (some b)

section PyDictLemmas4

variable {K V : Type} [DecidableEq K]

theorem dget_ddel_imp {d : PyDict K V} {av k : K} {v : V}
    (h : dget (ddel d av) k = some v) : dget d k = some v := by
  by_cases hk : k = av
  · subst hk
    rw [dget_ddel_self] at h
    cases h
  · rwa [dget_ddel_ne _ _ _ hk] at h

theorem dget_concat_cases {xs : PyDict K V} {y : K × V} {k : K} {v : V}
    (h : dget (xs ++ [y]) k = some v) :
    dget xs k = some v ∨ (k = y.1 ∧ v = y.2) := by
  rw [dget_concat] at h
  rcases hx : dget xs k with _ | v'
  · rw [hx] at h
    by_cases hy : y.1 = k
    · rw [if_pos hy] at h
      exact Or.inr ⟨hy.symm, (Option.some.inj h).symm⟩
    · rw [if_neg hy] at h
      cases h
  · rw [hx] at h
    exact Or.inl h

theorem dget_dmerge_right_of_nodup {a b : PyDict K V} {k : K} {val : V}
    (hnd : (dkeys b).Nodup) (h : dget b k = some val) :
    dget (dmerge a b) k = some val := by
  induction b generalizing a with
  | nil => cases h
  | cons p rest ih =>
    rw [dkeys_cons, List.nodup_cons] at hnd
    rw [dmerge_cons]
    by_cases hp : p.1 = k
    · rw [dget, if_pos hp] at h
      subst hp
      rw [dget_dmerge_of_not_mem_right (dget_eq_none_iff_not_mem.mpr hnd.1),
        dget_dinsert_self]
      exact h
    · rw [dget, if_neg hp] at h
      exact ih hnd.2 h

end PyDictLemmas4

/-- Within the satisfied-clause walk (lines 131-182) queue entries are
never overwritten, and no entry with key `None` is created. -/
theorem propagateSat_sound (av : Nat) :
    ∀ (its : List (Nat × Bool)) (vars : Vars) (queue : Assignment)
      (vars' : Vars) (queue' : Assignment),
      propagateSat av its vars queue = (vars', queue', Option.none) →
      (∀ k val, dget queue k = some val → dget queue' k = some val) ∧
      (dget queue Option.none = Option.none →
        dget queue' Option.none = Option.none) := by
  intro its
  induction its with
  | nil =>
    intro vars queue vars' queue' h
    rw [propagateSat] at h
    cases h
    exact ⟨fun k val hv => hv, fun h0 => h0⟩
  | cons it rest ih =>
    intro vars queue vars' queue' h
    rcases it with ⟨var, par⟩
    rw [propagateSat] at h
    have step : ∀ (vars1 : Vars) (queue1 : Assignment),
        (∀ k val, dget queue k = some val → dget queue1 k = some val) →
        (dget queue Option.none = Option.none →
          dget queue1 Option.none = Option.none) →
        propagateSat av rest vars1 queue1 = (vars', queue', Option.none) →
        (∀ k val, dget queue k = some val → dget queue' k = some val) ∧
        (dget queue Option.none = Option.none →
          dget queue' Option.none = Option.none) := by
      intro vars1 queue1 hmono h0 hrec
      rcases ih vars1 queue1 vars' queue' hrec with ⟨m1, m2⟩
      exact ⟨fun k val hv => m1 k val (hmono k val hv), fun hn => m2 (h0 hn)⟩
    have stepq : ∀ (vars1 : Vars),
        propagateSat av rest vars1 queue = (vars', queue', Option.none) →
        (∀ k val, dget queue k = some val → dget queue' k = some val) ∧
        (dget queue Option.none = Option.none →
          dget queue' Option.none = Option.none) :=
      fun vars1 => step vars1 queue (fun _ _ hv => hv) (fun hn => hn)
    have stepi : ∀ (vars1 : Vars) (b : Bool),
        dget queue (some var) = Option.none →
        propagateSat av rest vars1 (dinsert queue (some var) (some b)) =
          (vars', queue', Option.none) →
        (∀ k val, dget queue k = some val → dget queue' k = some val) ∧
        (dget queue Option.none = Option.none →
          dget queue' Option.none = Option.none) := by
      intro vars1 b hq0 hrec
      refine step vars1 (dinsert queue (some var) (some b)) ?_ ?_ hrec
      · intro k val hv
        by_cases hk : k = some var
        · subst hk
          rw [hq0] at hv
          cases hv
        · rwa [dget_dinsert_ne _ _ _ _ hk]
      · intro hn
        rw [dget_dinsert_ne _ _ _ _ (fun hc => Option.noConfusion hc)]
        exact hn
    by_cases h1 : var = av
    · rw [if_pos h1] at h
      exact stepq vars h
    · rw [if_neg h1] at h
      rcases hg : dget vars var with _ | ⟨var_neg, var_pos⟩
      · rw [hg] at h
        cases h
      · rw [hg] at h
        dsimp only at h
        cases par
        · rw [if_neg (by simp)] at h
          by_cases hz : var_neg - 1 = 0
          · rw [if_pos hz] at h
            by_cases hp0 : var_pos = 0
            · rw [if_pos hp0] at h
              exact stepq _ h
            · rw [if_neg hp0] at h
              rcases hqv : dget queue (some var) with _ | pair
              · rw [hqv] at h
                exact stepi _ true hqv h
              · rw [hqv] at h
                dsimp only at h
                by_cases hpair : pair = some false
                · rw [if_pos hpair] at h
                  cases h
                · rw [if_neg hpair] at h
                  exact stepq _ h
          · rw [if_neg hz] at h
            exact stepq _ h
        · rw [if_pos rfl] at h
          by_cases hz : var_pos - 1 = 0
          · rw [if_pos hz] at h
            by_cases hp0 : var_neg = 0
            · rw [if_pos hp0] at h
              exact stepq _ h
            · rw [if_neg hp0] at h
              rcases hqv : dget queue (some var) with _ | pair
              · rw [hqv] at h
                exact stepi _ false hqv h
              · rw [hqv] at h
                dsimp only at h
                by_cases hpair : pair = some true
                · rw [if_pos hpair] at h
                  cases h
                · rw [if_neg hpair] at h
                  exact stepq _ h
          · rw [if_neg hz] at h
            exact stepq _ h

/-- Per-clause soundness of the dispatch of `propagate` (lines 120-209):
queue entries survive and the clause is either kept (possibly shrunk,
descending from the original), satisfied by the assumed literal, or
dropped as a new unit clause whose literal is recorded in the queue. -/
theorem processClause_sound (av : Nat) (aval : Option Bool) (c : Clause)
    (vars : Vars) (queue : Assignment) (keep : Option Clause) (cmut : Clause)
    (vars' : Vars) (queue' : Assignment)
    (h : processClause av aval c vars queue =
      (keep, cmut, vars', queue', Option.none)) :
    (∀ k val, dget queue k = some val → dget queue' k = some val) ∧
    (dget queue Option.none = Option.none →
      dget queue' Option.none = Option.none) ∧
    ((∃ c', keep = some c' ∧ descend c' c) ∨
      (∃ b, dget c.variables' av = some b ∧ aval = some b) ∨
      (∃ w p, w ≠ av ∧ dget c.variables' w = some p ∧
        dget queue' (some w) = some (some p))) := by
  rw [processClause] at h
  rcases hg : dget c.variables' av with _ | cv
  · rw [hg] at h
    cases h
    exact ⟨fun k val hv => hv, fun h0 => h0,
      Or.inl ⟨c, rfl, fun w b hb => hb⟩⟩
  · rw [hg] at h
    dsimp only at h
    by_cases hav : aval = some cv
    · rw [if_pos hav] at h
      rcases hps : propagateSat av c.variables' vars queue with ⟨vars1, queue1, err⟩
      rw [hps] at h
      dsimp only at h
      cases h
      rcases propagateSat_sound av c.variables' vars queue vars' queue' hps with
        ⟨m1, m2⟩
      exact ⟨m1, m2, Or.inr (Or.inl ⟨cv, rfl, hav⟩)⟩
    · rw [if_neg hav] at h
      rcases hdd : ddel c.variables' av with _ | ⟨q1, rest2⟩
      · rw [hdd] at h
        cases h
      · rcases rest2 with _ | ⟨q2, rest3⟩
        · rcases q1 with ⟨w, p⟩
          rw [hdd] at h
          dsimp only at h
          have hwfacts := keys_of_ddel_singleton hdd
          have hcw : dget c.variables' w = some p := by
            have : dget (ddel c.variables' av) w = some p := by
              rw [hdd, dget, if_pos rfl]
            exact dget_ddel_imp this
          rcases hqw : dget queue (some w) with _ | pair
          · rw [hqw] at h
            cases h
            refine ⟨?_, ?_, Or.inr (Or.inr ⟨w, p, hwfacts.2.1, hcw,
              dget_dinsert_self _ _ _⟩)⟩
            · intro k val hv
              by_cases hk : k = some w
              · subst hk
                rw [hqw] at hv
                cases hv
              · rwa [dget_dinsert_ne _ _ _ _ hk]
            · intro hn
              rw [dget_dinsert_ne _ _ _ _ (fun hc => Option.noConfusion hc)]
              exact hn
          · rw [hqw] at h
            dsimp only at h
            by_cases hpair : pair = some p
            · rw [if_pos hpair] at h
              cases h
              refine ⟨fun k val hv => hv, fun h0 => h0,
                Or.inr (Or.inr ⟨w, p, hwfacts.2.1, hcw, ?_⟩)⟩
              rw [hqw, hpair]
            · rw [if_neg hpair] at h
              cases h
        · rw [hdd] at h
          dsimp only at h
          cases h
          refine ⟨fun k val hv => hv, fun h0 => h0,
            Or.inl ⟨⟨q1 :: q2 :: rest3⟩, rfl, ?_⟩⟩
          intro w b hb
          rw [show (⟨q1 :: q2 :: rest3⟩ : Clause).variables' =
            q1 :: q2 :: rest3 from rfl, ← hdd] at hb
          exact dget_ddel_imp hb

/-- One pass of the clause loop of `propagate`, semantically: queue
entries survive, no `None` key is created, and every input clause is
either kept (as a descendant in `new_clauses`), satisfied by the assumed
literal, or dropped as a unit whose literal is recorded in the queue. -/
theorem runPass_sound (av : Nat) (aval : Option Bool) :
    ∀ (cs : List Clause) (vars : Vars) (queue : Assignment)
      (new mutated : List Clause) (vars1 : Vars) (queue1 : Assignment),
      runPass av aval cs vars queue = (new, mutated, vars1, queue1, Option.none) →
      (∀ k val, dget queue k = some val → dget queue1 k = some val) ∧
      (dget queue Option.none = Option.none →
        dget queue1 Option.none = Option.none) ∧
      (∀ c ∈ cs,
        (∃ c' ∈ new, descend c' c) ∨
        (∃ b, dget c.variables' av = some b ∧ aval = some b) ∨
        (∃ w p, w ≠ av ∧ dget c.variables' w = some p ∧
          dget queue1 (some w) = some (some p))) := by
  intro cs
  induction cs with
  | nil =>
    intro vars queue new mutated vars1 queue1 h
    rw [runPass] at h
    cases h
    exact ⟨fun k val hv => hv, fun h0 => h0,
      fun c hc => absurd hc (List.not_mem_nil c)⟩
  | cons c rest ih =>
    intro vars queue new mutated vars1 queue1 h
    rw [runPass] at h
    rcases hpc : processClause av aval c vars queue with
      ⟨keep, cmut, varsA, queueA, err⟩
    rw [hpc] at h
    dsimp only at h
    rcases err with _ | e
    · dsimp only at h
      rcases hrp : runPass av aval rest varsA queueA with
        ⟨new2, mut2, varsB, queueB, err2⟩
      rw [hrp] at h
      dsimp only at h
      cases h
      rcases processClause_sound av aval c vars queue keep cmut varsA queueA hpc with
        ⟨p1, p2, p3⟩
      rcases ih varsA queueA new2 mut2 vars1 queue1 hrp with ⟨r1, r2, r3⟩
      refine ⟨fun k val hv => r1 k val (p1 k val hv), fun h0 => r2 (p2 h0), ?_⟩
      intro c0 hc0
      rcases List.mem_cons.mp hc0 with rfl | hc0r
      · rcases p3 with ⟨c', hk, hdesc⟩ | ⟨b, hb1, hb2⟩ | ⟨w, p, hwav, hcw, hqw⟩
        · refine Or.inl ⟨c', List.mem_append_left _ ?_, hdesc⟩
          rw [hk]
          exact List.mem_singleton.mpr rfl
        · exact Or.inr (Or.inl ⟨b, hb1, hb2⟩)
        · exact Or.inr (Or.inr ⟨w, p, hwav, hcw, r1 _ _ hqw⟩)
      · rcases r3 c0 hc0r with ⟨c', hc', hdesc⟩ | hs | hu
        · exact Or.inl ⟨c', List.mem_append_right _ hc', hdesc⟩
        · exact Or.inr (Or.inl hs)
        · exact Or.inr (Or.inr hu)
    · dsimp only at h
      cases h

/-- Semantic master lemma for the `while var_queue` loop of `propagate`:
on a successful run from a loop-invariant state, every entry of the
accumulated assumptions and of the pending queue survives into the
returned map, and every input clause is either satisfied outright by the
returned map or survives (shrunk, with its remaining literals unchanged)
in the final clause list. -/
theorem propagateLoop_sound (fuel : Nat) :
    ∀ (vars : Vars) (cs : List Clause) (queue A Af : Assignment) (F' : Cnf),
      propagateLoop fuel vars cs queue A = some (.ok Af, F') →
      LoopInv vars cs queue A →
      (Option.none ∈ dkeys A → dget queue Option.none = Option.none) →
      (∀ k val, dget A k = some val → dget Af k = some val) ∧
      (∀ k val, dget queue k = some val → dget Af k = some val) ∧
      (∀ c ∈ cs, okClause Af c ∨ ∃ c' ∈ F'.clauses, descend c' c) := by
  induction fuel with
  | zero =>
    intro vars cs queue A Af F' h inv hA0
    simp [propagateLoop] at h
  | succ fuel ih =>
    intro vars cs queue A Af F' h inv hA0
    rw [propagateLoop] at h
    rcases hq : dpop queue with _ | ⟨⟨av, aval⟩, queue'⟩
    · rw [hq] at h
      have hqe : queue = [] := dpop_eq_none_iff.mp hq
      subst hqe
      cases h
      exact ⟨fun k val hv => hv, fun k val hv => Option.noConfusion hv,
        fun c hc => Or.inr ⟨c, hc, fun w b hb => hb⟩⟩
    · rw [hq] at h
      have heq : queue = queue' ++ [(av, aval)] := dpop_eq_some hq
      rcases dpop_facts hq inv.queueNodup with
        ⟨hnd', havnot, havmem, hsub', hnone, hnone'⟩
      have hAq : ∀ k, k ∈ dkeys A → dget queue k = Option.none := by
        intro k hk
        rcases k with _ | w
        · exact hA0 hk
        · exact (inv.disj w hk).2.2
      have havA : av ∉ dkeys A := by
        intro hmem
        have h2 := hAq av hmem
        rw [dget_eq_none_iff_not_mem] at h2
        exact h2 havmem
      have hstepA : ∀ k val, dget A k = some val →
          dget (dinsert A av aval) k = some val := by
        intro k val hv
        have hkav : k ≠ av := by
          intro hc
          subst hc
          exact havA (mem_dkeys_iff_dget.mpr (by rw [hv]; rfl))
        rwa [dget_dinsert_ne _ _ _ _ hkav]
      have hSQ : ∀ (B : Assignment),
          (∀ k val, dget (dinsert A av aval) k = some val → dget B k = some val) →
          (∀ k val, dget queue' k = some val → dget B k = some val) →
          (∀ k val, dget queue k = some val → dget B k = some val) := by
        intro B hBA hBq k val hv
        rw [heq] at hv
        rcases dget_concat_cases hv with h1 | ⟨rfl, rfl⟩
        · exact hBq _ _ h1
        · exact hBA _ _ (dget_dinsert_self _ _ _)
      rcases av with _ | v
      · have inv' : LoopInv vars cs queue' (dinsert A Option.none aval) := by
          refine ⟨inv.varsNodup, inv.clsWF, inv.covers, inv.boundN, inv.boundP,
            ?_, ?_, inv.pos, hnd', nodup_dkeys_dinsert _ inv.aNodup, ?_⟩
          · intro q hq2 h0
            exact inv.exactN q hq2 (hnone' _ (fun hc => Option.noConfusion hc) h0)
          · intro q hq2 h0
            exact inv.exactP q hq2 (hnone' _ (fun hc => Option.noConfusion hc) h0)
          · intro w hw
            rcases List.mem_cons.mp (dkeys_dinsert_subset A Option.none aval hw) with
              h1 | h1
            · exact absurd h1 (fun hc => Option.noConfusion hc)
            · exact ⟨(inv.disj w h1).1, (inv.disj w h1).2.1,
                hnone _ (inv.disj w h1).2.2⟩
        have hA0' : Option.none ∈ dkeys (dinsert A Option.none aval) →
            dget queue' Option.none = Option.none := by
          intro _
          rw [dget_eq_none_iff_not_mem]
          exact havnot
        rcases ih vars cs queue' (dinsert A Option.none aval) Af F' h inv' hA0' with
          ⟨s1, s2, s3⟩
        exact ⟨fun k val hv => s1 k val (hstepA k val hv), hSQ Af s1 s2, s3⟩
      · dsimp only at h
        by_cases hm : dmem vars v
        · rw [if_pos hm] at h
          rcases hrp : runPass v aval cs (ddel vars v) queue' with
            ⟨new, mutOld, vars1, queue1, err⟩
          rw [hrp] at h
          rcases err with _ | e
          · dsimp only at h
            have hsat : SatInv v cs [] (ddel vars v) queue' := by
              refine ⟨nodup_dkeys_ddel v inv.varsNodup,
                fun q hq2 => (mem_ddel.mp hq2).2, ?_, ?_, ?_, ?_, ?_, ?_⟩
              · intro q hq2
                have := inv.boundN q (mem_ddel.mp hq2).1
                rw [ex_nil]
                omega
              · intro q hq2
                have := inv.boundP q (mem_ddel.mp hq2).1
                rw [ex_nil]
                omega
              · intro q hq2 h0
                have hne : (some q.1 : Option Nat) ≠ some v :=
                  fun hc => (mem_ddel.mp hq2).2 (Option.some.inj hc)
                have := inv.exactN q (mem_ddel.mp hq2).1 (hnone' _ hne h0)
                rw [ex_nil]
                omega
              · intro q hq2 h0
                have hne : (some q.1 : Option Nat) ≠ some v :=
                  fun hc => (mem_ddel.mp hq2).2 (Option.some.inj hc)
                have := inv.exactP q (mem_ddel.mp hq2).1 (hnone' _ hne h0)
                rw [ex_nil]
                omega
              · exact fun q hq2 => inv.pos q (mem_ddel.mp hq2).1
              · intro c hc k hk hkne
                exact dmem_ddel_of_ne v (inv.covers c hc k hk) hkne
            rcases runPass_master v aval cs [] (ddel vars v) queue' new mutOld
              vars1 queue1 hrp hsat inv.clsWF with ⟨r1, r2, r3, r4, r5, r6⟩
            rw [List.nil_append] at r1
            rcases runPass_sound v aval cs (ddel vars v) queue' new mutOld
              vars1 queue1 hrp with ⟨q1, q2, q3⟩
            have hq1nodup : (dkeys queue1).Nodup := r5 hnd'
            have hsomevq1 : (some v : Option Nat) ∉ dkeys queue1 := by
              intro hmm
              rcases r4 _ hmm with h2 | ⟨w', hw', hw'ne, _⟩
              · exact havnot h2
              · exact hw'ne (Option.some.inj hw').symm
            by_cases hnew : new = []
            · subst hnew
              rw [if_pos rfl] at h
              cases h
              have hdisj1 : ∀ k, k ∈ dkeys (dinsert A (some v) aval) →
                  dget queue1 k = Option.none := by
                intro k hk
                rw [dget_eq_none_iff_not_mem]
                rcases List.mem_cons.mp (dkeys_dinsert_subset A (some v) aval hk) with
                  h1 | h1
                · subst h1
                  exact hsomevq1
                · intro hmm
                  rcases r4 _ hmm with h2 | ⟨w', hw', _, c, hc, hwc⟩
                  · have h3 := hAq k h1
                    rw [dget_eq_none_iff_not_mem] at h3
                    exact h3 (hsub' _ h2)
                  · subst hw'
                    exact (inv.disj w' h1).2.1 c hc hwc
              have hmergeA : ∀ k val, dget (dinsert A (some v) aval) k = some val →
                  dget (dmerge (dinsert A (some v) aval) queue1) k = some val := by
                intro k val hv
                rw [dget_dmerge_of_not_mem_right (hdisj1 k
                  (mem_dkeys_iff_dget.mpr (by rw [hv]; rfl)))]
                exact hv
              have hmergeQ : ∀ k val, dget queue1 k = some val →
                  dget (dmerge (dinsert A (some v) aval) queue1) k = some val :=
                fun k val hv => dget_dmerge_right_of_nodup hq1nodup hv
              refine ⟨fun k val hv => hmergeA k val (hstepA k val hv),
                hSQ _ hmergeA (fun k val hv => hmergeQ k val (q1 k val hv)), ?_⟩
              intro c hc
              rcases q3 c hc with ⟨c', hc', _⟩ | ⟨b, hb1, hb2⟩ | ⟨w, p, _, hcw, hqw⟩
              · exact absurd hc' (List.not_mem_nil c')
              · refine Or.inl ⟨v, b, hb1, hmergeA _ _ ?_⟩
                rw [dget_dinsert_self, hb2]
              · exact Or.inl ⟨w, p, hcw, hmergeQ _ _ hqw⟩
            · rw [if_neg hnew] at h
              have inv' : LoopInv vars1 new queue1 (dinsert A (some v) aval) := by
                refine ⟨r1.nodup, fun c' hc' => (r2 c' hc').1, ?_, ?_, ?_, ?_, ?_,
                  r1.pos, r5 hnd', nodup_dkeys_dinsert _ inv.aNodup, ?_⟩
                · intro c' hc' k hk
                  have hkne : k ≠ v := fun hc => (r2 c' hc').2.1 (hc ▸ hk)
                  exact r1.covers c' hc' k hk hkne
                · intro q hq2
                  have := r1.boundN q hq2
                  rw [ex_nil] at this
                  omega
                · intro q hq2
                  have := r1.boundP q hq2
                  rw [ex_nil] at this
                  omega
                · intro q hq2 h0
                  have := r1.exactN q hq2 h0
                  rw [ex_nil] at this
                  omega
                · intro q hq2 h0
                  have := r1.exactP q hq2 h0
                  rw [ex_nil] at this
                  omega
                · intro w hw
                  rcases List.mem_cons.mp
                    (dkeys_dinsert_subset A (some v) aval hw) with h1 | h1
                  · have hwv : w = v := Option.some.inj h1
                    subst hwv
                    refine ⟨?_, fun c' hc' => (r2 c' hc').2.1, ?_⟩
                    · rw [dmem_eq_false_iff]
                      exact fun hmm => not_mem_dkeys_ddel_self vars w (r6 hmm)
                    · rw [dget_eq_none_iff_not_mem]
                      exact hsomevq1
                  · rcases inv.disj w h1 with ⟨hd1, hd2, hd3⟩
                    refine ⟨?_, ?_, ?_⟩
                    · rw [dmem_eq_false_iff]
                      intro hmm
                      rw [dmem_eq_false_iff] at hd1
                      exact hd1 (dkeys_ddel_subset vars v (r6 hmm))
                    · intro c' hc' hwk
                      rcases (r2 c' hc').2.2 with ⟨c, hc, hsubk⟩
                      exact hd2 c hc (hsubk w hwk)
                    · rw [dget_eq_none_iff_not_mem]
                      intro hmm
                      rcases r4 _ hmm with h2 | ⟨w', hw', _, c, hc, hwc⟩
                      · rw [dget_eq_none_iff_not_mem] at hd3
                        exact hd3 (hsub' _ h2)
                      · have : w' = w := (Option.some.inj hw').symm
                        subst this
                        exact hd2 c hc hwc
              have hA0' : Option.none ∈ dkeys (dinsert A (some v) aval) →
                  dget queue1 Option.none = Option.none := by
                intro hk
                rcases List.mem_cons.mp
                  (dkeys_dinsert_subset A (some v) aval hk) with h1 | h1
                · exact absurd h1 (fun hc => Option.noConfusion hc)
                · exact q2 (hnone _ (hA0 h1))
              rcases ih vars1 new queue1 (dinsert A (some v) aval) Af F' h inv' hA0'
                with ⟨s1, s2, s3⟩
              refine ⟨fun k val hv => s1 k val (hstepA k val hv),
                hSQ Af s1 (fun k val hv => s2 k val (q1 k val hv)), ?_⟩
              intro c hc
              rcases q3 c hc with ⟨c', hc', hdesc⟩ | ⟨b, hb1, hb2⟩ |
                ⟨w, p, _, hcw, hqw⟩
              · rcases s3 c' hc' with ⟨w, b, hw, hR⟩ | ⟨c'', hc'', hdesc2⟩
                · exact Or.inl ⟨w, b, hdesc w b hw, hR⟩
                · exact Or.inr ⟨c'', hc'', fun w b hb => hdesc w b (hdesc2 w b hb)⟩
              · refine Or.inl ⟨v, b, hb1, s1 _ _ ?_⟩
                rw [dget_dinsert_self, hb2]
              · exact Or.inl ⟨w, p, hcw, s2 _ _ hqw⟩
          · dsimp only at h
            cases h
        · rw [if_neg hm] at h
          have hmf : dmem vars v = false := by
            cases hmv : dmem vars v
            · rfl
            · exact absurd hmv hm
          have inv' : LoopInv vars cs queue' (dinsert A (some v) aval) := by
            have hq1ne : ∀ q : Nat × (Int × Int), q ∈ vars → q.1 ≠ v := by
              intro q hq2 hc
              rw [dmem_eq_false_iff] at hmf
              exact hmf (hc ▸ List.mem_map_of_mem Prod.fst hq2)
            refine ⟨inv.varsNodup, inv.clsWF, inv.covers, inv.boundN, inv.boundP,
              ?_, ?_, inv.pos, hnd', nodup_dkeys_dinsert _ inv.aNodup, ?_⟩
            · intro q hq2 h0
              exact inv.exactN q hq2 (hnone' _
                (fun hc => hq1ne q hq2 (Option.some.inj hc)) h0)
            · intro q hq2 h0
              exact inv.exactP q hq2 (hnone' _
                (fun hc => hq1ne q hq2 (Option.some.inj hc)) h0)
            · intro w hw
              rcases List.mem_cons.mp
                (dkeys_dinsert_subset A (some v) aval hw) with h1 | h1
              · have hwv : w = v := Option.some.inj h1
                subst hwv
                refine ⟨hmf, ?_, ?_⟩
                · intro c hc hwk
                  rw [dmem_eq_false_iff] at hmf
                  exact hmf (dmem_iff_mem_dkeys.mp (inv.covers c hc w hwk))
                · rw [dget_eq_none_iff_not_mem]
                  exact havnot
              · exact ⟨(inv.disj w h1).1, (inv.disj w h1).2.1,
                  hnone _ (inv.disj w h1).2.2⟩
          have hA0' : Option.none ∈ dkeys (dinsert A (some v) aval) →
              dget queue' Option.none = Option.none := by
            intro hk
            rcases List.mem_cons.mp
              (dkeys_dinsert_subset A (some v) aval hk) with h1 | h1
            · exact absurd h1 (fun hc => Option.noConfusion hc)
            · exact hnone _ (hA0 h1)
          rcases ih vars cs queue' (dinsert A (some v) aval) Af F' h inv' hA0' with
            ⟨s1, s2, s3⟩
          exact ⟨fun k val hv => s1 k val (hstepA k val hv), hSQ Af s1 s2, s3⟩

theorem dget_dmerge_left_of_not_mem {K V : Type} [DecidableEq K]
    {a b : PyDict K V} {k : K} {v : V} (h : dget a k = some v)
    (hb : k ∉ dkeys b) : dget (dmerge a b) k = some v := by
  rw [dget_dmerge_of_not_mem_right (dget_eq_none_iff_not_mem.mpr hb)]
  exact h

theorem dget_encode (a : Assignment) (k : Option Nat) :
    dget (encode a) k = Option.map (fun ov => match ov with
      | Option.none => PVal.vnone
      | some b => PVal.vb b) (dget a k) := by
  induction a with
  | nil => rfl
  | cons p rest ih =>
    rw [show encode (p :: rest) = (p.1, match p.2 with
      | Option.none => PVal.vnone
      | some b => PVal.vb b) :: encode rest from rfl]
    by_cases hp : p.1 = k
    · rw [dget, if_pos hp, dget, if_pos hp]
      rfl
    · rw [dget, if_neg hp, dget, if_neg hp, ih]

/-- The pure-variable scan produces a duplicate-free map whose keys are
(real) variables of the index it scans. -/
theorem pureVariables_facts (vs : Vars) :
    (dkeys (pureVariables vs)).Nodup ∧
    (∀ k ∈ dkeys (pureVariables vs), ∃ w, k = some w ∧ w ∈ dkeys vs) := by
  have aux : ∀ (l : Vars) (acc : Assignment), (dkeys acc).Nodup →
      (dkeys (l.foldl (fun q p =>
        if p.2.2 = 0 then dinsert q (some p.1) (some false)
        else if p.2.1 = 0 then dinsert q (some p.1) (some true)
        else q) acc)).Nodup ∧
      (∀ k ∈ dkeys (l.foldl (fun q p =>
        if p.2.2 = 0 then dinsert q (some p.1) (some false)
        else if p.2.1 = 0 then dinsert q (some p.1) (some true)
        else q) acc), k ∈ dkeys acc ∨ ∃ w, k = some w ∧ w ∈ dkeys l) := by
    intro l
    induction l with
    | nil => exact fun acc hnd => ⟨hnd, fun k hk => Or.inl hk⟩
    | cons q rest ih =>
      intro acc hnd
      rw [List.foldl_cons]
      have hmem : ∀ (acc' : Assignment),
          (∀ k ∈ dkeys acc', k ∈ dkeys acc ∨ k = some q.1) →
          (dkeys acc').Nodup →
          (dkeys (rest.foldl (fun q p =>
            if p.2.2 = 0 then dinsert q (some p.1) (some false)
            else if p.2.1 = 0 then dinsert q (some p.1) (some true)
            else q) acc')).Nodup ∧
          (∀ k ∈ dkeys (rest.foldl (fun q p =>
            if p.2.2 = 0 then dinsert q (some p.1) (some false)
            else if p.2.1 = 0 then dinsert q (some p.1) (some true)
            else q) acc'), k ∈ dkeys acc ∨ ∃ w, k = some w ∧
              w ∈ dkeys (q :: rest)) := by
        intro acc' hsub hnd'
        rcases ih acc' hnd' with ⟨h1, h2⟩
        refine ⟨h1, fun k hk => ?_⟩
        rcases h2 k hk with hk1 | ⟨w, rfl, hw⟩
        · rcases hsub k hk1 with hk2 | hk2
          · exact Or.inl hk2
          · exact Or.inr ⟨q.1, hk2, by rw [dkeys_cons]; exact List.mem_cons_self _ _⟩
        · exact Or.inr ⟨w, rfl, by rw [dkeys_cons]; exact List.mem_cons_of_mem _ hw⟩
      have hinssub : ∀ (b : Bool) (k : Option Nat),
          k ∈ dkeys (dinsert acc (some q.1) (some b)) →
          k ∈ dkeys acc ∨ k = some q.1 := by
        intro b k hk
        rcases List.mem_cons.mp (dkeys_dinsert_subset acc (some q.1) (some b) hk) with
          h1 | h1
        · exact Or.inr h1
        · exact Or.inl h1
      by_cases hz2 : q.2.2 = 0
      · rw [if_pos hz2]
        exact hmem _ (hinssub false) (nodup_dkeys_dinsert _ hnd)
      · rw [if_neg hz2]
        by_cases hz1 : q.2.1 = 0
        · rw [if_pos hz1]
          exact hmem _ (hinssub true) (nodup_dkeys_dinsert _ hnd)
        · rw [if_neg hz1]
          exact hmem acc (fun k hk => Or.inl hk) hnd
  rcases aux vs [] List.nodup_nil with ⟨h1, h2⟩
  refine ⟨h1, fun k hk => ?_⟩
  rcases h2 k hk with hk1 | hk1
  · exact absurd hk1 (List.not_mem_nil k)
  · exact hk1

/-- `findUnit` returning a unit literal means some clause of the list is
exactly that one-literal clause. -/
theorem findUnit_mem :
    ∀ (cs : List Clause) (v : Nat) (p : Bool),
      findUnit cs = some (some (v, p)) →
      ∃ c ∈ cs, c.variables' = [(v, p)] := by
  intro cs
  induction cs with
  | nil =>
    intro v p h
    cases h
  | cons c rest ih =>
    intro v p h
    rw [findUnit] at h
    rcases hcv : c.variables' with _ | ⟨q1, rest1⟩
    · rw [hcv] at h
      cases h
    · rcases rest1 with _ | ⟨q2, rest2⟩
      · rw [hcv] at h
        cases h
        exact ⟨c, List.mem_cons_self _ _, hcv⟩
      · rw [hcv] at h
        rcases ih v p h with ⟨c', hc', he⟩
        exact ⟨c', List.mem_cons_of_mem _ hc', he⟩

/-- The state well-formedness carried through the search: duplicate-free
key lists, and — whenever live clauses remain, i.e. whenever the early
`propagate` exit has not already stripped the formula — the exact
occurrence-index invariant with positive counters. -/
def StateWF (F : Cnf) : Prop :=
  (dkeys F.variables').Nodup ∧ (∀ c ∈ F.clauses, (dkeys c.variables').Nodup) ∧
  (F.clauses ≠ [] → CountsInv F ∧ ∀ q ∈ F.variables', 0 < q.2.1 + q.2.2)

/-- A `propagate` run on a formula with no live clauses: the clause list
stays empty, the index only shrinks, and the returned map draws its keys
from the accumulated assumptions and the queue. -/
theorem propagateLoop_nil (fuel : Nat) :
    ∀ (vars : Vars) (queue A Af : Assignment) (F' : Cnf),
      propagateLoop fuel vars [] queue A = some (.ok Af, F') →
      (dkeys queue).Nodup → (dkeys A).Nodup → (dkeys vars).Nodup →
      F'.clauses = [] ∧ (dkeys F'.variables').Nodup ∧
      dkeys F'.variables' ⊆ dkeys vars ∧
      (∀ k ∈ dkeys Af, k ∈ dkeys A ∨ k ∈ dkeys queue) ∧
      (dkeys Af).Nodup := by
  induction fuel with
  | zero =>
    intro vars queue A Af F' h hqnd hand hvnd
    simp [propagateLoop] at h
  | succ fuel ih =>
    intro vars queue A Af F' h hqnd hand hvnd
    rw [propagateLoop] at h
    rcases hq : dpop queue with _ | ⟨⟨av, aval⟩, queue'⟩
    · rw [hq] at h
      cases h
      exact ⟨rfl, hvnd, fun a ha => ha, fun k hk => Or.inl hk, hand⟩
    · rw [hq] at h
      rcases dpop_facts hq hqnd with ⟨hnd', havnot, havmem, hsub', _, _⟩
      rcases av with _ | v
      · rcases ih vars queue' (dinsert A Option.none aval) Af F' h hnd'
          (nodup_dkeys_dinsert _ hand) hvnd with ⟨c1, c2, c3, c4, c5⟩
        refine ⟨c1, c2, c3, ?_, c5⟩
        intro k hk
        rcases c4 k hk with h1 | h1
        · rcases List.mem_cons.mp (dkeys_dinsert_subset A Option.none aval h1) with
            h2 | h2
          · subst h2
            exact Or.inr havmem
          · exact Or.inl h2
        · exact Or.inr (hsub' _ h1)
      · dsimp only at h
        by_cases hm : dmem vars v
        · rw [if_pos hm] at h
          rw [show runPass v aval [] (ddel vars v) queue' =
            ([], [], ddel vars v, queue', Option.none) from rfl] at h
          dsimp only at h
          rw [if_pos rfl] at h
          cases h
          refine ⟨rfl, nodup_dkeys_ddel v hvnd, dkeys_ddel_subset vars v, ?_,
            nodup_dkeys_dmerge _ (nodup_dkeys_dinsert _ hand)⟩
          intro k hk
          rcases dkeys_dmerge_mem hk with h1 | h1
          · rcases List.mem_cons.mp (dkeys_dinsert_subset A (some v) aval h1) with
              h2 | h2
            · subst h2
              exact Or.inr havmem
            · exact Or.inl h2
          · exact Or.inr (hsub' _ h1)
        · rw [if_neg hm] at h
          rcases ih vars queue' (dinsert A (some v) aval) Af F' h hnd'
            (nodup_dkeys_dinsert _ hand) hvnd with ⟨c1, c2, c3, c4, c5⟩
          refine ⟨c1, c2, c3, ?_, c5⟩
          intro k hk
          rcases c4 k hk with h1 | h1
          · rcases List.mem_cons.mp (dkeys_dinsert_subset A (some v) aval h1) with
              h2 | h2
            · subst h2
              exact Or.inr havmem
            · exact Or.inl h2
          · exact Or.inr (hsub' _ h1)

/-- Master lemma for `unit_propagate`: on a successful run the
accumulated assignments survive, every input clause is satisfied by the
returned map or survives as a descendant, returned keys are real
variables of the index, and the final state is well-formed — with the
exact invariant and disjointness from the returned map whenever live
clauses remain. -/
theorem unitPropagateLoop_sound (fuel : Nat) :
    ∀ (vars : Vars) (cs : List Clause) (A Af : Assignment) (F' : Cnf),
      unitPropagateLoop fuel vars cs A = some (.ok Af, F') →
      (dkeys vars).Nodup →
      (∀ c ∈ cs, (dkeys c.variables').Nodup) →
      (cs ≠ [] → CountsInv ⟨vars, cs⟩ ∧ ∀ q ∈ vars, 0 < q.2.1 + q.2.2) →
      (dkeys A).Nodup →
      (cs ≠ [] → ∀ w, some w ∈ dkeys A →
        dmem vars w = false ∧ ∀ c ∈ cs, w ∉ dkeys c.variables') →
      (∀ k val, dget A k = some val → dget Af k = some val) ∧
      (∀ c ∈ cs, okClause Af c ∨ ∃ c' ∈ F'.clauses, descend c' c) ∧
      (∀ k ∈ dkeys Af, k ∈ dkeys A ∨ ∃ w, k = some w ∧ w ∈ dkeys vars) ∧
      (dkeys Af).Nodup ∧
      (dkeys F'.variables').Nodup ∧
      (∀ c ∈ F'.clauses, (dkeys c.variables').Nodup) ∧
      dkeys F'.variables' ⊆ dkeys vars ∧
      (F'.clauses ≠ [] → CountsInv F' ∧ (∀ q ∈ F'.variables', 0 < q.2.1 + q.2.2) ∧
        (∀ w, some w ∈ dkeys Af →
          dmem F'.variables' w = false ∧ ∀ c ∈ F'.clauses, w ∉ dkeys c.variables')) := by
  induction fuel with
  | zero =>
    intro vars cs A Af F' h hvnd hcwf hrest hand hdisj
    simp [unitPropagateLoop] at h
  | succ fuel ih =>
    intro vars cs A Af F' h hvnd hcwf hrest hand hdisj
    rw [unitPropagateLoop] at h
    by_cases hcs : cs = []
    · rw [if_pos hcs] at h
      cases h
      subst hcs
      exact ⟨fun k val hv => hv, fun c hc => absurd hc (List.not_mem_nil c),
        fun k hk => Or.inl hk, hand, hvnd, hcwf, fun a ha => ha,
        fun hne => absurd rfl hne⟩
    · rw [if_neg hcs] at h
      rcases hfu : findUnit cs with _ | u
      · rw [hfu] at h
        cases h
        refine ⟨fun k val hv => hv, fun c hc => Or.inr ⟨c, hc, fun w b hb => hb⟩,
          fun k hk => Or.inl hk, hand, hvnd, hcwf, fun a ha => ha, ?_⟩
        intro _
        rcases hrest hcs with ⟨hci, hpos⟩
        exact ⟨hci, hpos, fun w hw => hdisj hcs w hw⟩
      · rcases u with _ | ⟨v, p⟩
        · rw [hfu] at h
          cases h
        · rw [hfu] at h
          dsimp only at h
          rcases hpl : propagateLoop fuel vars cs [(some v, some p)] [] with _ | ⟨r, F2⟩
          · rw [hpl] at h
            cases h
          · rw [hpl] at h
            rcases r with e | prop
            · dsimp only at h
              cases h
            · dsimp only at h
              rcases hrest hcs with ⟨hci, hpos⟩
              have inv0 : LoopInv vars cs [(some v, some p)] [] := by
                refine ⟨hvnd, hcwf, hci.2, fun q hq => le_of_eq (hci.1 q hq).1.symm,
                  fun q hq => le_of_eq (hci.1 q hq).2.symm,
                  fun q hq _ => (hci.1 q hq).1, fun q hq _ => (hci.1 q hq).2,
                  hpos, List.nodup_singleton _, List.nodup_nil,
                  fun w hw => absurd hw (List.not_mem_nil _)⟩
              rcases propagateLoop_master fuel vars cs [(some v, some p)] [] prop F2
                hpl inv0 with ⟨ub, hex, hsubv, hdom, hpnodup⟩
              rcases propagateLoop_sound fuel vars cs [(some v, some p)] [] prop F2
                hpl inv0 (fun hm => absurd hm (List.not_mem_nil _)) with ⟨_, s2, s3⟩
              have hvmem : v ∈ dkeys vars := by
                rcases findUnit_mem cs v p hfu with ⟨c, hc, hce⟩
                have hvc : v ∈ dkeys c.variables' := by
                  rw [hce]
                  exact List.mem_singleton.mpr rfl
                exact dmem_iff_mem_dkeys.mp (hci.2 c hc v hvc)
              have hpropkeys : ∀ k ∈ dkeys prop, ∃ w, k = some w ∧ w ∈ dkeys vars := by
                intro k hk
                rcases hdom k hk with h1 | h1 | ⟨w, rfl, hw⟩
                · exact absurd h1 (List.not_mem_nil k)
                · exact ⟨v, List.mem_singleton.mp h1, hvmem⟩
                · exact ⟨w, rfl, hw⟩
              have hstepA : ∀ k val, dget A k = some val →
                  dget (dmerge A prop) k = some val := by
                intro k val hv
                refine dget_dmerge_left_of_not_mem hv ?_
                intro hk
                rcases hpropkeys k hk with ⟨w, rfl, hwv⟩
                have hd1 := (hdisj hcs w (mem_dkeys_iff_dget.mpr (by rw [hv]; rfl))).1
                rw [dmem_eq_false_iff] at hd1
                exact hd1 hwv
              have hstepP : ∀ k val, dget prop k = some val →
                  dget (dmerge A prop) k = some val :=
                fun k val hv => dget_dmerge_right_of_nodup hpnodup hv
              have hdisj' : F2.clauses ≠ [] → ∀ w, some w ∈ dkeys (dmerge A prop) →
                  dmem F2.variables' w = false ∧
                  ∀ c ∈ F2.clauses, w ∉ dkeys c.variables' := by
                intro hne w hw
                have inv2 := hex hne
                rcases dkeys_dmerge_mem hw with h1 | h1
                · rcases hdisj hcs w h1 with ⟨hd1, hd2⟩
                  rw [dmem_eq_false_iff] at hd1
                  constructor
                  · rw [dmem_eq_false_iff]
                    intro hmm
                    exact hd1 (hsubv hmm)
                  · intro c' hc' hwk
                    exact hd1 (hsubv (dmem_iff_mem_dkeys.mp
                      (inv2.covers c' hc' w hwk)))
                · exact ⟨(inv2.disj w h1).1, (inv2.disj w h1).2.1⟩
              have hrest' : F2.clauses ≠ [] →
                  CountsInv F2 ∧ ∀ q ∈ F2.variables', 0 < q.2.1 + q.2.2 := by
                intro hne
                have inv2 := hex hne
                exact ⟨⟨fun q hq => ⟨inv2.exactN q hq rfl, inv2.exactP q hq rfl⟩,
                  inv2.covers⟩, inv2.pos⟩
              rcases ih F2.variables' F2.clauses (dmerge A prop) Af F' h ub.varsNodup
                ub.clsWF hrest' (nodup_dkeys_dmerge _ hand) hdisj' with
                ⟨u1, u2, u3, u4, u5, u6, u7, u8⟩
              refine ⟨fun k val hv => u1 k val (hstepA k val hv), ?_, ?_, u4, u5, u6,
                fun a ha => hsubv (u7 ha), u8⟩
              · intro c hc
                rcases s3 c hc with ⟨w, b, hw, hp⟩ | ⟨c', hc', hdesc⟩
                · exact Or.inl ⟨w, b, hw, u1 _ _ (hstepP _ _ hp)⟩
                · rcases u2 c' hc' with ⟨w, b, hw, hfinal⟩ | ⟨c'', hc'', hdesc2⟩
                  · exact Or.inl ⟨w, b, hdesc w b hw, hfinal⟩
                  · exact Or.inr ⟨c'', hc'', fun w b hb => hdesc w b (hdesc2 w b hb)⟩
              · intro k hk
                rcases u3 k hk with h1 | ⟨w, rfl, hw⟩
                · rcases dkeys_dmerge_mem h1 with h2 | h2
                  · exact Or.inl h2
                  · rcases hpropkeys k h2 with ⟨w, rfl, hwv⟩
                    exact Or.inr ⟨w, rfl, hwv⟩
                · exact Or.inr ⟨w, rfl, hsubv hw⟩

/-- Soundness of the search driver `dpll`: on a well-formed state, a
successful run returns a map that satisfies every live clause of the
input formula outright, whose keys are `None` or real variables of the
input index, and whose key list is duplicate-free. -/
theorem dpll_sound (rfuel : Nat) :
    ∀ (pfuel : Nat) (F : Cnf) (D : Assignment),
      dpll rfuel pfuel F = some (.ok D) →
      StateWF F →
      (∀ c ∈ F.clauses, okClause D c) ∧
      (∀ k ∈ dkeys D, k = Option.none ∨ ∃ w, k = some w ∧ w ∈ dkeys F.variables') ∧
      (dkeys D).Nodup := by
  induction rfuel with
  | zero =>
    intro pfuel F D h
    simp [dpll] at h
  | succ rfuel ih =>
    intro pfuel F D h hWF
    rcases hWF with ⟨hvnd, hcwf, hrest⟩
    rw [dpll] at h
    rcases hup : Cnf.unit_propagate pfuel F with _ | ⟨r, F1⟩
    · rw [hup] at h
      cases h
    · rw [hup] at h
      rcases r with e | variables1
      · dsimp only at h
        cases h
      · dsimp only at h
        rcases unitPropagateLoop_sound pfuel F.variables' F.clauses [] variables1 F1
          hup hvnd hcwf hrest List.nodup_nil
          (fun _ w hw => absurd hw (List.not_mem_nil _)) with
          ⟨_, u2, u3, u4, u5, u6, u7, u8⟩
        rcases hdl : dynamic_largest F1.variables' with ⟨var, guess⟩
        rw [hdl] at h
        dsimp only at h
        have hvarmem : var = Option.none ∨
            ∃ u, var = some u ∧ u ∈ dkeys F1.variables' := by
          rcases dynamic_largest_cases F1.variables' with hcase | ⟨w, b, hcase, hw⟩
          · rw [hdl] at hcase
            exact Or.inl (congrArg Prod.fst hcase)
          · rw [hdl] at hcase
            exact Or.inr ⟨w, congrArg Prod.fst hcase, hw⟩
        have hbranch : ∀ (g : Option Bool) (prop : Assignment) (F2 : Cnf),
            Cnf.propagate pfuel F1 [(var, g)] = some (.ok prop, F2) →
            (∀ c ∈ F1.clauses, okClause prop c ∨ ∃ c' ∈ F2.clauses, descend c' c) ∧
            (∀ k ∈ dkeys prop, k = var ∨
              ∃ w, k = some w ∧ w ∈ dkeys F1.variables') ∧
            (dkeys prop).Nodup ∧
            dkeys F2.variables' ⊆ dkeys F1.variables' ∧
            StateWF F2 ∧
            (F2.clauses ≠ [] → ∀ w, some w ∈ dkeys prop →
              dmem F2.variables' w = false ∧
              ∀ c ∈ F2.clauses, w ∉ dkeys c.variables') := by
          intro g prop F2 hp
          by_cases hF1 : F1.clauses = []
          · have hp' : propagateLoop pfuel F1.variables' [] [(var, g)] [] =
                some (.ok prop, F2) := by
              rw [← hF1]
              exact hp
            rcases propagateLoop_nil pfuel F1.variables' [(var, g)] [] prop F2 hp'
              (List.nodup_singleton _) List.nodup_nil u5 with ⟨n1, n2, n3, n4, n5⟩
            refine ⟨?_, ?_, n5, n3, ⟨n2, ?_, ?_⟩, ?_⟩
            · intro c hc
              rw [hF1] at hc
              exact absurd hc (List.not_mem_nil c)
            · intro k hk
              rcases n4 k hk with h1 | h1
              · exact absurd h1 (List.not_mem_nil k)
              · exact Or.inl (List.mem_singleton.mp h1)
            · rw [n1]
              exact fun c hc => absurd hc (List.not_mem_nil c)
            · rw [n1]
              exact fun hne => absurd rfl hne
            · rw [n1]
              exact fun hne => absurd rfl hne
          · rcases u8 hF1 with ⟨hci1, hpos1, _⟩
            have inv0 : LoopInv F1.variables' F1.clauses [(var, g)] [] := by
              refine ⟨u5, u6, hci1.2, fun q hq => le_of_eq (hci1.1 q hq).1.symm,
                fun q hq => le_of_eq (hci1.1 q hq).2.symm,
                fun q hq _ => (hci1.1 q hq).1, fun q hq _ => (hci1.1 q hq).2,
                hpos1, List.nodup_singleton _, List.nodup_nil,
                fun w hw => absurd hw (List.not_mem_nil _)⟩
            rcases propagateLoop_master pfuel F1.variables' F1.clauses [(var, g)] []
              prop F2 hp inv0 with ⟨ub, hex, hsubv, hdom, hpnodup⟩
            rcases propagateLoop_sound pfuel F1.variables' F1.clauses [(var, g)] []
              prop F2 hp inv0 (fun hm => absurd hm (List.not_mem_nil _)) with
              ⟨_, _, s3⟩
            refine ⟨s3, ?_, hpnodup, hsubv, ⟨ub.varsNodup, ub.clsWF, ?_⟩, ?_⟩
            · intro k hk
              rcases hdom k hk with h1 | h1 | ⟨w, rfl, hw⟩
              · exact absurd h1 (List.not_mem_nil k)
              · exact Or.inl (List.mem_singleton.mp h1)
              · exact Or.inr ⟨w, rfl, hw⟩
            · intro hne
              have inv2 := hex hne
              exact ⟨⟨fun q hq => ⟨inv2.exactN q hq rfl, inv2.exactP q hq rfl⟩,
                inv2.covers⟩, inv2.pos⟩
            · intro hne w hw
              have inv2 := hex hne
              exact ⟨(inv2.disj w hw).1, (inv2.disj w hw).2.1⟩
        have hcase_empty : ∀ (g : Option Bool) (prop : Assignment) (F2 : Cnf),
            Cnf.propagate pfuel F1 [(var, g)] = some (.ok prop, F2) →
            F2.clauses = [] →
            (∀ c ∈ F.clauses, okClause (dmerge prop variables1) c) ∧
            (∀ k ∈ dkeys (dmerge prop variables1), k = Option.none ∨
              ∃ w, k = some w ∧ w ∈ dkeys F.variables') ∧
            (dkeys (dmerge prop variables1)).Nodup := by
          intro g prop F2 hp hempty
          rcases hbranch g prop F2 hp with ⟨b1, b2, b3, _, _, _⟩
          have hsurvV : ∀ k val, dget variables1 k = some val →
              dget (dmerge prop variables1) k = some val :=
            fun k val hv => dget_dmerge_right_of_nodup u4 hv
          have hsurvP : ∀ w (val : Option Bool), F1.clauses ≠ [] →
              dget prop (some w) = some val →
              dget (dmerge prop variables1) (some w) = some val := by
            intro w val hne hv
            have hwk : (some w : Option Nat) ∈ dkeys prop :=
              mem_dkeys_iff_dget.mpr (by rw [hv]; rfl)
            have hwmem : w ∈ dkeys F1.variables' := by
              rcases b2 _ hwk with h1 | ⟨w', hww', hw'⟩
              · rcases hvarmem with hv0 | ⟨u, hvu, hu⟩
                · rw [hv0] at h1
                  cases h1
                · rw [hvu] at h1
                  rwa [Option.some.inj h1]
              · rwa [Option.some.inj hww']
            refine dget_dmerge_left_of_not_mem hv ?_
            intro hk
            rcases u8 hne with ⟨_, _, hdisj1⟩
            have hd := (hdisj1 w hk).1
            rw [dmem_eq_false_iff] at hd
            exact hd hwmem
          refine ⟨?_, ?_, nodup_dkeys_dmerge _ b3⟩
          · intro c hc
            rcases u2 c hc with ⟨w, b, hw, hV⟩ | ⟨c1, hc1, hdesc1⟩
            · exact ⟨w, b, hw, hsurvV _ _ hV⟩
            · have hne : F1.clauses ≠ [] := List.ne_nil_of_mem hc1
              rcases b1 c1 hc1 with ⟨w, b, hw1, hP⟩ | ⟨c2, hc2, _⟩
              · exact ⟨w, b, hdesc1 w b hw1, hsurvP w (some b) hne hP⟩
              · rw [hempty] at hc2
                exact absurd hc2 (List.not_mem_nil c2)
          · intro k hk
            rcases dkeys_dmerge_mem hk with h1 | h1
            · rcases b2 k h1 with h2 | ⟨w, rfl, hw⟩
              · subst h2
                rcases hvarmem with hv0 | ⟨u, hvu, hu⟩
                · exact Or.inl hv0
                · exact Or.inr ⟨u, hvu, u7 hu⟩
              · exact Or.inr ⟨w, rfl, u7 hw⟩
            · rcases u3 k h1 with h2 | ⟨w, rfl, hw⟩
              · exact absurd h2 (List.not_mem_nil k)
              · exact Or.inr ⟨w, rfl, hw⟩
        have hcase_rec : ∀ (g : Option Bool) (prop B : Assignment) (F2 : Cnf),
            Cnf.propagate pfuel F1 [(var, g)] = some (.ok prop, F2) →
            F2.clauses ≠ [] →
            dpll rfuel pfuel F2 = some (.ok B) →
            (∀ c ∈ F.clauses, okClause (dmerge variables1 (dmerge B prop)) c) ∧
            (∀ k ∈ dkeys (dmerge variables1 (dmerge B prop)), k = Option.none ∨
              ∃ w, k = some w ∧ w ∈ dkeys F.variables') ∧
            (dkeys (dmerge variables1 (dmerge B prop))).Nodup := by
          intro g prop B F2 hp hne2 hrec
          rcases hbranch g prop F2 hp with ⟨b1, b2, b3, b4, b5, b6⟩
          have hne1 : F1.clauses ≠ [] := by
            intro hh
            have hp' : propagateLoop pfuel F1.variables' [] [(var, g)] [] =
                some (.ok prop, F2) := by
              rw [← hh]
              exact hp
            rcases propagateLoop_nil pfuel F1.variables' [(var, g)] [] prop F2 hp'
              (List.nodup_singleton _) List.nodup_nil u5 with ⟨n1, _⟩
            exact hne2 n1
          rcases u8 hne1 with ⟨_, _, hdisj1⟩
          rcases ih pfuel F2 B hrec b5 with ⟨d1, d2, d3⟩
          have hNkeys : ∀ w : Nat, (some w) ∈ dkeys (dmerge B prop) →
              w ∈ dkeys F1.variables' := by
            intro w hw
            rcases dkeys_dmerge_mem hw with h1 | h1
            · rcases d2 _ h1 with h2 | ⟨w', hww', hw'⟩
              · cases h2
              · rw [Option.some.inj hww']
                exact b4 hw'
            · rcases b2 _ h1 with h2 | ⟨w', hww', hw'⟩
              · rcases hvarmem with hv0 | ⟨u, hvu, hu⟩
                · rw [hv0] at h2
                  cases h2
                · rw [hvu] at h2
                  rw [Option.some.inj h2]
                  exact hu
              · rw [Option.some.inj hww']
                exact hw'
          have hsurvV1 : ∀ w (val : Option Bool), dget variables1 (some w) = some val →
              dget (dmerge variables1 (dmerge B prop)) (some w) = some val := by
            intro w val hv
            refine dget_dmerge_left_of_not_mem hv ?_
            intro hk
            have hd := (hdisj1 w (mem_dkeys_iff_dget.mpr (by rw [hv]; rfl))).1
            rw [dmem_eq_false_iff] at hd
            exact hd (hNkeys w hk)
          have hNnodup : (dkeys (dmerge B prop)).Nodup := nodup_dkeys_dmerge _ d3
          have hsurvP : ∀ w (val : Option Bool), dget prop (some w) = some val →
              dget (dmerge variables1 (dmerge B prop)) (some w) = some val :=
            fun w val hv => dget_dmerge_right_of_nodup hNnodup
              (dget_dmerge_right_of_nodup b3 hv)
          have hsurvB : ∀ w (val : Option Bool), dget B (some w) = some val →
              dget (dmerge variables1 (dmerge B prop)) (some w) = some val := by
            intro w val hv
            have hwB : (some w : Option Nat) ∈ dkeys B :=
              mem_dkeys_iff_dget.mpr (by rw [hv]; rfl)
            have hw2 : w ∈ dkeys F2.variables' := by
              rcases d2 _ hwB with h2 | ⟨w', hww', hw'⟩
              · cases h2
              · rw [Option.some.inj hww']
                exact hw'
            have hpropno : (some w : Option Nat) ∉ dkeys prop := by
              intro hk
              have hd := (b6 hne2 w hk).1
              rw [dmem_eq_false_iff] at hd
              exact hd hw2
            exact dget_dmerge_right_of_nodup hNnodup
              (dget_dmerge_left_of_not_mem hv hpropno)
          refine ⟨?_, ?_, nodup_dkeys_dmerge _ u4⟩
          · intro c hc
            rcases u2 c hc with ⟨w, b, hw, hV⟩ | ⟨c1, hc1, hdesc1⟩
            · exact ⟨w, b, hw, hsurvV1 w _ hV⟩
            · rcases b1 c1 hc1 with ⟨w, b, hw1, hP⟩ | ⟨c2, hc2, hdesc2⟩
              · exact ⟨w, b, hdesc1 w b hw1, hsurvP w _ hP⟩
              · rcases d1 c2 hc2 with ⟨w, b, hw2, hB⟩
                exact ⟨w, b, hdesc1 w b (hdesc2 w b hw2), hsurvB w _ hB⟩
          · intro k hk
            rcases dkeys_dmerge_mem hk with h1 | h1
            · rcases u3 k h1 with h2 | ⟨w, rfl, hw⟩
              · exact absurd h2 (List.not_mem_nil k)
              · exact Or.inr ⟨w, rfl, hw⟩
            · rcases dkeys_dmerge_mem h1 with h2 | h2
              · rcases d2 k h2 with h3 | ⟨w, rfl, hw⟩
                · exact Or.inl h3
                · exact Or.inr ⟨w, rfl, u7 (b4 hw)⟩
              · rcases b2 k h2 with h3 | ⟨w, rfl, hw⟩
                · subst h3
                  rcases hvarmem with hv0 | ⟨u, hvu, hu⟩
                  · exact Or.inl hv0
                  · exact Or.inr ⟨u, hvu, u7 hu⟩
                · exact Or.inr ⟨w, rfl, u7 hw⟩
        have hsecond : ∀ (D' : Assignment),
            ((match Cnf.propagate pfuel F1 [(var, pyNot guess)] with
              | Option.none => Option.none
              | some (Except.error e, _) => some (Except.error e)
              | some (Except.ok propagated, F3) =>
                if F3.clauses = [] then some (Except.ok (dmerge propagated variables1))
                else
                  match dpll rfuel pfuel F3 with
                  | Option.none => Option.none
                  | some (Except.error e) => some (Except.error e)
                  | some (Except.ok B) =>
                    some (Except.ok (dmerge variables1 (dmerge B propagated)))) :
              Option (Except PErr Assignment)) =
              some (Except.ok D') →
            (∀ c ∈ F.clauses, okClause D' c) ∧
            (∀ k ∈ dkeys D', k = Option.none ∨
              ∃ w, k = some w ∧ w ∈ dkeys F.variables') ∧
            (dkeys D').Nodup := by
          intro D' h2
          rcases hp2 : Cnf.propagate pfuel F1 [(var, pyNot guess)] with _ | ⟨r2, F3⟩
          · rw [hp2] at h2
            cases h2
          · rw [hp2] at h2
            rcases r2 with e2 | prop2
            · dsimp only at h2
              cases h2
            · dsimp only at h2
              by_cases hemp : F3.clauses = []
              · rw [if_pos hemp] at h2
                cases h2
                exact hcase_empty (pyNot guess) prop2 F3 hp2 hemp
              · rw [if_neg hemp] at h2
                rcases hrec : dpll rfuel pfuel F3 with _ | r3
                · rw [hrec] at h2
                  cases h2
                · rw [hrec] at h2
                  rcases r3 with e3 | B
                  · dsimp only at h2
                    cases h2
                  · dsimp only at h2
                    cases h2
                    exact hcase_rec (pyNot guess) prop2 B F3 hp2 hemp hrec
        rcases hp1 : Cnf.propagate pfuel F1 [(var, guess)] with _ | ⟨r1, F2⟩
        · rw [hp1] at h
          cases h
        · rw [hp1] at h
          rcases r1 with e1 | prop1
          · rcases e1 with _ | _
            · dsimp only at h
              exact hsecond D h
            · dsimp only at h
              cases h
          · dsimp only at h
            by_cases hemp : F2.clauses = []
            · rw [if_pos hemp] at h
              cases h
              exact hcase_empty guess prop1 F2 hp1 hemp
            · rw [if_neg hemp] at h
              rcases hrec : dpll rfuel pfuel F2 with _ | r2
              · rw [hrec] at h
                cases h
              · rw [hrec] at h
                rcases r2 with e2 | B
                · rcases e2 with _ | _
                  · dsimp only at h
                    exact hsecond D h
                  · dsimp only at h
                    cases h
                · dsimp only at h
                  cases h
                  exact hcase_rec guess prop1 B F2 hp1 hemp hrec

/-- C1 counterexample (coverage half): on the formula built from an
empty clause list with one declared variable, `solve` succeeds and
returns the map `{None: None}` — not the UNSAT sentinel — yet assigns no
value to the original variable 1, so the returned map does not cover
every original variable 1..N. -/
theorem C1_counterexample :
    Cnf.from_list [] 1 = some ⟨[], []⟩ ∧
    solve 5 5 ⟨[], []⟩ = some (.ok [(Option.none, PVal.vnone)]) ∧
    [(Option.none, PVal.vnone)] ≠ sentinel ∧
    dget [(Option.none, PVal.vnone)] (some 1) = Option.none :=
  ⟨by decide, by decide, by decide, rfl⟩

/-- Soundness core of `solve`: a successful non-sentinel result map
satisfies every original clause through a literal of its own parity. -/
theorem solve_ok_satisfies (rfuel pfuel : Nat) (F : Cnf) (R : SolveResult)
    (h : solve rfuel pfuel F = some (.ok R))
    (hsent : R ≠ sentinel)
    (hinv : CountsInv F)
    (hvnd : (dkeys F.variables').Nodup)
    (hcwf : ∀ c ∈ F.clauses, (dkeys c.variables').Nodup)
    (hpos : ∀ q ∈ F.variables', 0 < q.2.1 + q.2.2) :
    ∀ c ∈ F.clauses, ∃ w b, dget c.variables' w = some b ∧
      dget R (some w) = some (PVal.vb b) := by
  rw [solve] at h
  rcases hpp : Cnf.propagate pfuel F (pureVariables F.variables') with _ | ⟨r0, F1⟩
  · rw [hpp] at h
    cases h
  · rw [hpp] at h
    rcases r0 with e0 | variables1
    · rcases e0 with _ | _
      · dsimp only at h
        cases h
        exact absurd rfl hsent
      · dsimp only at h
        cases h
    · dsimp only at h
      rcases pureVariables_facts F.variables' with ⟨pnd, _⟩
      have inv0 : LoopInv F.variables' F.clauses (pureVariables F.variables') [] := by
        refine ⟨hvnd, hcwf, hinv.2, fun q hq => le_of_eq (hinv.1 q hq).1.symm,
          fun q hq => le_of_eq (hinv.1 q hq).2.symm,
          fun q hq _ => (hinv.1 q hq).1, fun q hq _ => (hinv.1 q hq).2,
          hpos, pnd, List.nodup_nil, fun w hw => absurd hw (List.not_mem_nil _)⟩
      rcases propagateLoop_master pfuel F.variables' F.clauses
        (pureVariables F.variables') [] variables1 F1 hpp inv0 with
        ⟨ub1, hex1, _, _, hnd1⟩
      rcases propagateLoop_sound pfuel F.variables' F.clauses
        (pureVariables F.variables') [] variables1 F1 hpp inv0
        (fun hm => absurd hm (List.not_mem_nil _)) with ⟨_, _, s3⟩
      have hSW : StateWF F1 := by
        refine ⟨ub1.varsNodup, ub1.clsWF, ?_⟩
        intro hne
        have inv1 := hex1 hne
        exact ⟨⟨fun q hq => ⟨inv1.exactN q hq rfl, inv1.exactP q hq rfl⟩,
          inv1.covers⟩, inv1.pos⟩
      rcases hdp : dpll rfuel pfuel F1 with _ | r1
      · rw [hdp] at h
        cases h
      · rw [hdp] at h
        rcases r1 with e1 | D
        · rcases e1 with _ | _
          · dsimp only at h
            cases h
            exact absurd rfl hsent
          · dsimp only at h
            cases h
        · dsimp only at h
          cases h
          rcases dpll_sound rfuel pfuel F1 D hdp hSW with ⟨d1, d2, _⟩
          intro c hc
          have hfin : ∀ w (b : Bool),
              dget (dmerge D variables1) (some w) = some (some b) →
              dget (encode (dmerge D variables1)) (some w) = some (PVal.vb b) := by
            intro w b hv
            rw [dget_encode, hv]
            rfl
          rcases s3 c hc with ⟨w, b, hw, hV⟩ | ⟨c1, hc1, hdesc⟩
          · exact ⟨w, b, hw, hfin w b (dget_dmerge_right_of_nodup hnd1 hV)⟩
          · have hne1 : F1.clauses ≠ [] := List.ne_nil_of_mem hc1
            rcases d1 c1 hc1 with ⟨w, b, hw1, hD⟩
            have hwD : (some w : Option Nat) ∈ dkeys D :=
              mem_dkeys_iff_dget.mpr (by rw [hD]; rfl)
            have hw1v : w ∈ dkeys F1.variables' := by
              rcases d2 _ hwD with h2 | ⟨w', hww', hw'⟩
              · cases h2
              · rw [Option.some.inj hww']
                exact hw'
            have hnot : (some w : Option Nat) ∉ dkeys variables1 := by
              intro hk
              have inv1 := hex1 hne1
              have hd := (inv1.disj w hk).1
              rw [dmem_eq_false_iff] at hd
              exact hd hw1v
            exact ⟨w, b, hdesc w b hw1,
              hfin w b (dget_dmerge_left_of_not_mem hD hnot)⟩

/-- C1, amended (soundness half): if `solve` succeeds on a formula whose
index satisfies the exact occurrence invariant with duplicate-free key
lists and positive counters (as `Cnf.from_list` builds), and the result
is not the UNSAT sentinel, then the returned map satisfies every
original clause outright: each clause has a literal whose variable the
map sends to that literal's own parity. (Full coverage of all variables
1..N fails, see the counterexample.) -/
theorem C1_amended (rfuel pfuel : Nat) (F : Cnf) (R : SolveResult)
    (h : solve rfuel pfuel F = some (.ok R))
    (hsent : R ≠ sentinel)
    (hinv : CountsInv F)
    (hvnd : (dkeys F.variables').Nodup)
    (hcwf : ∀ c ∈ F.clauses, (dkeys c.variables').Nodup)
    (hpos : ∀ q ∈ F.variables', 0 < q.2.1 + q.2.2) :
    ∀ c ∈ F.clauses, ∃ w b, dget c.variables' w = some b ∧
      dget R (some w) = some (PVal.vb b) :=
  solve_ok_satisfies rfuel pfuel F R h hsent hinv hvnd hcwf hpos

/-- C1 amended, witness: solving `(1 ∨ 2) ∧ (1 ∨ 3)` (all variables
pure) succeeds with the map `{None: None, 3: True, 2: True, 1: True}`,
and the amended soundness theorem instantiated there yields a satisfying
literal in each of the two clauses. -/
theorem C1_amended_witness :
    solve 5 5 ⟨[(1, ((0 : Int), (2 : Int))), (2, ((0 : Int), (1 : Int))),
        (3, ((0 : Int), (1 : Int)))],
        [⟨[(1, true), (2, true)]⟩, ⟨[(1, true), (3, true)]⟩]⟩ =
      some (.ok [(Option.none, PVal.vnone), (some 3, PVal.vb true),
        (some 2, PVal.vb true), (some 1, PVal.vb true)]) ∧
    (∀ c ∈ ([⟨[(1, true), (2, true)]⟩, ⟨[(1, true), (3, true)]⟩] : List Clause),
      ∃ w b, dget c.variables' w = some b ∧
        dget ([(Option.none, PVal.vnone), (some 3, PVal.vb true),
          (some 2, PVal.vb true), (some 1, PVal.vb true)] : SolveResult) (some w) =
          some (PVal.vb b)) :=
  ⟨by decide,
    C1_amended 5 5 ⟨[(1, ((0 : Int), (2 : Int))), (2, ((0 : Int), (1 : Int))),
        (3, ((0 : Int), (1 : Int)))],
        [⟨[(1, true), (2, true)]⟩, ⟨[(1, true), (3, true)]⟩]⟩
      [(Option.none, PVal.vnone), (some 3, PVal.vb true),
        (some 2, PVal.vb true), (some 1, PVal.vb true)]
      (by decide) (by decide) (by decide) (by decide) (by decide) (by decide)⟩

/-- C3, amended: a successful `propagate` call from a state satisfying
the occurrence-index invariant (with duplicate-free key lists and
positive counter sums, as `Cnf.from_list` builds, and a duplicate-free
queue) preserves the absent-variable half unconditionally — every
variable of a live clause is still present in the index — together with
well-formedness, positivity and the stored counts being upper bounds on
the live occurrence counts; the exact-count half is re-established
precisely when the final clause list is non-empty, i.e. when the early
"already satisfied" exit (which leaves stale index entries behind) was
not taken. Chaining the theorem extends both halves to any sequence of
successful `propagate` calls none of which takes the early exit. -/
theorem C3_amended (fuel : Nat) (F : Cnf) (Q A : Assignment) (F' : Cnf)
    (hrun : Cnf.propagate fuel F Q = some (.ok A, F'))
    (hinv : CountsInv F)
    (hnd : (dkeys F.variables').Nodup)
    (hcwf : ∀ c ∈ F.clauses, (dkeys c.variables').Nodup)
    (hpos : ∀ q ∈ F.variables', 0 < q.2.1 + q.2.2)
    (hqnd : (dkeys Q).Nodup) :
    ((∀ c ∈ F'.clauses, ∀ k ∈ dkeys c.variables', dmem F'.variables' k = true) ∧
     (∀ q ∈ F'.variables', countLit F'.clauses q.1 false ≤ q.2.1 ∧
        countLit F'.clauses q.1 true ≤ q.2.2) ∧
     (dkeys F'.variables').Nodup ∧
     (∀ c ∈ F'.clauses, (dkeys c.variables').Nodup) ∧
     (∀ q ∈ F'.variables', 0 < q.2.1 + q.2.2)) ∧
    (F'.clauses ≠ [] → CountsInv F') := by
  have inv0 : LoopInv F.variables' F.clauses Q [] := by
    refine ⟨hnd, hcwf, hinv.2, ?_, ?_, ?_, ?_, hpos, hqnd, List.nodup_nil, ?_⟩
    · exact fun q hq => le_of_eq (hinv.1 q hq).1.symm
    · exact fun q hq => le_of_eq (hinv.1 q hq).2.symm
    · exact fun q hq _ => (hinv.1 q hq).1
    · exact fun q hq _ => (hinv.1 q hq).2
    · exact fun w hw => absurd hw (List.not_mem_nil _)
  rcases propagateLoop_master fuel F.variables' F.clauses Q [] A F' hrun inv0 with
    ⟨ub, hex, _, _, _⟩
  refine ⟨⟨ub.covers, fun q hq => ⟨ub.boundN q hq, ub.boundP q hq⟩,
    ub.varsNodup, ub.clsWF, ub.pos⟩, ?_⟩
  intro hne
  have inv' := hex hne
  exact ⟨fun q hq => ⟨inv'.exactN q hq rfl, inv'.exactP q hq rfl⟩, inv'.covers⟩

/-- C3 amended, witness: propagating `{2: True}` on the formula
`(1 ∨ 2) ∧ (1 ∨ 3)` succeeds without the early exit, and the resulting
formula `(1 ∨ 3)` with index `{1: (0, 1), 3: (0, 1)}` satisfies the exact
occurrence-index invariant again. -/
theorem C3_amended_witness :
    Cnf.propagate 5 ⟨[(1, ((0 : Int), (2 : Int))), (2, ((0 : Int), (1 : Int))),
        (3, ((0 : Int), (1 : Int)))],
        [⟨[(1, true), (2, true)]⟩, ⟨[(1, true), (3, true)]⟩]⟩ [(some 2, some true)] =
      some (.ok [(some 2, some true)],
        ⟨[(1, ((0 : Int), (1 : Int))), (3, ((0 : Int), (1 : Int)))],
          [⟨[(1, true), (3, true)]⟩]⟩) ∧
    CountsInv ⟨[(1, ((0 : Int), (1 : Int))), (3, ((0 : Int), (1 : Int)))],
      [⟨[(1, true), (3, true)]⟩]⟩ :=
  ⟨by decide,
    (C3_amended 5 ⟨[(1, ((0 : Int), (2 : Int))), (2, ((0 : Int), (1 : Int))),
        (3, ((0 : Int), (1 : Int)))],
        [⟨[(1, true), (2, true)]⟩, ⟨[(1, true), (3, true)]⟩]⟩ [(some 2, some true)]
      [(some 2, some true)]
      ⟨[(1, ((0 : Int), (1 : Int))), (3, ((0 : Int), (1 : Int)))],
        [⟨[(1, true), (3, true)]⟩]⟩
      (by decide) (by decide) (by decide) (by decide) (by decide) (by decide)).2
      (by decide)⟩

/-! ### Heap-level model for clone isolation (`__copy__`)

Python `Clause` objects are mutable cells shared by reference:
`propagate` mutates them in place (`del clause.variables[assume_var]`),
and `Cnf.__copy__` (lines 224-226) allocates fresh cells — a deep copy of
the index and `j.__copy__()` (a fresh dict, lines 30-31) for every
clause.  To state clone isolation we refine the embedding: a `Heap` maps
cell addresses to literal dicts, a formula holds cell addresses, fresh
addresses are drawn from a counter, and the loops of `propagate` /
`unit_propagate` are replayed against the heap, writing a cell exactly
where the Python code mutates a clause dict. -/

/-- The heap of clause cells: address to literal dict. -/
abbrev Heap := PyDict Nat (PyDict Nat Bool)

/-- A formula whose clauses live in the heap. -/
structure CnfR where
  variables' : Vars
  clauseRefs : List Nat
deriving DecidableEq, Repr

instance : DecidableEq (Except PErr Assignment × Heap × CnfR) := by
  intro x y
  rcases x with ⟨a, b, c⟩
  rcases y with ⟨a', b', c'⟩
  exact decidable_of_iff (a = a' ∧ b = b' ∧ c = c') (by
    constructor
    · rintro ⟨rfl, rfl, rfl⟩
      rfl
    · intro hh
      cases hh
      exact ⟨rfl, rfl, rfl⟩)

/-- Reading a clause cell (an absent address yields the empty dict; the
programs below only dereference live addresses). -/
def cellOf (h : Heap) (r : Nat) : PyDict Nat Bool :=
  (dget h r).getD []

/-- `Clause.__copy__` for every clause of a formula (lines 224-226 and
30-31): allocate one fresh cell per clause, contents copied, returning
the new heap, the fresh addresses and the bumped allocation counter. -/
def copyCells : Heap → List Nat → Nat → Heap × List Nat × Nat
  | h, [], n => (h, [], n)
  | h, r :: rest, n =>
    let h1 := dinsert h n (cellOf h r)
    let (h2, rs, n') := copyCells h1 rest (n + 1)
    (h2, n :: rs, n')

/-- `Cnf.__copy__` (lines 224-226): deep-copied index (`variables` holds
immutable pairs, so the value is unchanged) and freshly allocated clause
cells. -/
def CnfR.copy (h : Heap) (F : CnfR) (n : Nat) : Heap × CnfR × Nat :=
  let (h', rs, n') := copyCells h F.clauseRefs n
  (h', ⟨F.variables', rs⟩, n')

/-- The clause pass of `propagate` against the heap: identical dispatch
to `runPass`, with the literal deletion of the shrink branch (line 188)
performed as a heap write at the clause's own address. -/
def runPassR (av : Nat) (aval : Option Bool) :
    List Nat → Heap → Vars → Assignment →
    List Nat × Heap × Vars × Assignment × Option PErr
  | [], h, vars, queue => ([], h, vars, queue, Option.none)
  | r :: rest, h, vars, queue =>
    let c := cellOf h r
    match dget c av with
    | Option.none =>
      let (new, h1, vars1, queue1, err) := runPassR av aval rest h vars queue
      (r :: new, h1, vars1, queue1, err)
    | some cv =>
      if aval = some cv then
        let (vars', queue', err) := propagateSat av c vars queue
        match err with
        | some e => ([], h, vars', queue', some e)
        | Option.none =>
          let (new, h1, vars1, queue1, err2) := runPassR av aval rest h vars' queue'
          (new, h1, vars1, queue1, err2)
      else
        let c' := ddel c av
        let h' := dinsert h r c'
        match c' with
        | [] => ([], h', vars, queue, some PErr.unsat)
        | [(w, p)] =>
          match dget queue (some w) with
          | Option.none =>
            let (new, h1, vars1, queue1, err2) :=
              runPassR av aval rest h' vars (dinsert queue (some w) (some p))
            (new, h1, vars1, queue1, err2)
          | some pair =>
            if pair = some p then
              let (new, h1, vars1, queue1, err2) := runPassR av aval rest h' vars queue
              (new, h1, vars1, queue1, err2)
            else ([], h', vars, queue, some PErr.unsat)
        | _ :: _ :: _ =>
          let (new, h1, vars1, queue1, err2) := runPassR av aval rest h' vars queue
          (r :: new, h1, vars1, queue1, err2)

/-- The `while var_queue` loop of `propagate`, against the heap. -/
def propagateLoopR : Nat → Heap → Vars → List Nat → Assignment → Assignment →
    Option (Except PErr Assignment × Heap × CnfR)
  | 0, _, _, _, _, _ => Option.none
  | fuel+1, h, vars, refs, queue, assumptions =>
    match dpop queue with
    | Option.none => some (.ok assumptions, h, ⟨vars, refs⟩)
    | some ((av, aval), queue') =>
      let assumptions' := dinsert assumptions av aval
      match av with
      | Option.none => propagateLoopR fuel h vars refs queue' assumptions'
      | some v =>
        if dmem vars v then
          let vars0 := ddel vars v
          let (new, h1, vars1, queue1, err) := runPassR v aval refs h vars0 queue'
          match err with
          | some e => some (.error e, h1, ⟨vars1, refs⟩)
          | Option.none =>
            if new = [] then some (.ok (dmerge assumptions' queue1), h1, ⟨vars1, []⟩)
            else propagateLoopR fuel h1 vars1 new queue1 assumptions'
        else propagateLoopR fuel h vars refs queue' assumptions'

/-- `Cnf.propagate` against the heap. -/
def CnfR.propagate (fuel : Nat) (h : Heap) (F : CnfR) (var_queue : Assignment) :
    Option (Except PErr Assignment × Heap × CnfR) :=
  propagateLoopR fuel h F.variables' F.clauseRefs var_queue []

/-- The unit-clause scan of `unit_propagate`, against the heap. -/
def findUnitR (h : Heap) : List Nat → Option (Option (Nat × Bool))
  | [] => Option.none
  | r :: rest =>
    match cellOf h r with
    | [] => some Option.none
    | [(v, p)] => some (some (v, p))
    | _ :: _ :: _ => findUnitR h rest

/-- The `while True` loop of `unit_propagate`, against the heap. -/
def unitPropagateLoopR : Nat → Heap → Vars → List Nat → Assignment →
    Option (Except PErr Assignment × Heap × CnfR)
  | 0, _, _, _, _ => Option.none
  | fuel+1, h, vars, refs, assigned =>
    if refs = [] then some (.ok assigned, h, ⟨vars, refs⟩)
    else
      match findUnitR h refs with
      | some Option.none => some (.error PErr.unsat, h, ⟨vars, refs⟩)
      | some (some (v, p)) =>
        match propagateLoopR fuel h vars refs [(some v, some p)] [] with
        | Option.none => Option.none
        | some (.error e, h', F') => some (.error e, h', F')
        | some (.ok prop, h', F') =>
          unitPropagateLoopR fuel h' F'.variables' F'.clauseRefs
            (dmerge assigned prop)
      | Option.none => some (.ok assigned, h, ⟨vars, refs⟩)

/-- `Cnf.unit_propagate` against the heap. -/
def CnfR.unit_propagate (fuel : Nat) (h : Heap) (F : CnfR) :
    Option (Except PErr Assignment × Heap × CnfR) :=
  unitPropagateLoopR fuel h F.variables' F.clauseRefs []

/-- Any interleaving of `propagate` and `unit_propagate` calls on a
heap-level formula, each call continuing from the state the previous one
left behind (also after a raised exception). -/
inductive StepsR : Heap × CnfR → Heap × CnfR → Prop where
  | refl (s : Heap × CnfR) : StepsR s s
  | prop (fuel : Nat) (q : Assignment) (h : Heap) (F : CnfR)
      (r : Except PErr Assignment) (h' : Heap) (F' : CnfR) (s : Heap × CnfR) :
      CnfR.propagate fuel h F q = some (r, h', F') →
      StepsR (h', F') s → StepsR (h, F) s
  | unit (fuel : Nat) (h : Heap) (F : CnfR)
      (r : Except PErr Assignment) (h' : Heap) (F' : CnfR) (s : Heap × CnfR) :
      CnfR.unit_propagate fuel h F = some (r, h', F') →
      StepsR (h', F') s → StepsR (h, F) s

/-- Frame property of the clause pass: it writes only the cells of the
clause list it was handed, and keeps only addresses from that list. -/
theorem runPassR_frame (av : Nat) (aval : Option Bool) :
    ∀ (rs : List Nat) (h : Heap) (vars : Vars) (queue : Assignment)
      (new : List Nat) (h1 : Heap) (vars1 : Vars) (queue1 : Assignment)
      (err : Option PErr),
      runPassR av aval rs h vars queue = (new, h1, vars1, queue1, err) →
      (∀ x, x ∉ rs → dget h1 x = dget h x) ∧ (∀ x ∈ new, x ∈ rs) := by
  intro rs
  induction rs with
  | nil =>
    intro h vars queue new h1 vars1 queue1 err heq
    rw [runPassR] at heq
    cases heq
    exact ⟨fun x _ => rfl, fun x hx => absurd hx (List.not_mem_nil x)⟩
  | cons r rest ih =>
    intro h vars queue new h1 vars1 queue1 err heq
    rw [runPassR] at heq
    have hcons : ∀ (new2 : List Nat), (∀ x ∈ new2, x ∈ rest) →
        ∀ x ∈ r :: new2, x ∈ r :: rest := by
      intro new2 hsub x hx
      rcases List.mem_cons.mp hx with rfl | hx2
      · exact List.mem_cons_self _ _
      · exact List.mem_cons_of_mem _ (hsub x hx2)
    have hskip : ∀ (new2 : List Nat), (∀ x ∈ new2, x ∈ rest) →
        ∀ x ∈ new2, x ∈ r :: rest :=
      fun new2 hsub x hx => List.mem_cons_of_mem _ (hsub x hx)
    rcases hg : dget (cellOf h r) av with _ | cv
    · rw [hg] at heq
      dsimp only at heq
      rcases hrp : runPassR av aval rest h vars queue with
        ⟨new2, h2, vars2, queue2, err2⟩
      rw [hrp] at heq
      cases heq
      rcases ih h vars queue new2 h2 vars2 queue2 err2 hrp with ⟨f1, f2⟩
      exact ⟨fun x hx => f1 x (fun hm => hx (List.mem_cons_of_mem _ hm)),
        hcons new2 f2⟩
    · rw [hg] at heq
      dsimp only at heq
      by_cases hav : aval = some cv
      · rw [if_pos hav] at heq
        rcases hps : propagateSat av (cellOf h r) vars queue with ⟨vars', queue', errp⟩
        rw [hps] at heq
        dsimp only at heq
        rcases errp with _ | e
        · dsimp only at heq
          rcases hrp : runPassR av aval rest h vars' queue' with
            ⟨new2, h2, vars2, queue2, err2⟩
          rw [hrp] at heq
          cases heq
          rcases ih h vars' queue' new2 h2 vars2 queue2 err2 hrp with ⟨f1, f2⟩
          exact ⟨fun x hx => f1 x (fun hm => hx (List.mem_cons_of_mem _ hm)),
            hskip new2 f2⟩
        · dsimp only at heq
          cases heq
          exact ⟨fun x _ => rfl, fun x hx => absurd hx (List.not_mem_nil x)⟩
      · rw [if_neg hav] at heq
        have hwr : ∀ (cc : PyDict Nat Bool) (x : Nat), x ∉ (r :: rest : List Nat) →
            dget (dinsert h r cc) x = dget h x := by
          intro cc x hx
          exact dget_dinsert_ne _ _ _ _ (fun hc => hx (hc ▸ List.mem_cons_self _ _))
        rcases hdd : ddel (cellOf h r) av with _ | ⟨q1, rest2⟩
        · rw [hdd] at heq
          cases heq
          exact ⟨fun x hx => hwr _ x hx, fun x hx => absurd hx (List.not_mem_nil x)⟩
        · rcases rest2 with _ | ⟨q2, rest3⟩
          · rcases q1 with ⟨w, p⟩
            rw [hdd] at heq
            dsimp only at heq
            rcases hqw : dget queue (some w) with _ | pair
            · rw [hqw] at heq
              dsimp only at heq
              rcases hrp : runPassR av aval rest (dinsert h r [(w, p)]) vars
                (dinsert queue (some w) (some p)) with ⟨new2, h2, vars2, queue2, err2⟩
              rw [hrp] at heq
              cases heq
              rcases ih (dinsert h r [(w, p)]) vars (dinsert queue (some w) (some p))
                new2 h2 vars2 queue2 err2 hrp with ⟨f1, f2⟩
              exact ⟨fun x hx => (f1 x (fun hm => hx (List.mem_cons_of_mem _ hm))).trans
                (hwr _ x hx), hskip new2 f2⟩
            · rw [hqw] at heq
              dsimp only at heq
              by_cases hpair : pair = some p
              · rw [if_pos hpair] at heq
                rcases hrp : runPassR av aval rest (dinsert h r [(w, p)]) vars queue with
                  ⟨new2, h2, vars2, queue2, err2⟩
                rw [hrp] at heq
                cases heq
                rcases ih (dinsert h r [(w, p)]) vars queue new2 h2 vars2 queue2 err2
                  hrp with ⟨f1, f2⟩
                exact ⟨fun x hx => (f1 x (fun hm => hx (List.mem_cons_of_mem _ hm))).trans
                  (hwr _ x hx), hskip new2 f2⟩
              · rw [if_neg hpair] at heq
                cases heq
                exact ⟨fun x hx => hwr _ x hx, fun x hx => absurd hx (List.not_mem_nil x)⟩
          · rw [hdd] at heq
            dsimp only at heq
            rcases hrp : runPassR av aval rest (dinsert h r (q1 :: q2 :: rest3)) vars
              queue with ⟨new2, h2, vars2, queue2, err2⟩
            rw [hrp] at heq
            cases heq
            rcases ih (dinsert h r (q1 :: q2 :: rest3)) vars queue new2 h2 vars2 queue2
              err2 hrp with ⟨f1, f2⟩
            exact ⟨fun x hx => (f1 x (fun hm => hx (List.mem_cons_of_mem _ hm))).trans
              (hwr _ x hx), hcons new2 f2⟩

/-- Frame property of the heap-level `propagate` loop. -/
theorem propagateLoopR_frame (fuel : Nat) :
    ∀ (h : Heap) (vars : Vars) (refs : List Nat) (queue A : Assignment)
      (r : Except PErr Assignment) (h' : Heap) (F' : CnfR),
      propagateLoopR fuel h vars refs queue A = some (r, h', F') →
      (∀ x, x ∉ refs → dget h' x = dget h x) ∧
      (∀ x ∈ F'.clauseRefs, x ∈ refs) := by
  induction fuel with
  | zero =>
    intro h vars refs queue A r h' F' heq
    simp [propagateLoopR] at heq
  | succ fuel ih =>
    intro h vars refs queue A r h' F' heq
    rw [propagateLoopR] at heq
    rcases hq : dpop queue with _ | ⟨⟨av, aval⟩, queue'⟩
    · rw [hq] at heq
      cases heq
      exact ⟨fun x _ => rfl, fun x hx => hx⟩
    · rw [hq] at heq
      rcases av with _ | v
      · exact ih h vars refs queue' (dinsert A Option.none aval) r h' F' heq
      · dsimp only at heq
        by_cases hm : dmem vars v
        · rw [if_pos hm] at heq
          rcases hrp : runPassR v aval refs h (ddel vars v) queue' with
            ⟨new, h1, vars1, queue1, err⟩
          rw [hrp] at heq
          rcases runPassR_frame v aval refs h (ddel vars v) queue' new h1 vars1
            queue1 err hrp with ⟨f1, f2⟩
          rcases err with _ | e
          · dsimp only at heq
            by_cases hnew : new = []
            · rw [if_pos hnew] at heq
              cases heq
              exact ⟨f1, fun x hx => absurd hx (List.not_mem_nil x)⟩
            · rw [if_neg hnew] at heq
              rcases ih h1 vars1 new queue1 (dinsert A (some v) aval) r h' F' heq with
                ⟨g1, g2⟩
              exact ⟨fun x hx => (g1 x (fun hm2 => hx (f2 x hm2))).trans (f1 x hx),
                fun x hx => f2 x (g2 x hx)⟩
          · dsimp only at heq
            cases heq
            exact ⟨f1, fun x hx => hx⟩
        · rw [if_neg hm] at heq
          exact ih h vars refs queue' (dinsert A (some v) aval) r h' F' heq

/-- Frame property of the heap-level `unit_propagate` loop. -/
theorem unitPropagateLoopR_frame (fuel : Nat) :
    ∀ (h : Heap) (vars : Vars) (refs : List Nat) (A : Assignment)
      (r : Except PErr Assignment) (h' : Heap) (F' : CnfR),
      unitPropagateLoopR fuel h vars refs A = some (r, h', F') →
      (∀ x, x ∉ refs → dget h' x = dget h x) ∧
      (∀ x ∈ F'.clauseRefs, x ∈ refs) := by
  induction fuel with
  | zero =>
    intro h vars refs A r h' F' heq
    simp [unitPropagateLoopR] at heq
  | succ fuel ih =>
    intro h vars refs A r h' F' heq
    rw [unitPropagateLoopR] at heq
    by_cases hrefs : refs = []
    · rw [if_pos hrefs] at heq
      cases heq
      exact ⟨fun x _ => rfl, fun x hx => hx⟩
    · rw [if_neg hrefs] at heq
      rcases hfu : findUnitR h refs with _ | u
      · rw [hfu] at heq
        cases heq
        exact ⟨fun x _ => rfl, fun x hx => hx⟩
      · rcases u with _ | ⟨v, p⟩
        · rw [hfu] at heq
          cases heq
          exact ⟨fun x _ => rfl, fun x hx => hx⟩
        · rw [hfu] at heq
          dsimp only at heq
          rcases hpl : propagateLoopR fuel h vars refs [(some v, some p)] [] with
            _ | ⟨r2, h2, F2⟩
          · rw [hpl] at heq
            cases heq
          · rw [hpl] at heq
            rcases propagateLoopR_frame fuel h vars refs [(some v, some p)] [] r2 h2
              F2 hpl with ⟨f1, f2⟩
            rcases r2 with e | prop
            · dsimp only at heq
              cases heq
              exact ⟨f1, f2⟩
            · dsimp only at heq
              rcases ih h2 F2.variables' F2.clauseRefs (dmerge A prop) r h' F' heq with
                ⟨g1, g2⟩
              exact ⟨fun x hx => (g1 x (fun hm => hx (f2 x hm))).trans (f1 x hx),
                fun x hx => f2 x (g2 x hx)⟩

/-- Frame property of the fresh-cell allocator of `__copy__`: cells below
the allocation counter are untouched and all fresh addresses are at or
above it. -/
theorem copyCells_facts :
    ∀ (rs : List Nat) (h : Heap) (n : Nat) (h' : Heap) (rs' : List Nat) (n' : Nat),
      copyCells h rs n = (h', rs', n') →
      (∀ x, x < n → dget h' x = dget h x) ∧ (∀ r ∈ rs', n ≤ r) := by
  intro rs
  induction rs with
  | nil =>
    intro h n h' rs' n' heq
    rw [copyCells] at heq
    cases heq
    exact ⟨fun x _ => rfl, fun r hr => absurd hr (List.not_mem_nil r)⟩
  | cons r rest ih =>
    intro h n h' rs' n' heq
    rw [copyCells] at heq
    dsimp only at heq
    rcases hcc : copyCells (dinsert h n (cellOf h r)) rest (n + 1) with ⟨h2, rs2, n2⟩
    rw [hcc] at heq
    cases heq
    rcases ih (dinsert h n (cellOf h r)) (n + 1) h2 rs2 n2 hcc with ⟨f1, f2⟩
    constructor
    · intro x hx
      refine (f1 x (by omega)).trans ?_
      exact dget_dinsert_ne _ _ _ _ (by omega)
    · intro r' hr'
      rcases List.mem_cons.mp hr' with rfl | hr2
      · exact le_refl _
      · have := f2 r' hr2
        omega

/-- Frame over any sequence of heap-level operations: if every clause
cell of a formula sits at or above `n`, the operations never touch a
cell below `n` and the formula's cells stay at or above `n`. -/
theorem StepsR_frame {s1 s2 : Heap × CnfR} (hs : StepsR s1 s2) :
    ∀ n, (∀ r ∈ s1.2.clauseRefs, n ≤ r) →
    (∀ x, x < n → dget s2.1 x = dget s1.1 x) ∧
    (∀ r ∈ s2.2.clauseRefs, n ≤ r) := by
  induction hs with
  | refl s => exact fun n hb => ⟨fun x _ => rfl, hb⟩
  | prop fuel q h F r h' F' s heq hsteps ih =>
    intro n hb
    rcases propagateLoopR_frame fuel h F.variables' F.clauseRefs q [] r h' F' heq
      with ⟨f1, f2⟩
    rcases ih n (fun r2 hr2 => hb r2 (f2 r2 hr2)) with ⟨g1, g2⟩
    refine ⟨fun x hx => (g1 x hx).trans (f1 x ?_), g2⟩
    intro hm
    have := hb x hm
    omega
  | unit fuel h F r h' F' s heq hsteps ih =>
    intro n hb
    rcases unitPropagateLoopR_frame fuel h F.variables' F.clauseRefs [] r h' F' heq
      with ⟨f1, f2⟩
    rcases ih n (fun r2 hr2 => hb r2 (f2 r2 hr2)) with ⟨g1, g2⟩
    refine ⟨fun x hx => (g1 x hx).trans (f1 x ?_), g2⟩
    intro hm
    have := hb x hm
    omega

/-- C8: clone isolation.  If every clause cell of a formula lies below
the allocation counter, then after `__copy__` (which allocates only
fresh cells) any sequence of `propagate` and `unit_propagate` calls on
the clone leaves every clause cell of the original exactly as it was
before the copy; the clone shares no clause cell with the original and
carries its own copy of the occurrence index. -/
theorem C8_clone_isolation (h : Heap) (F : CnfR) (n : Nat)
    (h1 : Heap) (G : CnfR) (n' : Nat) (hf : Heap) (Gf : CnfR)
    (hbound : ∀ r ∈ F.clauseRefs, r < n)
    (hcopy : CnfR.copy h F n = (h1, G, n'))
    (hsteps : StepsR (h1, G) (hf, Gf)) :
    (∀ r ∈ F.clauseRefs, dget hf r = dget h r) ∧
    (∀ r ∈ F.clauseRefs, ∀ r' ∈ G.clauseRefs, r ≠ r') ∧
    G.variables' = F.variables' := by
  rw [CnfR.copy] at hcopy
  rcases hcc : copyCells h F.clauseRefs n with ⟨hh, rs, nn⟩
  rw [hcc] at hcopy
  cases hcopy
  rcases copyCells_facts F.clauseRefs h n h1 rs n' hcc with ⟨c1, c2⟩
  rcases StepsR_frame hsteps n c2 with ⟨g1, g2⟩
  refine ⟨?_, ?_, rfl⟩
  · intro r hr
    have hlt := hbound r hr
    exact (g1 r hlt).trans (c1 r hlt)
  · intro r hr r' hr' he
    have h2 := c2 r' hr'
    have h3 := hbound r hr
    omega

/-- C8, witness: copying the one-clause formula `(¬1 ∨ 2)` and running a
mutating `propagate({1: True})` on the clone (which deletes literal `¬1`
from the clone's clause cell in place) leaves the original's clause cell
`0` bit-for-bit unchanged. -/
theorem C8_witness :
    CnfR.copy [(0, [(1, false), (2, true)])]
        ⟨[(1, ((1 : Int), (0 : Int))), (2, ((0 : Int), (1 : Int)))], [0]⟩ 1 =
      ([(0, [(1, false), (2, true)]), (1, [(1, false), (2, true)])],
        ⟨[(1, ((1 : Int), (0 : Int))), (2, ((0 : Int), (1 : Int)))], [1]⟩, 2) ∧
    (∀ r ∈ (⟨[(1, ((1 : Int), (0 : Int))), (2, ((0 : Int), (1 : Int)))],
        [0]⟩ : CnfR).clauseRefs,
      dget ([(0, [(1, false), (2, true)]), (1, [(2, true)])] : Heap) r =
        dget ([(0, [(1, false), (2, true)])] : Heap) r) :=
  ⟨by decide,
    (C8_clone_isolation [(0, [(1, false), (2, true)])]
      ⟨[(1, ((1 : Int), (0 : Int))), (2, ((0 : Int), (1 : Int)))], [0]⟩ 1
      [(0, [(1, false), (2, true)]), (1, [(1, false), (2, true)])]
      ⟨[(1, ((1 : Int), (0 : Int))), (2, ((0 : Int), (1 : Int)))], [1]⟩ 2
      [(0, [(1, false), (2, true)]), (1, [(2, true)])]
      ⟨[(2, ((0 : Int), (1 : Int)))], []⟩
      (by decide) (by decide)
      (StepsR.prop 5 [(some 1, some true)]
        [(0, [(1, false), (2, true)]), (1, [(1, false), (2, true)])]
        ⟨[(1, ((1 : Int), (0 : Int))), (2, ((0 : Int), (1 : Int)))], [1]⟩
        (.ok [(some 1, some true), (some 2, some true)])
        [(0, [(1, false), (2, true)]), (1, [(2, true)])]
        ⟨[(2, ((0 : Int), (1 : Int)))], []⟩
        ([(0, [(1, false), (2, true)]), (1, [(2, true)])],
          ⟨[(2, ((0 : Int), (1 : Int)))], []⟩)
        (by decide) (StepsR.refl _))).1⟩

/-! ### Termination potential for the `propagate` loop

Each loop iteration pops one queue entry; entries are only added for
index variables that are not yet queued, and a popped index variable is
deleted.  The potential `|queue| + 2·(unqueued index variables)` hence
drops by at least one per iteration and bounds the fuel needed. -/

/-- The number of index entries whose variable has no pending queue
entry. -/
def unq (vars : Vars) (queue : Assignment) : Nat :=
  (dkeys vars).countP (fun w => decide (dget queue (some w) = Option.none))

/-- The loop potential. -/
def phiQ (vars : Vars) (queue : Assignment) : Nat :=
  queue.length + 2 * unq vars queue

theorem ddel_sublist {K V : Type} [DecidableEq K] (d : PyDict K V) (k : K) :
    List.Sublist (ddel d k) d := by
  induction d with
  | nil => exact List.Sublist.refl _
  | cons p rest ih =>
    by_cases hp : p.1 = k
    · rw [ddel, if_pos hp]
      exact ih.cons p
    · rw [ddel, if_neg hp]
      exact ih.cons₂ p

theorem unq_congr {vars : Vars} {q1 q2 : Assignment}
    (h : ∀ w ∈ dkeys vars, (dget q1 (some w) = Option.none) ↔
      (dget q2 (some w) = Option.none)) : unq vars q1 = unq vars q2 := by
  rw [unq, unq]
  refine List.countP_congr ?_
  intro w hw
  have := h w hw
  by_cases h1 : dget q1 (some w) = Option.none
  · rw [decide_eq_true h1, decide_eq_true (this.mp h1)]
  · rw [decide_eq_false h1, decide_eq_false (fun hc => h1 (this.mpr hc))]

theorem unq_ddel_le (vars : Vars) (v : Nat) (q : Assignment) :
    unq (ddel vars v) q ≤ unq vars q :=
  List.Sublist.countP_le _ ((ddel_sublist vars v).map Prod.fst)

theorem unq_dinsert_vars (vars : Vars) (k : Nat) (val : Int × Int) (q : Assignment)
    (h : k ∈ dkeys vars) : unq (dinsert vars k val) q = unq vars q := by
  rw [unq, unq, dkeys_dinsert_of_mem val h]

theorem countP_drop_one {α : Type} {l : List α} {f g : α → Bool} {w : α}
    (hw : w ∈ l) (hfw : f w = true) (hgw : g w = false)
    (hfg : ∀ x, x ≠ w → f x = g x) :
    l.countP g + 1 ≤ l.countP f := by
  have hmono : ∀ (t : List α), t.countP g ≤ t.countP f := by
    intro t
    refine List.countP_mono_left ?_
    intro x hx hgx
    by_cases hxw : x = w
    · subst hxw
      rw [hgw] at hgx
      cases hgx
    · rw [hfg x hxw]
      exact hgx
  induction l with
  | nil => exact absurd hw (List.not_mem_nil w)
  | cons a t ih =>
    rw [List.countP_cons, List.countP_cons]
    rcases List.mem_cons.mp hw with rfl | hwt
    · have e1 : (if f w then 1 else 0) = 1 := by rw [hfw]; rfl
      have e2 : (if g w then 1 else 0) = 0 := by rw [hgw]; rfl
      rw [e1, e2]
      have := hmono t
      omega
    · by_cases haw : a = w
      · subst haw
        have e1 : (if f a then 1 else 0) = 1 := by rw [hfw]; rfl
        have e2 : (if g a then 1 else 0) = 0 := by rw [hgw]; rfl
        rw [e1, e2]
        have := hmono t
        omega
      · rw [hfg a haw]
        have := ih hwt
        omega

theorem length_dinsert_of_not_mem {K V : Type} [DecidableEq K]
    {d : PyDict K V} {k : K} (v : V) (h : k ∉ dkeys d) :
    (dinsert d k v).length = d.length + 1 := by
  rw [dinsert_append_of_not_mem v h, List.length_append]
  rfl

/-- Inserting a fresh queue entry for a still-indexed variable does not
increase the potential of the running pass. -/
theorem phiQ_queue_insert {vars : Vars} {queue : Assignment} {w : Nat} (b : Bool)
    (hmem : w ∈ dkeys vars) (hq : dget queue (some w) = Option.none) :
    phiQ vars (dinsert queue (some w) (some b)) ≤ phiQ vars queue := by
  have hnotin : (some w : Option Nat) ∉ dkeys queue :=
    dget_eq_none_iff_not_mem.mp hq
  have hlen : (dinsert queue (some w) (some b)).length = queue.length + 1 :=
    length_dinsert_of_not_mem _ hnotin
  have hcnt : unq vars (dinsert queue (some w) (some b)) + 1 ≤ unq vars queue := by
    rw [unq, unq]
    refine countP_drop_one hmem (by rw [decide_eq_true hq]) ?_ ?_
    · rw [decide_eq_false]
      rw [dget_dinsert_self]
      intro hc
      cases hc
    · intro x hxw
      have hne : (some x : Option Nat) ≠ some w := fun hc => hxw (Option.some.inj hc)
      rw [dget_dinsert_ne _ _ _ _ hne]
  rw [phiQ, phiQ, hlen]
  omega

/-- A `propagate` call on a formula with no live clauses always
succeeds, with any fuel exceeding the queue length. -/
theorem propagateLoop_nil_total (fuel : Nat) :
    ∀ (vars : Vars) (queue A : Assignment),
      queue.length < fuel →
      ∃ Af F', propagateLoop fuel vars [] queue A = some (.ok Af, F') := by
  induction fuel with
  | zero =>
    intro vars queue A h
    omega
  | succ fuel ih =>
    intro vars queue A h
    rcases hq : dpop queue with _ | ⟨⟨av, aval⟩, queue'⟩
    · exact ⟨A, ⟨vars, []⟩, by rw [propagateLoop, hq]⟩
    · have hlen : queue'.length < fuel := by
        have := dpop_eq_some hq
        subst this
        rw [List.length_append] at h
        simp only [List.length_cons, List.length_nil] at h
        omega
      rcases av with _ | v
      · rcases ih vars queue' (dinsert A Option.none aval) hlen with ⟨Af, F', hres⟩
        exact ⟨Af, F', by rw [propagateLoop, hq]; exact hres⟩
      · by_cases hm : dmem vars v
        · refine ⟨dmerge (dinsert A (some v) aval) queue', ⟨ddel vars v, []⟩, ?_⟩
          rw [propagateLoop, hq]
          dsimp only
          rw [if_pos hm]
          rw [show runPass v aval [] (ddel vars v) queue' =
            ([], [], ddel vars v, queue', Option.none) from rfl]
          rfl
        · rcases ih vars queue' (dinsert A (some v) aval) hlen with ⟨Af, F', hres⟩
          refine ⟨Af, F', ?_⟩
          rw [propagateLoop, hq]
          dsimp only
          rw [if_neg hm]
          exact hres

/-- The result map of the normal path of `solve` is never the UNSAT
sentinel: encoded maps hold only booleans and `None`. -/
theorem encode_ne_sentinel (a : Assignment) : encode a ≠ sentinel := by
  intro h
  have hmem : (some 0, PVal.vint 1) ∈ encode a := by
    rw [h]
    exact List.mem_cons_self _ _
  rcases List.mem_map.mp hmem with ⟨p, _, hp⟩
  have hsnd := congrArg Prod.snd hp
  dsimp only at hsnd
  rcases hp2 : p.2 with _ | b
  · rw [hp2] at hsnd
    cases hsnd
  · rw [hp2] at hsnd
    cases hsnd

/-! ### Completeness of propagation

The raises inside the satisfied-clause walk (lines 162 and 179) fire
only when a queued variable loses its last occurrence of the queued
polarity.  A queue entry is created either for a genuinely pure variable
(the opposite counter is zero and stays zero) or for a unit literal
whose dropped clause is never decremented, leaving a permanent `+1`
slack on the queued polarity.  Either way the raise site is unreachable,
so the walk never raises at all; the `origin` field below carries this
invariant. -/

/-- Invariant of the satisfied-clause walk used for completeness:
well-formed index, occurrence upper bounds, coverage, queue values are
real booleans, and every pending queue entry is of pure or unit origin. -/
structure CInvW (av : Nat) (eff : List Clause) (its : List (Nat × Bool))
    (vars : Vars) (queue : Assignment) : Prop where
  nodup : (dkeys vars).Nodup
  nev : ∀ q ∈ vars, q.1 ≠ av
  boundN : ∀ q ∈ vars, countLit eff q.1 false + ex its q.1 false ≤ q.2.1
  boundP : ∀ q ∈ vars, countLit eff q.1 true + ex its q.1 true ≤ q.2.2
  covers : ∀ c ∈ eff, ∀ k ∈ dkeys c.variables', k ≠ av → dmem vars k = true
  wellv : ∀ w val, dget queue (some w) = some val → ∃ b, val = some b
  origin : ∀ w b, dget queue (some w) = some (some b) → ∀ n p,
    dget vars w = some (n, p) →
    (b = true → n = 0 ∨ countLit eff w true + ex its w true + 1 ≤ p) ∧
    (b = false → p = 0 ∨ countLit eff w false + ex its w false + 1 ≤ n)

theorem dmem_dinsert_pres {K V : Type} [DecidableEq K] {d : PyDict K V} {k k' : K}
    (v : V) (h : dmem d k' = true) : dmem (dinsert d k v) k' = true := by
  by_cases hk : k' = k
  · subst hk
    rw [dmem, dget_dinsert_self]
    rfl
  · rw [dmem, dget_dinsert_ne _ _ _ _ hk]
    exact h

theorem satClause_flip {eff : List Clause} {var : Nat} {σ : Nat → Bool} {b' : Bool}
    (hz : countLit eff var (!b') = 0) (hs : ∀ c ∈ eff, satClause σ c) :
    ∀ c ∈ eff, satClause (fun u => if u = var then b' else σ u) c := by
  intro c hc
  rcases hs c hc with ⟨u, bu, hcu, hσu⟩
  by_cases huvar : u = var
  · subst huvar
    by_cases hbb : bu = b'
    · subst hbb
      exact ⟨u, bu, hcu, by
        show (if u = u then bu else σ u) = bu
        rw [if_pos rfl]⟩
    · exfalso
      have hbu : bu = !b' := by
        cases bu <;> cases b' <;> simp_all
      subst hbu
      have := countLit_one_le hc hcu
      omega
  · exact ⟨u, bu, hcu, by
      show (if u = var then b' else σ u) = bu
      rw [if_neg huvar]
      exact hσu⟩

theorem mem_dkeys_dinsert_of_mem {K V : Type} [DecidableEq K]
    {d : PyDict K V} {k' : K} (k : K) (v : V) (h : k' ∈ dkeys d) :
    k' ∈ dkeys (dinsert d k v) := by
  by_cases hm : k ∈ dkeys d
  · rw [dkeys_dinsert_of_mem v hm]
    exact h
  · rw [dinsert_append_of_not_mem v hm, dkeys_append]
    exact List.mem_append.mpr (Or.inl h)

/-- The satisfied-clause walk under `CInvW` never raises: it returns the
updated state with the invariant restored, without increasing the loop
potential, and any satisfying valuation consistent with the queue can be
repaired (flipping only still-indexed variables) to stay consistent. -/
theorem propagateSatC (av : Nat) (eff : List Clause) :
    ∀ (its : List (Nat × Bool)) (vars : Vars) (queue : Assignment),
      CInvW av eff its vars queue →
      (its.map Prod.fst).Nodup →
      (∀ q ∈ its, q.1 ≠ av → dmem vars q.1 = true) →
      ∃ vars' queue', propagateSat av its vars queue = (vars', queue', Option.none) ∧
        CInvW av eff [] vars' queue' ∧
        phiQ vars' queue' ≤ phiQ vars queue ∧
        dkeys vars' ⊆ dkeys vars ∧
        (∀ k ∈ dkeys queue, k ∈ dkeys queue') ∧
        ((dkeys queue).Nodup → (dkeys queue').Nodup) ∧
        (∀ σ : Nat → Bool, (∀ c ∈ eff, satClause σ c) →
          (∀ w b, dget queue (some w) = some (some b) → σ w = b) →
          ∃ σ' : Nat → Bool, (∀ c ∈ eff, satClause σ' c) ∧
            (∀ w b, dget queue' (some w) = some (some b) → σ' w = b) ∧
            (∀ u, u ∉ dkeys vars → σ' u = σ u)) := by
  intro its
  induction its with
  | nil =>
    intro vars queue inv hnd hits
    exact ⟨vars, queue, rfl, inv, le_refl _, fun a ha => ha, fun k hk => hk,
      fun h => h, fun σ hs hc => ⟨σ, hs, hc, fun u _ => rfl⟩⟩
  | cons it rest ih =>
    intro vars queue inv hnd hits
    rcases it with ⟨var, par⟩
    rw [List.map_cons, List.nodup_cons] at hnd
    rw [propagateSat]
    by_cases h1 : var = av
    · rw [if_pos h1]
      have hnev' : ∀ q ∈ vars, q.1 ≠ var := by
        intro q hq
        rw [h1]
        exact inv.nev q hq
      have hkne : ∀ w n p, dget vars w = some (n, p) → w ≠ var := by
        intro w n p hw
        exact hnev' _ (mem_of_dget_eq_some hw)
      have inv' : CInvW av eff rest vars queue :=
        { nodup := inv.nodup
          nev := inv.nev
          boundN := fun q hq => by
            have := inv.boundN q hq
            rwa [ex_cons_ne (hnev' q hq)] at this
          boundP := fun q hq => by
            have := inv.boundP q hq
            rwa [ex_cons_ne (hnev' q hq)] at this
          covers := inv.covers
          wellv := inv.wellv
          origin := by
            intro w b hw n p hv
            have hwv := hkne w n p hv
            have := inv.origin w b hw n p hv
            rwa [ex_cons_ne hwv, ex_cons_ne hwv] at this }
      exact ih vars queue inv' hnd.2 (fun q hq => hits q (List.mem_cons_of_mem _ hq))
    · rw [if_neg h1]
      rcases hg : dget vars var with _ | ⟨var_neg, var_pos⟩
      · exfalso
        have := hits (var, par) (List.mem_cons_self _ _) h1
        rw [dmem, hg] at this
        cases this
      · dsimp only
        have hvmem : (var, (var_neg, var_pos)) ∈ vars := mem_of_dget_eq_some hg
        have hvkey : var ∈ dkeys vars := List.mem_map_of_mem Prod.fst hvmem
        have hexr : ∀ b, ex rest var b = 0 := fun b => ex_eq_zero_of_not_key b hnd.1
        have hitsr : ∀ (vars1 : Vars), (∀ k, k ≠ var → dmem vars1 k = dmem vars k) →
            ∀ q ∈ rest, q.1 ≠ av → dmem vars1 q.1 = true := by
          intro vars1 hsame q hq hqa
          have hqvar : q.1 ≠ var := by
            intro hc
            have hmm : q.1 ∈ List.map Prod.fst rest := List.mem_map_of_mem Prod.fst hq
            rw [hc] at hmm
            exact hnd.1 hmm
          rw [hsame q.1 hqvar]
          exact hits q (List.mem_cons_of_mem _ hq) hqa
        -- the generic recursion step after updating the entry of `var`
        have step : ∀ (nv pv : Int) (queue1 : Assignment),
            (countLit eff var false + ex rest var false ≤ nv) →
            (countLit eff var true + ex rest var true ≤ pv) →
            (∀ w val, dget queue1 (some w) = some val → ∃ b, val = some b) →
            (∀ b, dget queue1 (some var) = some (some b) →
              (b = true → nv = 0 ∨ countLit eff var true + ex rest var true + 1 ≤ pv) ∧
              (b = false → pv = 0 ∨ countLit eff var false + ex rest var false + 1 ≤ nv)) →
            (∀ k, k ≠ (some var : Option Nat) → dget queue1 k = dget queue k) →
            (∀ k ∈ dkeys queue, k ∈ dkeys queue1) →
            ((dkeys queue).Nodup → (dkeys queue1).Nodup) →
            (phiQ vars queue1 ≤ phiQ vars queue) →
            (∀ σ : Nat → Bool, (∀ c ∈ eff, satClause σ c) →
              (∀ w b, dget queue (some w) = some (some b) → σ w = b) →
              ∃ σ1 : Nat → Bool, (∀ c ∈ eff, satClause σ1 c) ∧
                (∀ w b, dget queue1 (some w) = some (some b) → σ1 w = b) ∧
                (∀ u, u ∉ dkeys vars → σ1 u = σ u)) →
            ∃ vars' queue',
              propagateSat av rest (dinsert vars var (nv, pv)) queue1 =
                (vars', queue', Option.none) ∧
              CInvW av eff [] vars' queue' ∧
              phiQ vars' queue' ≤ phiQ vars queue ∧
              dkeys vars' ⊆ dkeys vars ∧
              (∀ k ∈ dkeys queue, k ∈ dkeys queue') ∧
              ((dkeys queue).Nodup → (dkeys queue').Nodup) ∧
              (∀ σ : Nat → Bool, (∀ c ∈ eff, satClause σ c) →
                (∀ w b, dget queue (some w) = some (some b) → σ w = b) →
                ∃ σ' : Nat → Bool, (∀ c ∈ eff, satClause σ' c) ∧
                  (∀ w b, dget queue' (some w) = some (some b) → σ' w = b) ∧
                  (∀ u, u ∉ dkeys vars → σ' u = σ u)) := by
          intro nv pv queue1 hbn hbp hwv1 horg1 hqagree hq1m hq1n hphi1 hsig1
          have inv1 : CInvW av eff rest (dinsert vars var (nv, pv)) queue1 :=
            { nodup := nodup_dkeys_dinsert _ inv.nodup
              nev := by
                intro q hq
                rcases mem_dinsert_of_nodup inv.nodup hq with rfl | ⟨hq1, hq2⟩
                · exact h1
                · exact inv.nev q hq1
              boundN := by
                intro q hq
                rcases mem_dinsert_of_nodup inv.nodup hq with rfl | ⟨hq1, hq2⟩
                · exact hbn
                · have := inv.boundN q hq1
                  rwa [ex_cons_ne hq2] at this
              boundP := by
                intro q hq
                rcases mem_dinsert_of_nodup inv.nodup hq with rfl | ⟨hq1, hq2⟩
                · exact hbp
                · have := inv.boundP q hq1
                  rwa [ex_cons_ne hq2] at this
              covers := fun c hc k hk hka =>
                dmem_dinsert_pres _ (inv.covers c hc k hk hka)
              wellv := hwv1
              origin := by
                intro w b hw n p hv
                by_cases hwvar : w = var
                · subst hwvar
                  rw [dget_dinsert_self] at hv
                  have he1 : n = nv := (congrArg Prod.fst (Option.some.inj hv)).symm
                  have he2 : p = pv := (congrArg Prod.snd (Option.some.inj hv)).symm
                  subst he1
                  subst he2
                  exact horg1 b hw
                · rw [dget_dinsert_ne _ _ _ _ hwvar] at hv
                  rw [hqagree _ (fun hc => hwvar (Option.some.inj hc))] at hw
                  have := inv.origin w b hw n p hv
                  rwa [ex_cons_ne hwvar, ex_cons_ne hwvar] at this }
          rcases ih (dinsert vars var (nv, pv)) queue1 inv1 hnd.2
            (hitsr _ (fun k hk => by rw [dmem, dget_dinsert_ne _ _ _ _ hk, dmem]))
            with ⟨vars', queue', heq, cinv', hphi', hsub', hqm', hqn', hsig'⟩
          refine ⟨vars', queue', heq, cinv', ?_, ?_, ?_, ?_, ?_⟩
          · refine le_trans (le_trans hphi' ?_) hphi1
            rw [phiQ, phiQ, unq_dinsert_vars _ _ _ _ hvkey]
          · intro a ha
            have hmm := hsub' ha
            rwa [dkeys_dinsert_of_mem (nv, pv) hvkey] at hmm
          · exact fun k hk => hqm' k (hq1m k hk)
          · exact fun h => hqn' (hq1n h)
          · intro σ hs hc
            rcases hsig1 σ hs hc with ⟨σ1, hs1, hc1, hout1⟩
            rcases hsig' σ1 hs1 hc1 with ⟨σ2, hs2, hc2, hout2⟩
            refine ⟨σ2, hs2, hc2, ?_⟩
            intro u hu
            have hu1 : u ∉ dkeys (dinsert vars var (nv, pv)) := by
              intro hmm
              rcases List.mem_cons.mp (dkeys_dinsert_subset vars var (nv, pv) hmm) with
                h2 | h2
              · exact hu (h2 ▸ hvkey)
              · exact hu h2
            rw [hout2 u hu1, hout1 u hu]
        -- deletion of a variable whose counters both reached zero
        have hdel : ∀ (hz0 : countLit eff var false = 0)
            (hz1 : countLit eff var true = 0),
            ∃ vars' queue',
              propagateSat av rest (ddel vars var) queue =
                (vars', queue', Option.none) ∧
              CInvW av eff [] vars' queue' ∧
              phiQ vars' queue' ≤ phiQ vars queue ∧
              dkeys vars' ⊆ dkeys vars ∧
              (∀ k ∈ dkeys queue, k ∈ dkeys queue') ∧
              ((dkeys queue).Nodup → (dkeys queue').Nodup) ∧
              (∀ σ : Nat → Bool, (∀ c ∈ eff, satClause σ c) →
                (∀ w b, dget queue (some w) = some (some b) → σ w = b) →
                ∃ σ' : Nat → Bool, (∀ c ∈ eff, satClause σ' c) ∧
                  (∀ w b, dget queue' (some w) = some (some b) → σ' w = b) ∧
                  (∀ u, u ∉ dkeys vars → σ' u = σ u)) := by
          intro hz0 hz1
          have hnotm := countLit_eq_zero_notmem hz0 hz1
          have invd : CInvW av eff rest (ddel vars var) queue :=
            { nodup := nodup_dkeys_ddel _ inv.nodup
              nev := fun q hq => inv.nev q (mem_ddel.mp hq).1
              boundN := by
                intro q hq
                have := inv.boundN q (mem_ddel.mp hq).1
                rwa [ex_cons_ne (mem_ddel.mp hq).2] at this
              boundP := by
                intro q hq
                have := inv.boundP q (mem_ddel.mp hq).1
                rwa [ex_cons_ne (mem_ddel.mp hq).2] at this
              covers := by
                intro c hc k hk hka
                have hkvar : k ≠ var := by
                  intro hc2
                  exact hnotm c hc (hc2 ▸ hk)
                exact dmem_ddel_of_ne _ (inv.covers c hc k hk hka) hkvar
              wellv := inv.wellv
              origin := by
                intro w b hw n p hv
                by_cases hwvar : w = var
                · subst hwvar
                  rw [dget_ddel_self] at hv
                  cases hv
                · rw [dget_ddel_ne _ _ _ hwvar] at hv
                  have := inv.origin w b hw n p hv
                  rwa [ex_cons_ne hwvar, ex_cons_ne hwvar] at this }
          rcases ih (ddel vars var) queue invd hnd.2
            (hitsr _ (fun k hk => by rw [dmem, dget_ddel_ne _ _ _ hk, dmem]))
            with ⟨vars', queue', heq, cinv', hphi', hsub', hqm', hqn', hsig'⟩
          refine ⟨vars', queue', heq, cinv', ?_, ?_, hqm', hqn', ?_⟩
          · refine le_trans hphi' ?_
            rw [phiQ, phiQ]
            have := unq_ddel_le vars var queue
            omega
          · intro a ha
            exact dkeys_ddel_subset vars var (hsub' ha)
          · intro σ hs hc
            rcases hsig' σ hs hc with ⟨σ2, hs2, hc2, hout2⟩
            refine ⟨σ2, hs2, hc2, ?_⟩
            intro u hu
            refine hout2 u ?_
            intro hmm
            exact hu (dkeys_ddel_subset vars var hmm)
        cases par
        · -- negative parity (lines 164-179)
          rw [if_neg (by simp)]
          have hbN : countLit eff var false + ex ((var, false) :: rest) var false ≤
              var_neg := inv.boundN _ hvmem
          have hbP : countLit eff var true + ex ((var, false) :: rest) var true ≤
              var_pos := inv.boundP _ hvmem
          rw [ex_head] at hbN
          have hexP : ex ((var, false) :: rest) var true = ex rest var true :=
            ex_cons_other_parity (b := false) (by
              rw [List.map_cons]
              exact List.nodup_cons.mpr hnd)
          rw [hexP, hexr] at hbP
          have horigv := inv.origin var
          by_cases hz : var_neg - 1 = 0
          · rw [if_pos hz]
            by_cases hp0 : var_pos = 0
            · rw [if_pos hp0]
              have hcf : countLit eff var false = 0 := by
                have := countLit_nonneg eff var false
                omega
              have hct : countLit eff var true = 0 := by
                have := countLit_nonneg eff var true
                omega
              exact hdel hcf hct
            · rw [if_neg hp0]
              have hcf : countLit eff var false = 0 := by
                have := countLit_nonneg eff var false
                omega
              rcases hqv : dget queue (some var) with _ | pair
              · refine step (var_neg - 1) var_pos
                  (dinsert queue (some var) (some true)) ?_ ?_ ?_ ?_ ?_ ?_ ?_ ?_ ?_
                · rw [hexr]
                  omega
                · rw [hexr]
                  omega
                · intro w val hv
                  by_cases hwvar : (some w : Option Nat) = some var
                  · rw [hwvar, dget_dinsert_self] at hv
                    exact ⟨true, (Option.some.inj hv).symm⟩
                  · rw [dget_dinsert_ne _ _ _ _ hwvar] at hv
                    exact inv.wellv w val hv
                · intro b hb
                  rw [dget_dinsert_self] at hb
                  have : b = true := (Option.some.inj (Option.some.inj hb)).symm
                  subst this
                  constructor
                  · intro _
                    exact Or.inl hz
                  · intro hc
                    cases hc
                · intro k hk
                  exact dget_dinsert_ne _ _ _ _ hk
                · exact fun k hk => mem_dkeys_dinsert_of_mem _ _ hk
                · exact fun h => nodup_dkeys_dinsert _ h
                · exact phiQ_queue_insert true hvkey hqv
                · intro σ hs hc
                  refine ⟨fun u => if u = var then true else σ u,
                    satClause_flip hcf hs, ?_, ?_⟩
                  · intro w b hw
                    show (if w = var then true else σ w) = b
                    by_cases hwvar : w = var
                    · subst hwvar
                      rw [dget_dinsert_self] at hw
                      have : b = true := (Option.some.inj (Option.some.inj hw)).symm
                      subst this
                      rw [if_pos rfl]
                    · rw [dget_dinsert_ne _ _ _ _
                        (fun hcx => hwvar (Option.some.inj hcx))] at hw
                      rw [if_neg hwvar]
                      exact hc w b hw
                  · intro u hu
                    show (if u = var then true else σ u) = σ u
                    have hne : ¬ u = var := fun hcx => hu (by rw [hcx]; exact hvkey)
                    rw [if_neg hne]
              · dsimp only
                rcases inv.wellv var pair hqv with ⟨pb, rfl⟩
                by_cases hpair : (some pb : Option Bool) = some false
                · rw [if_pos hpair]
                  exfalso
                  have hpb : pb = false := Option.some.inj hpair
                  subst hpb
                  rcases (horigv false hqv var_neg var_pos hg).2 rfl with hp | hsl
                  · exact hp0 hp
                  · rw [ex_head] at hsl
                    have := countLit_nonneg eff var false
                    omega
                · rw [if_neg hpair]
                  have hpb : pb = true := by
                    cases pb
                    · exact absurd rfl hpair
                    · rfl
                  subst hpb
                  refine step (var_neg - 1) var_pos queue ?_ ?_ inv.wellv ?_
                    (fun k _ => rfl) (fun k hk => hk) (fun h => h) (le_refl _) ?_
                  · rw [hexr]
                    omega
                  · rw [hexr]
                    omega
                  · intro b hb
                    rw [hqv] at hb
                    have : b = true := (Option.some.inj (Option.some.inj hb)).symm
                    subst this
                    constructor
                    · intro _
                      rcases (horigv true hqv var_neg var_pos hg).1 rfl with hp | hsl
                      · left
                        omega
                      · right
                        rw [hexP] at hsl
                        omega
                    · intro hc
                      cases hc
                  · intro σ hs hc
                    exact ⟨σ, hs, hc, fun u _ => rfl⟩
          · rw [if_neg hz]
            refine step (var_neg - 1) var_pos queue ?_ ?_ inv.wellv ?_
              (fun k _ => rfl) (fun k hk => hk) (fun h => h) (le_refl _) ?_
            · rw [hexr]
              omega
            · rw [hexr]
              omega
            · intro b hb
              rcases inv.origin var b hb var_neg var_pos hg with ⟨ho1, ho2⟩
              constructor
              · intro hbt
                rcases ho1 hbt with hp | hsl
                · exfalso
                  have := countLit_nonneg eff var false
                  omega
                · right
                  rw [hexP] at hsl
                  exact hsl
              · intro hbf
                rcases ho2 hbf with hp | hsl
                · left
                  exact hp
                · right
                  rw [ex_head] at hsl
                  rw [hexr]
                  omega
            · intro σ hs hc
              exact ⟨σ, hs, hc, fun u _ => rfl⟩
        · -- positive parity (lines 141-162)
          rw [if_pos rfl]
          have hbN : countLit eff var false + ex ((var, true) :: rest) var false ≤
              var_neg := inv.boundN _ hvmem
          have hbP : countLit eff var true + ex ((var, true) :: rest) var true ≤
              var_pos := inv.boundP _ hvmem
          rw [ex_head] at hbP
          have hexN : ex ((var, true) :: rest) var false = ex rest var false :=
            ex_cons_other_parity (b := true) (by
              rw [List.map_cons]
              exact List.nodup_cons.mpr hnd)
          rw [hexN, hexr] at hbN
          have horigv := inv.origin var
          by_cases hz : var_pos - 1 = 0
          · rw [if_pos hz]
            by_cases hp0 : var_neg = 0
            · rw [if_pos hp0]
              have hcf : countLit eff var false = 0 := by
                have := countLit_nonneg eff var false
                omega
              have hct : countLit eff var true = 0 := by
                have := countLit_nonneg eff var true
                omega
              exact hdel hcf hct
            · rw [if_neg hp0]
              have hct : countLit eff var true = 0 := by
                have := countLit_nonneg eff var true
                omega
              rcases hqv : dget queue (some var) with _ | pair
              · refine step var_neg (var_pos - 1)
                  (dinsert queue (some var) (some false)) ?_ ?_ ?_ ?_ ?_ ?_ ?_ ?_ ?_
                · rw [hexr]
                  omega
                · rw [hexr]
                  omega
                · intro w val hv
                  by_cases hwvar : (some w : Option Nat) = some var
                  · rw [hwvar, dget_dinsert_self] at hv
                    exact ⟨false, (Option.some.inj hv).symm⟩
                  · rw [dget_dinsert_ne _ _ _ _ hwvar] at hv
                    exact inv.wellv w val hv
                · intro b hb
                  rw [dget_dinsert_self] at hb
                  have : b = false := (Option.some.inj (Option.some.inj hb)).symm
                  subst this
                  constructor
                  · intro hc
                    cases hc
                  · intro _
                    exact Or.inl hz
                · intro k hk
                  exact dget_dinsert_ne _ _ _ _ hk
                · exact fun k hk => mem_dkeys_dinsert_of_mem _ _ hk
                · exact fun h => nodup_dkeys_dinsert _ h
                · exact phiQ_queue_insert false hvkey hqv
                · intro σ hs hc
                  refine ⟨fun u => if u = var then false else σ u,
                    satClause_flip hct hs, ?_, ?_⟩
                  · intro w b hw
                    show (if w = var then false else σ w) = b
                    by_cases hwvar : w = var
                    · subst hwvar
                      rw [dget_dinsert_self] at hw
                      have : b = false := (Option.some.inj (Option.some.inj hw)).symm
                      subst this
                      rw [if_pos rfl]
                    · rw [dget_dinsert_ne _ _ _ _
                        (fun hcx => hwvar (Option.some.inj hcx))] at hw
                      rw [if_neg hwvar]
                      exact hc w b hw
                  · intro u hu
                    show (if u = var then false else σ u) = σ u
                    have hne : ¬ u = var := fun hcx => hu (by rw [hcx]; exact hvkey)
                    rw [if_neg hne]
              · dsimp only
                rcases inv.wellv var pair hqv with ⟨pb, rfl⟩
                by_cases hpair : (some pb : Option Bool) = some true
                · rw [if_pos hpair]
                  exfalso
                  have hpb : pb = true := Option.some.inj hpair
                  subst hpb
                  rcases (horigv true hqv var_neg var_pos hg).1 rfl with hp | hsl
                  · exact hp0 hp
                  · rw [ex_head] at hsl
                    have := countLit_nonneg eff var true
                    omega
                · rw [if_neg hpair]
                  have hpb : pb = false := by
                    cases pb
                    · rfl
                    · exact absurd rfl hpair
                  subst hpb
                  refine step var_neg (var_pos - 1) queue ?_ ?_ inv.wellv ?_
                    (fun k _ => rfl) (fun k hk => hk) (fun h => h) (le_refl _) ?_
                  · rw [hexr]
                    omega
                  · rw [hexr]
                    omega
                  · intro b hb
                    rw [hqv] at hb
                    have : b = false := (Option.some.inj (Option.some.inj hb)).symm
                    subst this
                    constructor
                    · intro hc
                      cases hc
                    · intro _
                      rcases (horigv false hqv var_neg var_pos hg).2 rfl with hp | hsl
                      · left
                        omega
                      · right
                        rw [hexN] at hsl
                        omega
                  · intro σ hs hc
                    exact ⟨σ, hs, hc, fun u _ => rfl⟩
          · rw [if_neg hz]
            refine step var_neg (var_pos - 1) queue ?_ ?_ inv.wellv ?_
              (fun k _ => rfl) (fun k hk => hk) (fun h => h) (le_refl _) ?_
            · rw [hexr]
              omega
            · rw [hexr]
              omega
            · intro b hb
              rcases inv.origin var b hb var_neg var_pos hg with ⟨ho1, ho2⟩
              constructor
              · intro hbt
                rcases ho1 hbt with hp | hsl
                · left
                  exact hp
                · right
                  rw [ex_head] at hsl
                  rw [hexr]
                  omega
              · intro hbf
                rcases ho2 hbf with hp | hsl
                · exfalso
                  have := countLit_nonneg eff var true
                  omega
                · right
                  rw [hexN] at hsl
                  exact hsl
            · intro σ hs hc
              exact ⟨σ, hs, hc, fun u _ => rfl⟩

theorem keys_of_ddel_nil {K V : Type} [DecidableEq K] {d : PyDict K V} {k : K}
    (h : ddel d k = []) : ∀ q ∈ d, q.1 = k := by
  induction d with
  | nil => intro q hq; cases hq
  | cons p rest ih =>
    intro q hq
    by_cases hp : p.1 = k
    · rw [ddel, if_pos hp] at h
      rcases List.mem_cons.mp hq with rfl | hq1
      · exact hp
      · exact ih h q hq1
    · rw [ddel, if_neg hp] at h
      cases h

theorem countLit_cons_le (c : Clause) (R : List Clause) (k : Nat) (b : Bool) :
    countLit R k b ≤ countLit (c :: R) k b := by
  rw [countLit_cons]
  have : (0 : Int) ≤ if dget c.variables' k = some b then 1 else 0 := by
    split <;> omega
  omega

/-- Dropping the head clause weakens the walk invariant. -/
theorem CInvW_mono_head {av : Nat} {c : Clause} {R : List Clause}
    {vars : Vars} {queue : Assignment}
    (inv : CInvW av (c :: R) [] vars queue) : CInvW av R [] vars queue :=
  { nodup := inv.nodup
    nev := inv.nev
    boundN := fun q hq => by
      have h0 := inv.boundN q hq
      have := countLit_cons_le c R q.1 false
      omega
    boundP := fun q hq => by
      have h0 := inv.boundP q hq
      have := countLit_cons_le c R q.1 true
      omega
    covers := fun cc hcc => inv.covers cc (List.mem_cons_of_mem _ hcc)
    wellv := inv.wellv
    origin := fun w b hw n p hv => by
      rcases inv.origin w b hw n p hv with ⟨ho1, ho2⟩
      constructor
      · intro hb
        rcases ho1 hb with hp | hsl
        · exact Or.inl hp
        · right
          have := countLit_cons_le c R w true
          omega
      · intro hb
        rcases ho2 hb with hp | hsl
        · exact Or.inl hp
        · right
          have := countLit_cons_le c R w false
          omega }

/-- Replacing the head clause by one with identical literals away from
the assumed variable preserves the walk invariant. -/
theorem CInvW_head_congr {av : Nat} {c c' : Clause} {R : List Clause}
    {vars : Vars} {queue : Assignment}
    (hkey : ∀ k, k ≠ av → dget c'.variables' k = dget c.variables' k)
    (hkeys : ∀ k ∈ dkeys c'.variables', k ∈ dkeys c.variables')
    (inv : CInvW av (c :: R) [] vars queue) : CInvW av (c' :: R) [] vars queue := by
  have hcnt : ∀ (k : Nat) (b : Bool), k ≠ av →
      countLit (c' :: R) k b = countLit (c :: R) k b := by
    intro k b hk
    rw [countLit_cons, countLit_cons, hkey k hk]
  exact
    { nodup := inv.nodup
      nev := inv.nev
      boundN := fun q hq => by
        rw [hcnt q.1 false (inv.nev q hq)]
        exact inv.boundN q hq
      boundP := fun q hq => by
        rw [hcnt q.1 true (inv.nev q hq)]
        exact inv.boundP q hq
      covers := by
        intro cc hcc k hk hka
        rcases List.mem_cons.mp hcc with rfl | hcc1
        · exact inv.covers c (List.mem_cons_self _ _) k (hkeys k hk) hka
        · exact inv.covers cc (List.mem_cons_of_mem _ hcc1) k hk hka
      wellv := inv.wellv
      origin := fun w b hw n p hv => by
        have hwav : w ≠ av := inv.nev _ (mem_of_dget_eq_some hv)
        rcases inv.origin w b hw n p hv with ⟨ho1, ho2⟩
        constructor
        · intro hb
          rcases ho1 hb with hp | hsl
          · exact Or.inl hp
          · right
            rw [hcnt w true hwav]
            exact hsl
        · intro hb
          rcases ho2 hb with hp | hsl
          · exact Or.inl hp
          · right
            rw [hcnt w false hwav]
            exact hsl }

/-- Permutation-style congruence for the walk invariant on clause lists
with equal membership and equal occurrence counts. -/
theorem CInvW_congr {av : Nat} {eff eff' : List Clause}
    {vars : Vars} {queue : Assignment}
    (hmem : ∀ cc, cc ∈ eff ↔ cc ∈ eff')
    (hcnt : ∀ (k : Nat) (b : Bool), countLit eff k b = countLit eff' k b)
    (inv : CInvW av eff [] vars queue) : CInvW av eff' [] vars queue :=
  { nodup := inv.nodup
    nev := inv.nev
    boundN := fun q hq => by
      have h0 := inv.boundN q hq
      rw [hcnt q.1 false] at h0
      exact h0
    boundP := fun q hq => by
      have h0 := inv.boundP q hq
      rw [hcnt q.1 true] at h0
      exact h0
    covers := fun cc hcc => inv.covers cc ((hmem cc).mpr hcc)
    wellv := inv.wellv
    origin := fun w b hw n p hv => by
      rcases inv.origin w b hw n p hv with ⟨ho1, ho2⟩
      constructor
      · intro hb
        rcases ho1 hb with hp | hsl
        · exact Or.inl hp
        · right
          rw [← hcnt w true]
          exact hsl
      · intro hb
        rcases ho2 hb with hp | hsl
        · exact Or.inl hp
        · right
          rw [← hcnt w false]
          exact hsl }

/-- Dispatching one clause under the walk invariant: the result is never
a key error; on success the invariant and the potential carry over to
the kept clauses, and if some valuation satisfies the live clauses, is
consistent with the queue and agrees with the assumed literal, then no
contradiction is raised and the valuation transfers. -/
theorem processClauseC {av : Nat} {bav : Bool} {c : Clause} {R : List Clause}
    {vars : Vars} {queue : Assignment}
    (inv : CInvW av (c :: R) [] vars queue)
    (hcnd : (dkeys c.variables').Nodup) :
    ∃ keep cmut vars1 queue1 err,
      processClause av (some bav) c vars queue = (keep, cmut, vars1, queue1, err) ∧
      err ≠ some PErr.keyError ∧
      (err = Option.none →
        CInvW av (keep.toList ++ R) [] vars1 queue1 ∧
        phiQ vars1 queue1 ≤ phiQ vars queue ∧
        dkeys vars1 ⊆ dkeys vars ∧
        (∀ k ∈ dkeys queue, k ∈ dkeys queue1) ∧
        ((dkeys queue).Nodup → (dkeys queue1).Nodup) ∧
        (∀ c' ∈ keep.toList, (dkeys c'.variables').Nodup ∧
          av ∉ dkeys c'.variables' ∧
          ∀ k ∈ dkeys c'.variables', k ∈ dkeys c.variables')) ∧
      (∀ σ : Nat → Bool, (∀ cc ∈ c :: R, satClause σ cc) →
        (∀ w b, dget queue (some w) = some (some b) → σ w = b) →
        σ av = bav →
        err = Option.none ∧
        ∃ σ1 : Nat → Bool, (∀ cc ∈ keep.toList ++ R, satClause σ1 cc) ∧
          (∀ w b, dget queue1 (some w) = some (some b) → σ1 w = b) ∧
          (∀ u, u ∉ dkeys vars → σ1 u = σ u)) := by
  rw [processClause]
  rcases hcv : dget c.variables' av with _ | cv
  · refine ⟨some c, c, vars, queue, Option.none, rfl,
      fun hc => Option.noConfusion hc,
      fun _ => ⟨inv, le_refl _, fun a ha => ha, fun k hk => hk, fun h => h, ?_⟩, ?_⟩
    · intro c' hc'
      rcases List.mem_singleton.mp (by simpa using hc') with rfl
      exact ⟨hcnd, dget_eq_none_iff_not_mem.mp hcv, fun k hk => hk⟩
    · intro σ hsat hcons hav
      exact ⟨rfl, σ, hsat, hcons, fun u _ => rfl⟩
  · dsimp only
    by_cases hs : (some bav : Option Bool) = some cv
    · rw [if_pos hs]
      have invc : CInvW av R c.variables' vars queue :=
        { nodup := inv.nodup
          nev := inv.nev
          boundN := fun q hq => by
            have h0 := inv.boundN q hq
            rw [countLit_cons, ex_nil, ← ex_eq_indicator hcnd] at h0
            omega
          boundP := fun q hq => by
            have h0 := inv.boundP q hq
            rw [countLit_cons, ex_nil, ← ex_eq_indicator hcnd] at h0
            omega
          covers := fun c' hc' => inv.covers c' (List.mem_cons_of_mem _ hc')
          wellv := inv.wellv
          origin := fun w b hw n p hv => by
            rcases inv.origin w b hw n p hv with ⟨ho1, ho2⟩
            constructor
            · intro hb
              rcases ho1 hb with hp | hsl
              · exact Or.inl hp
              · right
                rw [countLit_cons, ex_nil, ← ex_eq_indicator hcnd] at hsl
                omega
            · intro hb
              rcases ho2 hb with hp | hsl
              · exact Or.inl hp
              · right
                rw [countLit_cons, ex_nil, ← ex_eq_indicator hcnd] at hsl
                omega }
      have hits : ∀ q ∈ c.variables', q.1 ≠ av → dmem vars q.1 = true := by
        intro q hq hqa
        exact inv.covers c (List.mem_cons_self _ _) q.1
          (List.mem_map_of_mem Prod.fst hq) hqa
      rcases propagateSatC av R c.variables' vars queue invc
        (by simpa [dkeys] using hcnd) hits with
        ⟨varsx, queuex, hps, pinv, pphi, psub, psqm, psqn, psig⟩
      rw [hps]
      refine ⟨Option.none, c, varsx, queuex, Option.none, rfl,
        fun hc => Option.noConfusion hc,
        fun _ => ⟨pinv, pphi, psub, psqm, psqn,
          fun c' hc' => absurd hc' (List.not_mem_nil c')⟩, ?_⟩
      intro σ hsat hcons hav
      rcases psig σ (fun cc hcc => hsat cc (List.mem_cons_of_mem _ hcc)) hcons with
        ⟨σ1, hs1, hc1, hout1⟩
      exact ⟨rfl, σ1, hs1, hc1, hout1⟩
    · rw [if_neg hs]
      have hbavcv : bav ≠ cv := fun hc => hs (congrArg some hc)
      rcases hdd : ddel c.variables' av with _ | ⟨⟨w, p⟩, restc⟩
      · -- the clause shrank to the empty clause: contradiction raise
        refine ⟨Option.none, ⟨[]⟩, vars, queue, some PErr.unsat, rfl,
          fun hc => PErr.noConfusion (Option.some.inj hc),
          fun hc => Option.noConfusion hc, ?_⟩
        intro σ hsat hcons hav
        exfalso
        rcases hsat c (List.mem_cons_self _ _) with ⟨u, bu, hcu, hσu⟩
        have huav : u = av :=
          keys_of_ddel_nil hdd _ (mem_of_dget_eq_some hcu)
        subst huav
        rw [hcv] at hcu
        rw [hav] at hσu
        exact hbavcv (by rw [hσu, ← Option.some.inj hcu])
      · rcases restc with _ | ⟨q2, rest2⟩
        · -- the clause shrank to a unit clause [(w, p)]
          dsimp only
          rcases keys_of_ddel_singleton hdd with ⟨hkaw, hwav, hwkc⟩
          have hwp : (w, p) ∈ ddel c.variables' av := by
            rw [hdd]
            exact List.mem_singleton.mpr rfl
          have hwpc : (w, p) ∈ c.variables' := (mem_ddel.mp hwp).1
          have hgetw : dget c.variables' w = some p := dget_eq_some_of_mem hcnd hwpc
          have hwvars : w ∈ dkeys vars := dmem_iff_mem_dkeys.mp
            (inv.covers c (List.mem_cons_self _ _) w hwkc hwav)
          have hσw : ∀ σ : Nat → Bool, (∀ cc ∈ c :: R, satClause σ cc) →
              σ av = bav → σ w = p := by
            intro σ hsat hav
            rcases hsat c (List.mem_cons_self _ _) with ⟨u, bu, hcu, hσu⟩
            have humem : u ∈ dkeys c.variables' := by
              rw [mem_dkeys_iff_dget, hcu]
              rfl
            rcases hkaw u humem with rfl | rfl
            · exfalso
              rw [hcv] at hcu
              rw [hav] at hσu
              exact hbavcv (by rw [hσu, ← Option.some.inj hcu])
            · rw [hgetw] at hcu
              rw [hσu]
              exact (Option.some.inj hcu).symm
          rcases hqw : dget queue (some w) with _ | pair
          · -- fresh unit entry enqueued
            have hmono := CInvW_mono_head inv
            have inv1 : CInvW av R [] vars (dinsert queue (some w) (some p)) :=
              { nodup := hmono.nodup
                nev := hmono.nev
                boundN := hmono.boundN
                boundP := hmono.boundP
                covers := hmono.covers
                wellv := by
                  intro w' val hv
                  by_cases hww : (some w' : Option Nat) = some w
                  · rw [hww, dget_dinsert_self] at hv
                    exact ⟨p, (Option.some.inj hv).symm⟩
                  · rw [dget_dinsert_ne _ _ _ _ hww] at hv
                    exact hmono.wellv w' val hv
                origin := by
                  intro w' b hw' n pp hv
                  by_cases hww : w' = w
                  · subst hww
                    rw [dget_dinsert_self] at hw'
                    have hb : b = p := (Option.some.inj (Option.some.inj hw')).symm
                    subst hb
                    have hqmem := mem_of_dget_eq_some hv
                    cases b
                    · refine ⟨fun hc => (nomatch hc), fun _ => ?_⟩
                      right
                      have h0 : countLit (c :: R) w' false +
                          ex ([] : List (Nat × Bool)) w' false ≤ n :=
                        inv.boundN _ hqmem
                      rw [countLit_cons, if_pos hgetw] at h0
                      omega
                    · refine ⟨fun _ => ?_, fun hc => (nomatch hc)⟩
                      right
                      have h0 : countLit (c :: R) w' true +
                          ex ([] : List (Nat × Bool)) w' true ≤ pp :=
                        inv.boundP _ hqmem
                      rw [countLit_cons, if_pos hgetw] at h0
                      omega
                  · rw [dget_dinsert_ne _ _ _ _
                      (fun hc => hww (Option.some.inj hc))] at hw'
                    exact hmono.origin w' b hw' n pp hv }
            refine ⟨Option.none, ⟨[(w, p)]⟩, vars, dinsert queue (some w) (some p),
              Option.none, rfl, fun hc => Option.noConfusion hc,
              fun _ => ⟨inv1, phiQ_queue_insert p hwvars hqw, fun a ha => ha,
                fun k hk => mem_dkeys_dinsert_of_mem _ _ hk,
                fun h => nodup_dkeys_dinsert _ h,
                fun c' hc' => absurd hc' (List.not_mem_nil c')⟩, ?_⟩
            intro σ hsat hcons hav
            refine ⟨rfl, σ, fun cc hcc => hsat cc (List.mem_cons_of_mem _ hcc),
              ?_, fun u _ => rfl⟩
            intro w' b hw'
            by_cases hww : w' = w
            · subst hww
              rw [dget_dinsert_self] at hw'
              have hb : b = p := (Option.some.inj (Option.some.inj hw')).symm
              subst hb
              exact hσw σ hsat hav
            · rw [dget_dinsert_ne _ _ _ _
                (fun hc => hww (Option.some.inj hc))] at hw'
              exact hcons w' b hw'
          · rcases inv.wellv w pair hqw with ⟨pb, rfl⟩
            dsimp only
            by_cases hpair : (some pb : Option Bool) = some p
            · rw [if_pos hpair]
              refine ⟨Option.none, ⟨[(w, p)]⟩, vars, queue, Option.none, rfl,
                fun hc => Option.noConfusion hc,
                fun _ => ⟨CInvW_mono_head inv, le_refl _, fun a ha => ha,
                  fun k hk => hk, fun h => h,
                  fun c' hc' => absurd hc' (List.not_mem_nil c')⟩, ?_⟩
              intro σ hsat hcons hav
              exact ⟨rfl, σ, fun cc hcc => hsat cc (List.mem_cons_of_mem _ hcc),
                hcons, fun u _ => rfl⟩
            · rw [if_neg hpair]
              refine ⟨Option.none, ⟨[(w, p)]⟩, vars, queue, some PErr.unsat, rfl,
                fun hc => PErr.noConfusion (Option.some.inj hc),
                fun hc => Option.noConfusion hc, ?_⟩
              intro σ hsat hcons hav
              exfalso
              have h1 : σ w = p := hσw σ hsat hav
              have h2 : σ w = pb := hcons w pb hqw
              exact hpair (congrArg some (by rw [← h2, h1]))
        · -- the clause kept at least two literals: keep the shrunk clause
          have hkeyeq : ∀ k, k ≠ av →
              dget (⟨(w, p) :: q2 :: rest2⟩ : Clause).variables' k =
                dget c.variables' k := by
            intro k hk
            rw [show ((⟨(w, p) :: q2 :: rest2⟩ : Clause).variables' : PyDict Nat Bool) =
              ddel c.variables' av from hdd.symm]
            exact dget_ddel_ne _ _ _ hk
          have hkeys : ∀ k ∈ dkeys (⟨(w, p) :: q2 :: rest2⟩ : Clause).variables',
              k ∈ dkeys c.variables' := by
            intro k hk
            rw [show ((⟨(w, p) :: q2 :: rest2⟩ : Clause).variables' : PyDict Nat Bool) =
              ddel c.variables' av from hdd.symm] at hk
            exact dkeys_ddel_subset _ _ hk
          have hcnd' : (dkeys (⟨(w, p) :: q2 :: rest2⟩ : Clause).variables').Nodup := by
            rw [show ((⟨(w, p) :: q2 :: rest2⟩ : Clause).variables' : PyDict Nat Bool) =
              ddel c.variables' av from hdd.symm]
            exact nodup_dkeys_ddel _ hcnd
          refine ⟨some ⟨(w, p) :: q2 :: rest2⟩, ⟨(w, p) :: q2 :: rest2⟩, vars, queue,
            Option.none, rfl, fun hc => Option.noConfusion hc,
            fun _ => ⟨CInvW_head_congr hkeyeq hkeys inv, le_refl _,
              fun a ha => ha, fun k hk => hk, fun h => h, ?_⟩, ?_⟩
          · intro c' hc'
            rcases List.mem_singleton.mp (by simpa using hc') with rfl
            refine ⟨hcnd', ?_, hkeys⟩
            rw [show ((⟨(w, p) :: q2 :: rest2⟩ : Clause).variables' : PyDict Nat Bool) =
              ddel c.variables' av from hdd.symm]
            exact not_mem_dkeys_ddel_self _ _
          · intro σ hsat hcons hav
            refine ⟨rfl, σ, ?_, hcons, fun u _ => rfl⟩
            intro cc hcc
            rcases List.mem_cons.mp (by simpa using hcc) with rfl | hcc1
            · rcases hsat c (List.mem_cons_self _ _) with ⟨u, bu, hcu, hσu⟩
              have huav : u ≠ av := by
                intro hc
                subst hc
                rw [hcv] at hcu
                rw [hav] at hσu
                exact hbavcv (by rw [hσu, ← Option.some.inj hcu])
              exact ⟨u, bu, by rw [hkeyeq u huav]; exact hcu, hσu⟩
            · exact hsat cc (List.mem_cons_of_mem _ hcc1)

/-- One pass over the clause list under the walk invariant: never a key
error; on success the invariant, potential bound, clause well-formedness
and index-key containment carry over, and a satisfying valuation
consistent with the queue and the assumed literal excludes the
contradiction raise and transfers to the new state. -/
theorem runPassC (av : Nat) (bav : Bool) :
    ∀ (cs E : List Clause) (vars : Vars) (queue : Assignment),
      CInvW av (E ++ cs) [] vars queue →
      (∀ c ∈ cs, (dkeys c.variables').Nodup) →
      ∃ new mutated vars1 queue1 err,
        runPass av (some bav) cs vars queue = (new, mutated, vars1, queue1, err) ∧
        err ≠ some PErr.keyError ∧
        (err = Option.none →
          CInvW av (E ++ new) [] vars1 queue1 ∧
          phiQ vars1 queue1 ≤ phiQ vars queue ∧
          dkeys vars1 ⊆ dkeys vars ∧
          (∀ k ∈ dkeys queue, k ∈ dkeys queue1) ∧
          ((dkeys queue).Nodup → (dkeys queue1).Nodup) ∧
          (∀ c' ∈ new, (dkeys c'.variables').Nodup ∧
            av ∉ dkeys c'.variables')) ∧
        (∀ σ : Nat → Bool, (∀ cc ∈ E ++ cs, satClause σ cc) →
          (∀ w b, dget queue (some w) = some (some b) → σ w = b) →
          σ av = bav →
          err = Option.none ∧
          ∃ σ1 : Nat → Bool, (∀ cc ∈ E ++ new, satClause σ1 cc) ∧
            (∀ w b, dget queue1 (some w) = some (some b) → σ1 w = b) ∧
            (∀ u, u ∉ dkeys vars → σ1 u = σ u)) := by
  intro cs
  induction cs with
  | nil =>
    intro E vars queue inv hwf
    rw [runPass]
    exact ⟨[], [], vars, queue, Option.none, rfl, fun hc => Option.noConfusion hc,
      fun _ => ⟨inv, le_refl _, fun a ha => ha, fun k hk => hk, fun h => h,
        fun c' hc' => absurd hc' (List.not_mem_nil c')⟩,
      fun σ hsat hcons _ => ⟨rfl, σ, hsat, hcons, fun u _ => rfl⟩⟩
  | cons c rest ih =>
    intro E vars queue inv hwf
    rw [runPass]
    have havnot : av ∉ dkeys vars := by
      intro hmm
      rcases List.mem_map.mp hmm with ⟨q, hq, hq1⟩
      exact inv.nev q hq hq1
    have invh : CInvW av (c :: (E ++ rest)) [] vars queue :=
      CInvW_congr (by intro cc; simp; tauto)
        (fun k b => countLit_middle E c rest k b) inv
    rcases processClauseC invh (hwf c (List.mem_cons_self _ _)) with
      ⟨keep, cmut, varsx, queuex, errx, hpc, hkerr, hok, hσp⟩
    rw [hpc]
    dsimp only
    rcases errx with _ | e
    · rcases hok rfl with ⟨pinv, pphi, psub, pqm, pqn, pkept⟩
      have pinv' : CInvW av ((E ++ keep.toList) ++ rest) [] varsx queuex :=
        CInvW_congr (by intro cc; simp; tauto)
          (fun k b => countLit_rot keep.toList E rest k b) pinv
      rcases ih (E ++ keep.toList) varsx queuex pinv'
        (fun c' hc' => hwf c' (List.mem_cons_of_mem _ hc')) with
        ⟨new2, mut2, vars2, queue2, err2, hrp, rkerr, rok, rσ⟩
      rw [hrp]
      dsimp only
      refine ⟨keep.toList ++ new2, cmut :: mut2, vars2, queue2, err2, rfl, rkerr,
        ?_, ?_⟩
      · intro he
        rcases rok he with ⟨rinv, rphi, rsub, rqm, rqn, rnodup⟩
        have rinv2 : CInvW av (E ++ (keep.toList ++ new2)) [] vars2 queue2 := by
          refine CInvW_congr ?_ ?_ rinv
          · intro cc
            rw [List.append_assoc]
          · exact fun k b => countLit_assoc E keep.toList new2 k b
        refine ⟨rinv2, le_trans rphi pphi, fun a ha => psub (rsub ha),
          fun k hk => rqm k (pqm k hk), fun h => rqn (pqn h), ?_⟩
        intro c' hc'
        rcases List.mem_append.mp hc' with h1 | h1
        · exact ⟨(pkept c' h1).1, (pkept c' h1).2.1⟩
        · exact rnodup c' h1
      · intro σ hsat hcons hav
        rcases hσp σ (fun cc hcc => hsat cc (by
            rcases List.mem_cons.mp hcc with rfl | h1
            · exact List.mem_append.mpr (Or.inr (List.mem_cons_self _ _))
            · rcases List.mem_append.mp h1 with h2 | h2
              · exact List.mem_append.mpr (Or.inl h2)
              · exact List.mem_append.mpr (Or.inr (List.mem_cons_of_mem _ h2))))
          hcons hav with ⟨_, σ1, hs1, hc1, hout1⟩
        have hav1 : σ1 av = bav := by
          rw [hout1 av havnot]
          exact hav
        rcases rσ σ1 (fun cc hcc => hs1 cc (by
            rcases List.mem_append.mp hcc with h1 | h1
            · rcases List.mem_append.mp h1 with h2 | h2
              · exact List.mem_append.mpr (Or.inr (List.mem_append.mpr (Or.inl h2)))
              · exact List.mem_append.mpr (Or.inl h2)
            · exact List.mem_append.mpr (Or.inr (List.mem_append.mpr (Or.inr h1)))))
          hc1 hav1 with ⟨herr2, σ2, hs2, hc2, hout2⟩
        refine ⟨herr2, σ2, ?_, hc2, ?_⟩
        · intro cc hcc
          refine hs2 cc ?_
          rcases List.mem_append.mp hcc with h1 | h1
          · exact List.mem_append.mpr (Or.inl (List.mem_append.mpr (Or.inl h1)))
          · rcases List.mem_append.mp h1 with h2 | h2
            · exact List.mem_append.mpr (Or.inl (List.mem_append.mpr (Or.inr h2)))
            · exact List.mem_append.mpr (Or.inr h2)
        · intro u hu
          rw [hout2 u (fun hc => hu (psub hc)), hout1 u hu]
    · refine ⟨[], cmut :: rest, varsx, queuex, some e, rfl, hkerr,
        fun hc => Option.noConfusion hc, ?_⟩
      intro σ hsat hcons hav
      rcases hσp σ (fun cc hcc => hsat cc (by
          rcases List.mem_cons.mp hcc with rfl | h1
          · exact List.mem_append.mpr (Or.inr (List.mem_cons_self _ _))
          · rcases List.mem_append.mp h1 with h2 | h2
            · exact List.mem_append.mpr (Or.inl h2)
            · exact List.mem_append.mpr (Or.inr (List.mem_cons_of_mem _ h2))))
        hcons hav with ⟨herrx, _⟩
      exact absurd herrx (fun hc => Option.noConfusion hc)

theorem ddel_eq_self_of_not_mem {K V : Type} [DecidableEq K] {d : PyDict K V} {k : K}
    (h : k ∉ dkeys d) : ddel d k = d := by
  induction d with
  | nil => rfl
  | cons p rest ih =>
    rw [dkeys_cons] at h
    have h1 : ¬ p.1 = k := fun hc => h (by rw [hc]; exact List.mem_cons_self _ _)
    have h2 : k ∉ dkeys rest := fun hc => h (List.mem_cons_of_mem _ hc)
    rw [ddel, if_neg h1, ih h2]

theorem countP_flip_le {l : List Nat} {f g : Nat → Bool} {v : Nat}
    (hnd : l.Nodup) (h : ∀ w, w ≠ v → g w = f w) :
    l.countP g ≤ l.countP f + 1 := by
  induction l with
  | nil => simp
  | cons a t ih =>
    rw [List.nodup_cons] at hnd
    rw [List.countP_cons, List.countP_cons]
    by_cases hav : a = v
    · subst hav
      have heq : t.countP g = t.countP f := by
        refine List.countP_congr ?_
        intro x hx
        rw [h x (fun hc => hnd.1 (hc ▸ hx))]
      rw [heq]
      have h1 : (if g a then 1 else 0) ≤ 1 := by split <;> omega
      have h2 : (0 : Nat) ≤ if f a then 1 else 0 := by split <;> omega
      omega
    · rw [h a hav]
      have := ih hnd.2
      omega

theorem unq_flip_le {vars : Vars} {v : Nat} {q q' : Assignment}
    (hnd : (dkeys vars).Nodup)
    (h : ∀ w, w ≠ v → (dget q' (some w) = Option.none ↔
      dget q (some w) = Option.none)) :
    unq vars q' ≤ unq vars q + 1 := by
  rw [unq, unq]
  refine countP_flip_le (v := v) hnd ?_
  intro w hw
  by_cases h1 : dget q' (some w) = Option.none
  · rw [decide_eq_true h1, decide_eq_true ((h w hw).mp h1)]
  · rw [decide_eq_false h1, decide_eq_false (fun hc => h1 ((h w hw).mpr hc))]

theorem unq_ddel_of_mem {vars : Vars} {v : Nat} {q : Assignment}
    (hnd : (dkeys vars).Nodup) (hv : v ∈ dkeys vars)
    (hq : dget q (some v) = Option.none) :
    unq (ddel vars v) q + 1 = unq vars q := by
  induction vars with
  | nil => cases hv
  | cons p rest ih =>
    rw [dkeys_cons, List.nodup_cons] at hnd
    by_cases hp : p.1 = v
    · have hvnr : v ∉ dkeys rest := by
        rw [← hp]
        exact hnd.1
      rw [show ddel (p :: rest) v = rest by
        rw [ddel, if_pos hp]
        exact ddel_eq_self_of_not_mem hvnr]
      rw [unq, unq, dkeys_cons, List.countP_cons]
      have hpt : decide (dget q (some p.1) = Option.none) = true := by
        rw [hp]
        exact decide_eq_true hq
      rw [hpt]
      rfl
    · rw [show ddel (p :: rest) v = p :: ddel rest v by rw [ddel, if_neg hp]]
      have hv' : v ∈ dkeys rest := by
        rcases List.mem_cons.mp (by rwa [dkeys_cons] at hv) with h1 | h1
        · exact absurd h1.symm hp
        · exact h1
      have := ih hnd.2 hv'
      rw [unq, unq, dkeys_cons, dkeys_cons, List.countP_cons, List.countP_cons]
      rw [unq, unq] at this
      omega

/-- Loop-head invariant of the completeness walk through the
`while var_queue` loop: well-formed index and clauses, occurrence upper
bounds, duplicate-free queue whose pending entries all carry boolean
values of pure or unit origin. -/
structure LInvC (vars : Vars) (cs : List Clause) (queue : Assignment) : Prop where
  varsNodup : (dkeys vars).Nodup
  clsWF : ∀ c ∈ cs, (dkeys c.variables').Nodup
  covers : ∀ c ∈ cs, ∀ k ∈ dkeys c.variables', dmem vars k = true
  boundN : ∀ q ∈ vars, countLit cs q.1 false ≤ q.2.1
  boundP : ∀ q ∈ vars, countLit cs q.1 true ≤ q.2.2
  queueNodup : (dkeys queue).Nodup
  wellv : ∀ w val, dget queue (some w) = some val → ∃ b, val = some b
  origin : ∀ w b, dget queue (some w) = some (some b) → ∀ n p,
    dget vars w = some (n, p) →
    (b = true → n = 0 ∨ countLit cs w true + 1 ≤ p) ∧
    (b = false → p = 0 ∨ countLit cs w false + 1 ≤ n)

/-- The `while var_queue` loop under the completeness invariant, with
fuel exceeding the loop potential: it always returns; an error is only
ever the contradiction signal, never a key error; a successful run
re-establishes the invariant on the final state with shrunken index keys
and discards every popped variable from the index (unless the early exit
fired); and a satisfying consistent valuation forces success and
survives to the final clause list. -/
theorem propagateLoopC (fuel : Nat) :
    ∀ (vars : Vars) (cs : List Clause) (queue A : Assignment),
      LInvC vars cs queue →
      phiQ vars queue < fuel →
      ∃ res F', propagateLoop fuel vars cs queue A = some (res, F') ∧
        (∀ e, res = Except.error e → e = PErr.unsat) ∧
        (∀ Af, res = Except.ok Af →
          LInvC F'.variables' F'.clauses [] ∧
          dkeys F'.variables' ⊆ dkeys vars ∧
          (∀ w : Nat, some w ∈ dkeys queue → F'.clauses ≠ [] →
            w ∉ dkeys F'.variables') ∧
          (cs = [] → F'.clauses = [])) ∧
        (∀ σ : Nat → Bool, (∀ c ∈ cs, satClause σ c) →
          (∀ w b, dget queue (some w) = some (some b) → σ w = b) →
          ∃ Af, res = Except.ok Af ∧
            ∃ σ' : Nat → Bool, (∀ c ∈ F'.clauses, satClause σ' c) ∧
              (∀ u, u ∉ dkeys vars → σ' u = σ u)) := by
  induction fuel with
  | zero =>
    intro vars cs queue A inv hfuel
    exact absurd hfuel (Nat.not_lt_zero _)
  | succ fuel ih =>
    intro vars cs queue A inv hfuel
    rw [propagateLoop]
    rcases hq : dpop queue with _ | ⟨⟨av, aval⟩, queue'⟩
    · have hqe : queue = [] := dpop_eq_none_iff.mp hq
      subst hqe
      refine ⟨Except.ok A, ⟨vars, cs⟩, rfl, fun e he => Except.noConfusion he,
        ?_, ?_⟩
      · intro Af _
        refine ⟨⟨inv.varsNodup, inv.clsWF, inv.covers, inv.boundN, inv.boundP,
          List.nodup_nil, fun w val hv => Option.noConfusion hv,
          fun w b hw => Option.noConfusion hw⟩,
          fun a ha => ha, fun w hw => absurd hw (List.not_mem_nil _),
          fun hcs => hcs⟩
      · intro σ hsat hcons
        exact ⟨A, rfl, σ, hsat, fun u _ => rfl⟩
    · rcases dpop_facts hq inv.queueNodup with
        ⟨hnd', havnot, havmem, hsub', hnone, hnone'⟩
      have heqq : queue = queue' ++ [(av, aval)] := dpop_eq_some hq
      have hstat : ∀ k, k ≠ av → (dget queue' k = Option.none ↔
          dget queue k = Option.none) := fun k hk => ⟨hnone' k hk, hnone k⟩
      have hqmem' : ∀ k val, dget queue' k = some val → dget queue k = some val := by
        intro k val hv
        rw [heqq]
        exact dget_concat_left hv
      have hqlen : queue'.length + 1 = queue.length := by
        rw [heqq, List.length_append]
        rfl
      rcases av with _ | v
      · -- the popped key is None: skipped by the loop
        have inv' : LInvC vars cs queue' :=
          { varsNodup := inv.varsNodup
            clsWF := inv.clsWF
            covers := inv.covers
            boundN := inv.boundN
            boundP := inv.boundP
            queueNodup := hnd'
            wellv := fun w val hv => inv.wellv w val (hqmem' _ _ hv)
            origin := fun w b hw => inv.origin w b (hqmem' _ _ hw) }
        have hunq : unq vars queue' = unq vars queue :=
          unq_congr (fun w _ => hstat (some w) (fun hc => Option.noConfusion hc))
        have hfuel' : phiQ vars queue' < fuel := by
          rw [phiQ] at hfuel
          rw [phiQ]
          omega
        rcases ih vars cs queue' (dinsert A Option.none aval) inv' hfuel' with
          ⟨res, F', hrec, herr, hok, hσ⟩
        refine ⟨res, F', hrec, herr, ?_, ?_⟩
        · intro Af hAf
          rcases hok Af hAf with ⟨c1, c2, c3, c4⟩
          refine ⟨c1, c2, ?_, c4⟩
          intro w hw hne
          rw [heqq, dkeys_append] at hw
          rcases List.mem_append.mp hw with h1 | h1
          · exact c3 w h1 hne
          · rw [dkeys_cons, dkeys_nil] at h1
            rcases List.mem_singleton.mp h1 with h2
            exact Option.noConfusion h2
        · intro σ hsat hcons
          exact hσ σ hsat (fun w b hb => hcons w b (hqmem' _ _ hb))
      · dsimp only
        by_cases hm : dmem vars v = true
        · rw [if_pos hm]
          have hvkeys : v ∈ dkeys vars := dmem_iff_mem_dkeys.mp hm
          have hq'none : dget queue' (some v) = Option.none :=
            dget_eq_none_iff_not_mem.mpr havnot
          have hqv : dget queue (some v) = some aval := by
            rw [heqq, dget_concat, hq'none]
            exact if_pos rfl
          rcases inv.wellv v aval hqv with ⟨bav, rfl⟩
          have cinv : CInvW v cs [] (ddel vars v) queue' :=
            { nodup := nodup_dkeys_ddel _ inv.varsNodup
              nev := fun q hq2 => (mem_ddel.mp hq2).2
              boundN := fun q hq2 => by
                rw [ex_nil]
                have := inv.boundN q (mem_ddel.mp hq2).1
                omega
              boundP := fun q hq2 => by
                rw [ex_nil]
                have := inv.boundP q (mem_ddel.mp hq2).1
                omega
              covers := fun c hc k hk hkv =>
                dmem_ddel_of_ne _ (inv.covers c hc k hk) hkv
              wellv := fun w val hv => inv.wellv w val (hqmem' _ _ hv)
              origin := by
                intro w b hw n p hv
                rcases inv.origin w b (hqmem' _ _ hw) n p (dget_ddel_imp hv) with
                  ⟨ho1, ho2⟩
                constructor
                · intro hb
                  rcases ho1 hb with hp | hsl
                  · exact Or.inl hp
                  · right
                    rw [ex_nil]
                    omega
                · intro hb
                  rcases ho2 hb with hp | hsl
                  · exact Or.inl hp
                  · right
                    rw [ex_nil]
                    omega }
          rcases runPassC v bav cs [] (ddel vars v) queue' cinv inv.clsWF with
            ⟨new, mutated, vars1, queue1, err, hrp, rkerr, rok, rσ⟩
          rw [hrp]
          dsimp only
          rcases err with _ | e
          · rcases rok rfl with ⟨rinv, rphi, rsub, rqm, rqn, rkept⟩
            have hbudget : phiQ (ddel vars v) queue' + 1 ≤ phiQ vars queue := by
              have l2 := unq_ddel_of_mem inv.varsNodup hvkeys hq'none
              have l3 : unq vars queue' ≤ unq vars queue + 1 :=
                unq_flip_le inv.varsNodup (fun w hw =>
                  hstat (some w) (fun hc => hw (Option.some.inj hc)))
              rw [phiQ, phiQ]
              omega
            by_cases hnew : new = []
            · rw [if_pos hnew]
              refine ⟨Except.ok (dmerge (dinsert A (some v) (some bav)) queue1),
                ⟨vars1, []⟩, rfl, fun e he => Except.noConfusion he, ?_, ?_⟩
              · intro Af _
                refine ⟨⟨rinv.nodup,
                  fun c hc => absurd hc (List.not_mem_nil _),
                  fun c hc => absurd hc (List.not_mem_nil _),
                  ?_, ?_, List.nodup_nil,
                  fun w val hv => Option.noConfusion hv,
                  fun w b hw => Option.noConfusion hw⟩,
                  fun a ha => dkeys_ddel_subset vars v (rsub ha),
                  fun w hw hne => absurd rfl hne, fun hcs => rfl⟩
                · intro q hq2
                  have h0 : countLit new q.1 false +
                      ex ([] : List (Nat × Bool)) q.1 false ≤ q.2.1 :=
                    rinv.boundN q hq2
                  rw [hnew] at h0
                  rw [ex_nil] at h0
                  exact h0
                · intro q hq2
                  have h0 : countLit new q.1 true +
                      ex ([] : List (Nat × Bool)) q.1 true ≤ q.2.2 :=
                    rinv.boundP q hq2
                  rw [hnew] at h0
                  rw [ex_nil] at h0
                  exact h0
              · intro σ hsat hcons
                rcases rσ σ hsat (fun w b hb => hcons w b (hqmem' _ _ hb))
                  (hcons v bav hqv) with ⟨_, σ1, hs1, hc1, hout1⟩
                refine ⟨dmerge (dinsert A (some v) (some bav)) queue1, rfl, σ1,
                  fun c hc => absurd hc (List.not_mem_nil _), ?_⟩
                intro u hu
                exact hout1 u (fun hc => hu (dkeys_ddel_subset vars v hc))
            · rw [if_neg hnew]
              have inv1 : LInvC vars1 new queue1 :=
                { varsNodup := rinv.nodup
                  clsWF := fun c hc => (rkept c hc).1
                  covers := fun c hc k hk =>
                    rinv.covers c hc k hk (fun hc2 => (rkept c hc).2 (hc2 ▸ hk))
                  boundN := fun q hq2 => by
                    have h0 : countLit new q.1 false +
                        ex ([] : List (Nat × Bool)) q.1 false ≤ q.2.1 :=
                      rinv.boundN q hq2
                    rw [ex_nil] at h0
                    omega
                  boundP := fun q hq2 => by
                    have h0 : countLit new q.1 true +
                        ex ([] : List (Nat × Bool)) q.1 true ≤ q.2.2 :=
                      rinv.boundP q hq2
                    rw [ex_nil] at h0
                    omega
                  queueNodup := rqn hnd'
                  wellv := rinv.wellv
                  origin := by
                    intro w b hw n p hv
                    have horig : (b = true → n = 0 ∨ countLit new w true +
                        ex ([] : List (Nat × Bool)) w true + 1 ≤ p) ∧
                        (b = false → p = 0 ∨ countLit new w false +
                          ex ([] : List (Nat × Bool)) w false + 1 ≤ n) :=
                      rinv.origin w b hw n p hv
                    rcases horig with ⟨ho1, ho2⟩
                    constructor
                    · intro hb
                      rcases ho1 hb with hp | hsl
                      · exact Or.inl hp
                      · right
                        rw [ex_nil] at hsl
                        omega
                    · intro hb
                      rcases ho2 hb with hp | hsl
                      · exact Or.inl hp
                      · right
                        rw [ex_nil] at hsl
                        omega }
              have hfuel1 : phiQ vars1 queue1 < fuel := by
                have := le_trans rphi (by omega : phiQ (ddel vars v) queue' ≤
                  phiQ vars queue - 1)
                omega
              rcases ih vars1 new queue1 (dinsert A (some v) (some bav)) inv1
                hfuel1 with ⟨res, F', hrec, herr, hok, hσ⟩
              refine ⟨res, F', hrec, herr, ?_, ?_⟩
              · intro Af hAf
                rcases hok Af hAf with ⟨c1, c2, c3, c4⟩
                refine ⟨c1, fun a ha => dkeys_ddel_subset vars v (rsub (c2 ha)),
                  ?_, ?_⟩
                · intro w hw hne
                  rw [heqq, dkeys_append] at hw
                  rcases List.mem_append.mp hw with h1 | h1
                  · exact c3 w (rqm _ h1) hne
                  · rw [dkeys_cons, dkeys_nil] at h1
                    have h2 : w = v := Option.some.inj (List.mem_singleton.mp h1)
                    subst h2
                    intro hc
                    exact not_mem_dkeys_ddel_self vars w (rsub (c2 hc))
                · intro hcs
                  exfalso
                  subst hcs
                  rw [runPass] at hrp
                  cases hrp
                  exact hnew rfl
              · intro σ hsat hcons
                rcases rσ σ hsat (fun w b hb => hcons w b (hqmem' _ _ hb))
                  (hcons v bav hqv) with ⟨_, σ1, hs1, hc1, hout1⟩
                rcases hσ σ1 hs1 hc1 with ⟨Af, hres, σ2, hs2, hout2⟩
                refine ⟨Af, hres, σ2, hs2, ?_⟩
                intro u hu
                have hu1 : u ∉ dkeys (ddel vars v) :=
                  fun hc => hu (dkeys_ddel_subset vars v hc)
                have hu2 : u ∉ dkeys vars1 := fun hc => hu1 (rsub hc)
                rw [hout2 u hu2, hout1 u hu1]
          · refine ⟨Except.error e, ⟨vars1, mutated⟩, rfl, ?_,
              fun Af hAf => Except.noConfusion hAf, ?_⟩
            · intro e' he'
              have he2 : e = PErr.unsat := by
                cases e
                · rfl
                · exact absurd rfl rkerr
              injection he' with h
              rw [← h]
              exact he2
            · intro σ hsat hcons
              rcases rσ σ hsat (fun w b hb => hcons w b (hqmem' _ _ hb))
                (hcons v bav hqv) with ⟨herrx, -⟩
              exact Option.noConfusion herrx
        · rw [if_neg hm]
          have hvnot : v ∉ dkeys vars := by
            intro hc
            rw [dmem_iff_mem_dkeys.mpr hc] at hm
            exact hm rfl
          have inv' : LInvC vars cs queue' :=
            { varsNodup := inv.varsNodup
              clsWF := inv.clsWF
              covers := inv.covers
              boundN := inv.boundN
              boundP := inv.boundP
              queueNodup := hnd'
              wellv := fun w val hv => inv.wellv w val (hqmem' _ _ hv)
              origin := fun w b hw => inv.origin w b (hqmem' _ _ hw) }
          have hunq : unq vars queue' = unq vars queue :=
            unq_congr (fun w hw => hstat (some w) (fun hc => by
              rw [Option.some.inj hc] at hw
              exact hvnot hw))
          have hfuel' : phiQ vars queue' < fuel := by
            rw [phiQ] at hfuel
            rw [phiQ]
            omega
          rcases ih vars cs queue' (dinsert A (some v) aval) inv' hfuel' with
            ⟨res, F', hrec, herr, hok, hσ⟩
          refine ⟨res, F', hrec, herr, ?_, ?_⟩
          · intro Af hAf
            rcases hok Af hAf with ⟨c1, c2, c3, c4⟩
            refine ⟨c1, c2, ?_, c4⟩
            intro w hw hne
            rw [heqq, dkeys_append] at hw
            rcases List.mem_append.mp hw with h1 | h1
            · exact c3 w h1 hne
            · rw [dkeys_cons, dkeys_nil] at h1
              have h2 : w = v := Option.some.inj (List.mem_singleton.mp h1)
              subst h2
              exact fun hc => hvnot (c2 hc)
          · intro σ hsat hcons
            exact hσ σ hsat (fun w b hb => hcons w b (hqmem' _ _ hb))

theorem unq_nil_queue (vars : Vars) : unq vars [] = (dkeys vars).length := by
  rw [unq, List.countP_eq_length]
  intro a _
  exact decide_eq_true rfl

theorem length_lt_of_ssubset {l' l : List Nat} (hnd : l'.Nodup)
    (hsub : l' ⊆ l) (v : Nat) (hv : v ∈ l) (hv' : v ∉ l') :
    l'.length < l.length := by
  have hsub2 : l' ⊆ l.erase v := by
    intro x hx
    exact (List.mem_erase_of_ne (fun hc => hv' (by rw [← hc]; exact hx))).mpr
      (hsub hx)
  have h1 : l'.length ≤ (l.erase v).length :=
    (List.subperm_of_subset hnd hsub2).length_le
  have h2 : (l.erase v).length = l.length - 1 := List.length_erase_of_mem hv
  have h3 : 0 < l.length := List.length_pos_of_mem hv
  omega

theorem findUnit_empty :
    ∀ (cs : List Clause), findUnit cs = some Option.none →
      ∃ c ∈ cs, (c.variables' : PyDict Nat Bool) = [] := by
  intro cs
  induction cs with
  | nil =>
    intro h
    cases h
  | cons c rest ih =>
    intro h
    rw [findUnit] at h
    rcases hv : (c.variables' : PyDict Nat Bool) with _ | ⟨q1, rest1⟩
    · exact ⟨c, List.mem_cons_self _ _, hv⟩
    · rw [hv] at h
      rcases rest1 with _ | ⟨q2, rest2⟩
      · rcases q1 with ⟨v, p⟩
        dsimp only at h
        exact Option.noConfusion (Option.some.inj h)
      · dsimp only at h
        rcases ih h with ⟨c', hc', he⟩
        exact ⟨c', List.mem_cons_of_mem _ hc', he⟩

/-- A `propagate` call with a one-entry queue from a well-formed bounded
state always returns within fuel `2·|index| + 3`; only the contradiction
signal can be raised; success re-establishes the loop invariant with the
assumed variable expelled from the index; a satisfying valuation
agreeing with the assumed literal forces success. -/
theorem propagateSingleC (fuel : Nat) (vars : Vars) (cs : List Clause)
    (k : Option Nat) (val : Option Bool) (A : Assignment)
    (hnd : (dkeys vars).Nodup)
    (hwf : ∀ c ∈ cs, (dkeys c.variables').Nodup)
    (hcov : ∀ c ∈ cs, ∀ k' ∈ dkeys c.variables', dmem vars k' = true)
    (hbn : ∀ q ∈ vars, countLit cs q.1 false ≤ q.2.1)
    (hbp : ∀ q ∈ vars, countLit cs q.1 true ≤ q.2.2)
    (hval : ∀ v, k = some v → ∃ b, val = some b)
    (hfuel : 2 * (dkeys vars).length + 2 < fuel) :
    ∃ res F', propagateLoop fuel vars cs [(k, val)] A = some (res, F') ∧
      (∀ e, res = Except.error e → e = PErr.unsat) ∧
      (∀ Af, res = Except.ok Af →
        LInvC F'.variables' F'.clauses [] ∧
        dkeys F'.variables' ⊆ dkeys vars ∧
        (∀ v, k = some v → F'.clauses ≠ [] → v ∉ dkeys F'.variables') ∧
        (cs = [] → F'.clauses = [])) ∧
      (∀ σ : Nat → Bool, (∀ c ∈ cs, satClause σ c) →
        (∀ v b, k = some v → val = some b → σ v = b) →
        ∃ Af, res = Except.ok Af ∧
          ∃ σ' : Nat → Bool, (∀ c ∈ F'.clauses, satClause σ' c) ∧
            (∀ u, u ∉ dkeys vars → σ' u = σ u)) := by
  have hemptyLI : ∀ (vs : Vars) (cls : List Clause),
      (dkeys vs).Nodup →
      (∀ c ∈ cls, (dkeys c.variables').Nodup) →
      (∀ c ∈ cls, ∀ k' ∈ dkeys c.variables', dmem vs k' = true) →
      (∀ q ∈ vs, countLit cls q.1 false ≤ q.2.1) →
      (∀ q ∈ vs, countLit cls q.1 true ≤ q.2.2) →
      LInvC vs cls [] := by
    intro vs cls h1 h2 h3 h4 h5
    exact ⟨h1, h2, h3, h4, h5, List.nodup_nil,
      fun w valx hvx => Option.noConfusion hvx,
      fun w b hw => Option.noConfusion hw⟩
  have hphiNil : ∀ vs : Vars, phiQ vs [] = 2 * (dkeys vs).length := by
    intro vs
    rw [phiQ, unq_nil_queue]
    show 0 + 2 * (dkeys vs).length = 2 * (dkeys vs).length
    omega
  rcases fuel with _ | f
  · omega
  rw [propagateLoop]
  rw [show dpop [(k, val)] = some ((k, val), ([] : Assignment)) from rfl]
  rcases k with _ | v
  · -- key None: skipped, then the queue is empty
    have inv0 : LInvC vars cs [] := hemptyLI vars cs hnd hwf hcov hbn hbp
    have hf0 : phiQ vars [] < f := by
      rw [hphiNil]
      omega
    rcases propagateLoopC f vars cs [] (dinsert A Option.none val) inv0 hf0 with
      ⟨res, F', hrec, herr, hok, hσ⟩
    refine ⟨res, F', hrec, herr, ?_, ?_⟩
    · intro Af hAf
      rcases hok Af hAf with ⟨c1, c2, c3, c4⟩
      exact ⟨c1, c2, fun v hv => Option.noConfusion hv, c4⟩
    · intro σ hsat hcons
      exact hσ σ hsat (fun w b hb => Option.noConfusion hb)
  · rcases hval v rfl with ⟨bv, rfl⟩
    dsimp only
    by_cases hm : dmem vars v = true
    · rw [if_pos hm]
      have hvkeys : v ∈ dkeys vars := dmem_iff_mem_dkeys.mp hm
      have cinv : CInvW v cs [] (ddel vars v) [] :=
        { nodup := nodup_dkeys_ddel _ hnd
          nev := fun q hq2 => (mem_ddel.mp hq2).2
          boundN := fun q hq2 => by
            rw [ex_nil]
            have := hbn q (mem_ddel.mp hq2).1
            omega
          boundP := fun q hq2 => by
            rw [ex_nil]
            have := hbp q (mem_ddel.mp hq2).1
            omega
          covers := fun c hc k' hk hkv =>
            dmem_ddel_of_ne _ (hcov c hc k' hk) hkv
          wellv := fun w valx hvx => Option.noConfusion hvx
          origin := fun w b hw => Option.noConfusion hw }
      rcases runPassC v bv cs [] (ddel vars v) [] cinv hwf with
        ⟨new, mutated, vars1, queue1, err, hrp, rkerr, rok, rσ⟩
      rw [hrp]
      dsimp only
      rcases err with _ | e
      · rcases rok rfl with ⟨rinv, rphi, rsub, rqm, rqn, rkept⟩
        by_cases hnew : new = []
        · rw [if_pos hnew]
          refine ⟨Except.ok (dmerge (dinsert A (some v) (some bv)) queue1),
            ⟨vars1, []⟩, rfl, fun e he => Except.noConfusion he, ?_, ?_⟩
          · intro Af _
            refine ⟨hemptyLI vars1 [] rinv.nodup
              (fun c hc => absurd hc (List.not_mem_nil _))
              (fun c hc => absurd hc (List.not_mem_nil _))
              (fun q hq2 => ?_) (fun q hq2 => ?_),
              fun a ha => dkeys_ddel_subset vars v (rsub ha),
              fun v' hv' hne => absurd rfl hne, fun hcs => rfl⟩
            · have h0 : countLit new q.1 false +
                  ex ([] : List (Nat × Bool)) q.1 false ≤ q.2.1 :=
                rinv.boundN q hq2
              rw [hnew, ex_nil] at h0
              exact h0
            · have h0 : countLit new q.1 true +
                  ex ([] : List (Nat × Bool)) q.1 true ≤ q.2.2 :=
                rinv.boundP q hq2
              rw [hnew, ex_nil] at h0
              exact h0
          · intro σ hsat hcons
            rcases rσ σ hsat (fun w b hb => Option.noConfusion hb)
              (hcons v bv rfl rfl) with ⟨_, σ1, hs1, hc1, hout1⟩
            refine ⟨dmerge (dinsert A (some v) (some bv)) queue1, rfl, σ1,
              fun c hc => absurd hc (List.not_mem_nil _), ?_⟩
            intro u hu
            exact hout1 u (fun hc => hu (dkeys_ddel_subset vars v hc))
        · rw [if_neg hnew]
          have inv1 : LInvC vars1 new queue1 :=
            { varsNodup := rinv.nodup
              clsWF := fun c hc => (rkept c hc).1
              covers := fun c hc k' hk =>
                rinv.covers c hc k' hk (fun hc2 => (rkept c hc).2 (hc2 ▸ hk))
              boundN := fun q hq2 => by
                have h0 : countLit new q.1 false +
                    ex ([] : List (Nat × Bool)) q.1 false ≤ q.2.1 :=
                  rinv.boundN q hq2
                rw [ex_nil] at h0
                omega
              boundP := fun q hq2 => by
                have h0 : countLit new q.1 true +
                    ex ([] : List (Nat × Bool)) q.1 true ≤ q.2.2 :=
                  rinv.boundP q hq2
                rw [ex_nil] at h0
                omega
              queueNodup := rqn List.nodup_nil
              wellv := rinv.wellv
              origin := by
                intro w b hw n p hv
                have horig : (b = true → n = 0 ∨ countLit new w true +
                    ex ([] : List (Nat × Bool)) w true + 1 ≤ p) ∧
                    (b = false → p = 0 ∨ countLit new w false +
                      ex ([] : List (Nat × Bool)) w false + 1 ≤ n) :=
                  rinv.origin w b hw n p hv
                rcases horig with ⟨ho1, ho2⟩
                constructor
                · intro hb
                  rcases ho1 hb with hp | hsl
                  · exact Or.inl hp
                  · right
                    rw [ex_nil] at hsl
                    omega
                · intro hb
                  rcases ho2 hb with hp | hsl
                  · exact Or.inl hp
                  · right
                    rw [ex_nil] at hsl
                    omega }
          have hfuel1 : phiQ vars1 queue1 < f := by
            have h1 := le_trans rphi (le_of_eq (hphiNil (ddel vars v)))
            have h2 : (dkeys (ddel vars v)).length ≤ (dkeys vars).length :=
              List.Sublist.length_le ((ddel_sublist vars v).map Prod.fst)
            omega
          rcases propagateLoopC f vars1 new queue1
            (dinsert A (some v) (some bv)) inv1 hfuel1 with
            ⟨res, F', hrec, herr, hok, hσ⟩
          refine ⟨res, F', hrec, herr, ?_, ?_⟩
          · intro Af hAf
            rcases hok Af hAf with ⟨c1, c2, c3, c4⟩
            refine ⟨c1, fun a ha => dkeys_ddel_subset vars v (rsub (c2 ha)),
              ?_, ?_⟩
            · intro v' hv' hne
              have hv2 : v' = v := Option.some.inj hv'.symm
              subst hv2
              intro hc
              exact not_mem_dkeys_ddel_self vars v' (rsub (c2 hc))
            · intro hcs
              exfalso
              subst hcs
              rw [runPass] at hrp
              cases hrp
              exact hnew rfl
          · intro σ hsat hcons
            rcases rσ σ hsat (fun w b hb => Option.noConfusion hb)
              (hcons v bv rfl rfl) with ⟨_, σ1, hs1, hc1, hout1⟩
            rcases hσ σ1 hs1 hc1 with ⟨Af, hres, σ2, hs2, hout2⟩
            refine ⟨Af, hres, σ2, hs2, ?_⟩
            intro u hu
            have hu1 : u ∉ dkeys (ddel vars v) :=
              fun hc => hu (dkeys_ddel_subset vars v hc)
            have hu2 : u ∉ dkeys vars1 := fun hc => hu1 (rsub hc)
            rw [hout2 u hu2, hout1 u hu1]
      · refine ⟨Except.error e, ⟨vars1, mutated⟩, rfl, ?_,
          fun Af hAf => Except.noConfusion hAf, ?_⟩
        · intro e' he'
          have he2 : e = PErr.unsat := by
            cases e
            · rfl
            · exact absurd rfl rkerr
          injection he' with h
          rw [← h]
          exact he2
        · intro σ hsat hcons
          rcases rσ σ hsat (fun w b hb => Option.noConfusion hb)
            (hcons v bv rfl rfl) with ⟨herrx, -⟩
          exact Option.noConfusion herrx
    · rw [if_neg hm]
      have hvnot : v ∉ dkeys vars := by
        intro hc
        rw [dmem_iff_mem_dkeys.mpr hc] at hm
        exact hm rfl
      have inv0 : LInvC vars cs [] := hemptyLI vars cs hnd hwf hcov hbn hbp
      have hf0 : phiQ vars [] < f := by
        rw [hphiNil]
        omega
      rcases propagateLoopC f vars cs [] (dinsert A (some v) (some bv)) inv0
        hf0 with ⟨res, F', hrec, herr, hok, hσ⟩
      refine ⟨res, F', hrec, herr, ?_, ?_⟩
      · intro Af hAf
        rcases hok Af hAf with ⟨c1, c2, c3, c4⟩
        refine ⟨c1, c2, ?_, c4⟩
        intro v' hv' hne
        have hv2 : v' = v := Option.some.inj hv'.symm
        subst hv2
        exact fun hc => hvnot (c2 hc)
      · intro σ hsat hcons
        exact hσ σ hsat (fun w b hb => Option.noConfusion hb)

/-- The `while True` loop of `unit_propagate` under the loop invariant,
with fuel exceeding `2·|index| + 3`: it always returns; an error is only
the contradiction signal; success re-establishes the invariant with
shrunken index; a satisfying valuation forces success and survives. -/
theorem unitPropagateLoopC (fuel : Nat) :
    ∀ (vars : Vars) (cs : List Clause) (assigned : Assignment),
      LInvC vars cs [] →
      2 * (dkeys vars).length + 4 ≤ fuel →
      ∃ res F', unitPropagateLoop fuel vars cs assigned = some (res, F') ∧
        (∀ e, res = Except.error e → e = PErr.unsat) ∧
        (∀ Af, res = Except.ok Af →
          LInvC F'.variables' F'.clauses [] ∧ dkeys F'.variables' ⊆ dkeys vars ∧
          (F'.clauses = [] ∨ findUnit F'.clauses = Option.none)) ∧
        (∀ σ : Nat → Bool, (∀ c ∈ cs, satClause σ c) →
          ∃ Af, res = Except.ok Af ∧
            ∃ σ' : Nat → Bool, (∀ c ∈ F'.clauses, satClause σ' c) ∧
              (∀ u, u ∉ dkeys vars → σ' u = σ u)) := by
  induction fuel with
  | zero =>
    intro vars cs assigned inv hfuel
    omega
  | succ f ih =>
    intro vars cs assigned inv hfuel
    rw [unitPropagateLoop]
    by_cases hcs : cs = []
    · rw [if_pos hcs]
      refine ⟨Except.ok assigned, ⟨vars, cs⟩, rfl,
        fun e he => Except.noConfusion he, ?_, ?_⟩
      · intro Af _
        exact ⟨inv, fun a ha => ha, Or.inl hcs⟩
      · intro σ hsat
        exact ⟨assigned, rfl, σ, hsat, fun u _ => rfl⟩
    · rw [if_neg hcs]
      rcases hfu : findUnit cs with _ | u
      · refine ⟨Except.ok assigned, ⟨vars, cs⟩, rfl,
          fun e he => Except.noConfusion he, ?_, ?_⟩
        · intro Af _
          exact ⟨inv, fun a ha => ha, Or.inr hfu⟩
        · intro σ hsat
          exact ⟨assigned, rfl, σ, hsat, fun u _ => rfl⟩
      · rcases u with _ | ⟨v, p⟩
        · -- an empty clause is found first: contradiction raise
          refine ⟨Except.error PErr.unsat, ⟨vars, cs⟩, rfl, ?_,
            fun Af hAf => Except.noConfusion hAf, ?_⟩
          · intro e he
            injection he with h
            exact h.symm
          · intro σ hsat
            exfalso
            rcases findUnit_empty cs hfu with ⟨c, hc, hce⟩
            rcases hsat c hc with ⟨u1, bu, hcu, _⟩
            rw [hce] at hcu
            exact Option.noConfusion hcu
        · -- a unit clause (v, p) is propagated
          have hσvp : ∀ σ : Nat → Bool, (∀ c ∈ cs, satClause σ c) → σ v = p := by
            intro σ hsat
            rcases findUnit_mem cs v p hfu with ⟨c, hc, hce⟩
            rcases hsat c hc with ⟨u1, bu, hcu, hσu⟩
            rw [hce] at hcu
            rw [show (dget [(v, p)] u1 : Option Bool) =
              if v = u1 then some p else Option.none from rfl] at hcu
            by_cases h1 : v = u1
            · rw [if_pos h1] at hcu
              have hbu : bu = p := (Option.some.inj hcu).symm
              subst hbu
              rw [← h1] at hσu
              exact hσu
            · rw [if_neg h1] at hcu
              exact Option.noConfusion hcu
          have hvc : v ∈ dkeys vars := by
            rcases findUnit_mem cs v p hfu with ⟨c, hc, hce⟩
            have hvk : v ∈ dkeys c.variables' := by
              rw [hce]
              exact List.mem_cons_self _ _
            exact dmem_iff_mem_dkeys.mp (inv.covers c hc v hvk)
          rcases propagateSingleC f vars cs (some v) (some p) [] inv.varsNodup
            inv.clsWF inv.covers inv.boundN inv.boundP
            (fun v' _ => ⟨p, rfl⟩) (by omega) with
            ⟨res0, F0, hrec0, herr0, hok0, hσ0⟩
          dsimp only
          rw [hrec0]
          rcases res0 with e0 | prop
          · dsimp only
            refine ⟨Except.error e0, F0, rfl, ?_,
              fun Af hAf => Except.noConfusion hAf, ?_⟩
            · intro e' he'
              injection he' with h
              rw [← h]
              exact herr0 e0 rfl
            · intro σ hsat
              exfalso
              rcases hσ0 σ hsat (fun v' b hv' hb => by
                rw [Option.some.inj hv'.symm]
                rw [← Option.some.inj hb]
                exact hσvp σ hsat) with ⟨Af, hres, -⟩
              exact Except.noConfusion hres
          · dsimp only
            rcases hok0 prop rfl with ⟨inv0, sub0, qexcl0, hcls0⟩
            by_cases hF0 : F0.clauses = []
            · rcases f with _ | f2
              · omega
              rw [unitPropagateLoop, if_pos hF0]
              refine ⟨Except.ok (dmerge assigned prop),
                ⟨F0.variables', F0.clauses⟩, rfl,
                fun e he => Except.noConfusion he, ?_, ?_⟩
              · intro Af _
                exact ⟨inv0, sub0, Or.inl hF0⟩
              · intro σ hsat
                rcases hσ0 σ hsat (fun v' b hv' hb => by
                  rw [Option.some.inj hv'.symm]
                  rw [← Option.some.inj hb]
                  exact hσvp σ hsat) with ⟨Af0, _, σ1, hs1, hout1⟩
                exact ⟨dmerge assigned prop, rfl, σ1, hs1, hout1⟩
            · have hlen : (dkeys F0.variables').length < (dkeys vars).length :=
                length_lt_of_ssubset inv0.varsNodup sub0 v hvc
                  (qexcl0 v rfl hF0)
              rcases ih F0.variables' F0.clauses (dmerge assigned prop) inv0
                (by omega) with ⟨res, F', hrec, herr, hok, hσ⟩
              refine ⟨res, F', hrec, herr, ?_, ?_⟩
              · intro Af hAf
                rcases hok Af hAf with ⟨c1, c2, c3⟩
                exact ⟨c1, fun a ha => sub0 (c2 ha), c3⟩
              · intro σ hsat
                rcases hσ0 σ hsat (fun v' b hv' hb => by
                  rw [Option.some.inj hv'.symm]
                  rw [← Option.some.inj hb]
                  exact hσvp σ hsat) with ⟨Af0, _, σ1, hs1, hout1⟩
                rcases hσ σ1 hs1 with ⟨Af, hres, σ2, hs2, hout2⟩
                refine ⟨Af, hres, σ2, hs2, ?_⟩
                intro u hu
                have hu1 : u ∉ dkeys F0.variables' := fun hc => hu (sub0 hc)
                rw [hout2 u hu1, hout1 u hu]

theorem dynamic_largest_none {vs : Vars}
    (h : dynamic_largest vs = (Option.none, Option.none)) :
    ∀ q ∈ vs, q.2.2 + q.2.1 ≤ 0 := by
  have aux : ∀ (l : Vars) (acc : Int × (Option Nat × Option Bool)),
      (l.foldl (fun (acc : Int × (Option Nat × Option Bool)) q =>
        if q.2.2 + q.2.1 > acc.1 then
          (acc.1, (some q.1, some (decide (q.2.2 > q.2.1))))
        else acc) acc).2 = (Option.none, Option.none) →
      acc.2 = (Option.none, Option.none) ∧ ∀ q ∈ l, q.2.2 + q.2.1 ≤ acc.1 := by
    intro l
    induction l with
    | nil =>
      intro acc hacc
      exact ⟨hacc, fun q hq => absurd hq (List.not_mem_nil q)⟩
    | cons p t ih =>
      intro acc hacc
      rw [List.foldl_cons] at hacc
      by_cases hcond : p.2.2 + p.2.1 > acc.1
      · rw [if_pos hcond] at hacc
        rcases ih _ hacc with ⟨habs, -⟩
        exact absurd (congrArg Prod.fst habs)
          (fun hc => Option.noConfusion hc)
      · rw [if_neg hcond] at hacc
        rcases ih _ hacc with ⟨h1, h2⟩
        refine ⟨h1, ?_⟩
        intro q hq
        rcases List.mem_cons.mp hq with rfl | hq1
        · omega
        · exact h2 q hq1
  rw [dynamic_largest] at h
  intro q hq
  have h0 := (aux vs ((0 : Int), (Option.none, Option.none)) h).2 q hq
  exact h0

theorem findUnit_none_nonempty :
    ∀ (cs : List Clause), findUnit cs = Option.none →
      ∀ c ∈ cs, (c.variables' : PyDict Nat Bool) ≠ [] := by
  intro cs
  induction cs with
  | nil =>
    intro _ c hc
    exact absurd hc (List.not_mem_nil c)
  | cons c rest ih =>
    intro h c' hc'
    rw [findUnit] at h
    rcases hv : (c.variables' : PyDict Nat Bool) with _ | ⟨q1, rest1⟩
    · rw [hv] at h
      cases h
    · rw [hv] at h
      rcases rest1 with _ | ⟨q2, rest2⟩
      · rcases q1 with ⟨v, p⟩
        dsimp only at h
        cases h
      · dsimp only at h
        rcases List.mem_cons.mp hc' with rfl | hc1
        · rw [hv]
          intro hcx
          cases hcx
        · exact ih h c' hc1

/-- The search driver under the loop invariant, with recursion fuel
exceeding the number of indexed variables and propagation fuel exceeding
twice that number: `dpll` always returns a value; an error is only ever
the contradiction signal (never a key error and never fuel exhaustion);
and on a satisfiable clause set the result is a success. -/
theorem dpllC : ∀ (rfuel pfuel : Nat) (F : Cnf),
    LInvC F.variables' F.clauses [] →
    (dkeys F.variables').length < rfuel →
    2 * (dkeys F.variables').length + 4 ≤ pfuel →
    ∃ res, dpll rfuel pfuel F = some res ∧
      (∀ e, res = Except.error e → e = PErr.unsat) ∧
      (∀ σ : Nat → Bool, (∀ c ∈ F.clauses, satClause σ c) →
        ∃ D, res = Except.ok D) := by
  intro rfuel
  induction rfuel with
  | zero =>
    intro pfuel F inv hrf hpf
    omega
  | succ rf ih =>
    intro pfuel F inv hrf hpf
    rw [dpll]
    rcases unitPropagateLoopC pfuel F.variables' F.clauses [] inv hpf with
      ⟨resU, F1, hrecU, herrU, hokU, hσU⟩
    have hcu : Cnf.unit_propagate pfuel F = some (resU, F1) := hrecU
    rw [hcu]
    rcases resU with eU | variables1
    · dsimp only
      refine ⟨Except.error eU, rfl, ?_, ?_⟩
      · intro e he
        injection he with h
        rw [← h]
        exact herrU eU rfl
      · intro σ hsat
        exfalso
        rcases hσU σ hsat with ⟨Af, hres, -⟩
        exact Except.noConfusion hres
    · dsimp only
      rcases hokU variables1 rfl with ⟨inv1, sub1, hfu1⟩
      have hlen1 : (dkeys F1.variables').length ≤ (dkeys F.variables').length :=
        (List.subperm_of_subset inv1.varsNodup sub1).length_le
      rcases hdl : dynamic_largest F1.variables' with ⟨var, assume⟩
      dsimp only
      rcases dynamic_largest_cases F1.variables' with hcase | ⟨w, b, hcase, hwmem1⟩
      · -- no variable with a positive occurrence sum: the guess is (None, None)
        rw [hdl] at hcase
        have hv1 : var = Option.none := congrArg Prod.fst hcase
        have hv2 : assume = Option.none := congrArg Prod.snd hcase
        subst hv1
        subst hv2
        have hcontra : F1.clauses ≠ [] → False := by
          intro hne
          rcases hfu1 with h1 | h1
          · exact hne h1
          · rcases List.exists_mem_of_ne_nil F1.clauses hne with ⟨c, hc⟩
            have hcne := findUnit_none_nonempty F1.clauses h1 c hc
            rcases hcv : (c.variables' : PyDict Nat Bool) with _ | ⟨⟨k0, b0⟩, crest⟩
            · exact hcne hcv
            · have hk0 : (k0, b0) ∈ c.variables' := by
                rw [hcv]
                exact List.mem_cons_self _ _
              have hget : dget c.variables' k0 = some b0 :=
                dget_eq_some_of_mem (inv1.clsWF c hc) hk0
              have h1le := countLit_one_le hc hget
              have hk0v : k0 ∈ dkeys F1.variables' :=
                dmem_iff_mem_dkeys.mp (inv1.covers c hc k0
                  (List.mem_map_of_mem Prod.fst hk0))
              rcases hgv : dget F1.variables' k0 with _ | ⟨n0, p0⟩
              · rw [mem_dkeys_iff_dget, hgv] at hk0v
                simp at hk0v
              · have hqmem := mem_of_dget_eq_some hgv
                have hzero : p0 + n0 ≤ 0 := dynamic_largest_none hdl _ hqmem
                have hbn0 : countLit F1.clauses k0 false ≤ n0 :=
                  inv1.boundN _ hqmem
                have hbp0 : countLit F1.clauses k0 true ≤ p0 :=
                  inv1.boundP _ hqmem
                have hn1 := countLit_nonneg F1.clauses k0 false
                have hn2 := countLit_nonneg F1.clauses k0 true
                cases b0
                · omega
                · omega
        rcases propagateSingleC pfuel F1.variables' F1.clauses Option.none
          Option.none [] inv1.varsNodup inv1.clsWF inv1.covers inv1.boundN
          inv1.boundP (fun v hv => Option.noConfusion hv) (by omega) with
          ⟨res2, F2, hrec2, herr2, hok2, hσ2⟩
        have hcp2 : Cnf.propagate pfuel F1 [(Option.none, Option.none)] =
            some (res2, F2) := hrec2
        rw [hcp2]
        rcases res2 with e2 | prop2
        · have he2 : e2 = PErr.unsat := herr2 e2 rfl
          subst he2
          dsimp only
          -- the opposite branch: propagate {None: True}
          rcases propagateSingleC pfuel F1.variables' F1.clauses Option.none
            (pyNot Option.none) [] inv1.varsNodup inv1.clsWF inv1.covers
            inv1.boundN inv1.boundP (fun v hv => Option.noConfusion hv)
            (by omega) with ⟨res3, F3, hrec3, herr3, hok3, hσ3⟩
          have hcp3 : Cnf.propagate pfuel F1 [(Option.none, pyNot Option.none)] =
              some (res3, F3) := hrec3
          rw [hcp3]
          rcases res3 with e3 | prop3
          · dsimp only
            refine ⟨Except.error e3, rfl, ?_, ?_⟩
            · intro e he
              injection he with h
              rw [← h]
              exact herr3 e3 rfl
            · intro σ hsat
              exfalso
              rcases hσU σ hsat with ⟨Af, -, σ1, hs1, -⟩
              rcases hσ2 σ1 hs1 (fun v bx hv => Option.noConfusion hv) with
                ⟨Af2, habs, -⟩
              exact Except.noConfusion habs
          · dsimp only
            rcases hok3 prop3 rfl with ⟨inv3, sub3, qexcl3, hcls3⟩
            by_cases hF3 : F3.clauses = []
            · rw [if_pos hF3]
              exact ⟨Except.ok (dmerge prop3 variables1), rfl,
                fun e he => Except.noConfusion he,
                fun σ _ => ⟨dmerge prop3 variables1, rfl⟩⟩
            · exact absurd (fun h1 => hF3 (hcls3 h1)) hcontra
        · dsimp only
          rcases hok2 prop2 rfl with ⟨inv2, sub2, qexcl2, hcls2⟩
          by_cases hF2 : F2.clauses = []
          · rw [if_pos hF2]
            exact ⟨Except.ok (dmerge prop2 variables1), rfl,
              fun e he => Except.noConfusion he,
              fun σ _ => ⟨dmerge prop2 variables1, rfl⟩⟩
          · exact absurd (fun h1 => hF2 (hcls2 h1)) hcontra
      · -- the guess is a real literal (w, b)
        rw [hdl] at hcase
        have hv1 : var = some w := congrArg Prod.fst hcase
        have hv2 : assume = some b := congrArg Prod.snd hcase
        subst hv1
        subst hv2
        -- the second (opposite-parity) branch, shared by both failure paths
        have hsecond : ∃ res2 : Except PErr Assignment,
            ((match Cnf.propagate pfuel F1 [(some w, pyNot (some b))] with
              | Option.none => Option.none
              | some (Except.error e, _) => some (Except.error e)
              | some (Except.ok propagated, F3) =>
                if F3.clauses = [] then
                  some (Except.ok (dmerge propagated variables1))
                else
                  match dpll rf pfuel F3 with
                  | Option.none => Option.none
                  | some (Except.error e) => some (Except.error e)
                  | some (Except.ok B) =>
                    some (Except.ok (dmerge variables1 (dmerge B propagated)))) :
              Option (Except PErr Assignment)) = some res2 ∧
            (∀ e, res2 = Except.error e → e = PErr.unsat) ∧
            (∀ σ1 : Nat → Bool, (∀ c ∈ F1.clauses, satClause σ1 c) →
              σ1 w = !b → ∃ D, res2 = Except.ok D) := by
          rcases propagateSingleC pfuel F1.variables' F1.clauses (some w)
            (pyNot (some b)) [] inv1.varsNodup inv1.clsWF inv1.covers
            inv1.boundN inv1.boundP (fun v _ => ⟨!b, rfl⟩) (by omega) with
            ⟨res3, F3, hrec3, herr3, hok3, hσ3⟩
          have hcp3 : Cnf.propagate pfuel F1 [(some w, pyNot (some b))] =
              some (res3, F3) := hrec3
          rw [hcp3]
          rcases res3 with e3 | prop3
          · dsimp only
            refine ⟨Except.error e3, rfl, ?_, ?_⟩
            · intro e he
              injection he with h
              rw [← h]
              exact herr3 e3 rfl
            · intro σ1 hs1 hb1
              exfalso
              rcases hσ3 σ1 hs1 (fun v' b' hv' hb' => by
                have hvw : v' = w := Option.some.inj hv'.symm
                subst hvw
                have hbb : (!b) = b' := Option.some.inj hb'
                rw [← hbb]
                exact hb1) with ⟨Af, habs, -⟩
              exact Except.noConfusion habs
          · dsimp only
            rcases hok3 prop3 rfl with ⟨inv3, sub3, qexcl3, -⟩
            by_cases hF3 : F3.clauses = []
            · rw [if_pos hF3]
              exact ⟨Except.ok (dmerge prop3 variables1), rfl,
                fun e he => Except.noConfusion he,
                fun σ1 _ _ => ⟨dmerge prop3 variables1, rfl⟩⟩
            · rw [if_neg hF3]
              have hlen3 : (dkeys F3.variables').length <
                  (dkeys F1.variables').length :=
                length_lt_of_ssubset inv3.varsNodup sub3 w hwmem1
                  (qexcl3 w rfl hF3)
              rcases ih pfuel F3 inv3 (by omega) (by omega) with
                ⟨res4, hrec4, herr4, hσ4⟩
              rw [hrec4]
              rcases res4 with e4 | B
              · dsimp only
                refine ⟨Except.error e4, rfl, ?_, ?_⟩
                · intro e he
                  injection he with h
                  rw [← h]
                  exact herr4 e4 rfl
                · intro σ1 hs1 hb1
                  exfalso
                  rcases hσ3 σ1 hs1 (fun v' b' hv' hb' => by
                    have hvw : v' = w := Option.some.inj hv'.symm
                    subst hvw
                    have hbb : (!b) = b' := Option.some.inj hb'
                    rw [← hbb]
                    exact hb1) with ⟨Af, -, σ3, hs3, -⟩
                  rcases hσ4 σ3 hs3 with ⟨D, habs⟩
                  exact Except.noConfusion habs
              · dsimp only
                exact ⟨Except.ok (dmerge variables1 (dmerge B prop3)), rfl,
                  fun e he => Except.noConfusion he,
                  fun σ1 _ _ => ⟨dmerge variables1 (dmerge B prop3), rfl⟩⟩
        rcases hsecond with ⟨resS, hsecEq, hsecErr, hsecσ⟩
        rcases propagateSingleC pfuel F1.variables' F1.clauses (some w) (some b)
          [] inv1.varsNodup inv1.clsWF inv1.covers inv1.boundN inv1.boundP
          (fun v _ => ⟨b, rfl⟩) (by omega) with
          ⟨res2, F2, hrec2, herr2, hok2, hσ2⟩
        have hcp2 : Cnf.propagate pfuel F1 [(some w, some b)] =
            some (res2, F2) := hrec2
        rw [hcp2]
        rcases res2 with e2 | prop2
        · have he2 : e2 = PErr.unsat := herr2 e2 rfl
          subst he2
          dsimp only
          refine ⟨resS, hsecEq, hsecErr, ?_⟩
          intro σ hsat
          rcases hσU σ hsat with ⟨Af, -, σ1, hs1, -⟩
          by_cases hσw : σ1 w = b
          · exfalso
            rcases hσ2 σ1 hs1 (fun v' b' hv' hb' => by
              have hvw : v' = w := Option.some.inj hv'.symm
              subst hvw
              have hbb : b = b' := Option.some.inj hb'
              rw [← hbb]
              exact hσw) with ⟨Af2, habs, -⟩
            exact Except.noConfusion habs
          · have hb1 : σ1 w = !b := by
              cases hx : σ1 w
              · cases b
                · exact absurd hx hσw
                · rfl
              · cases b
                · rfl
                · exact absurd hx hσw
            exact hsecσ σ1 hs1 hb1
        · dsimp only
          rcases hok2 prop2 rfl with ⟨inv2, sub2, qexcl2, -⟩
          by_cases hF2 : F2.clauses = []
          · rw [if_pos hF2]
            exact ⟨Except.ok (dmerge prop2 variables1), rfl,
              fun e he => Except.noConfusion he,
              fun σ _ => ⟨dmerge prop2 variables1, rfl⟩⟩
          · rw [if_neg hF2]
            have hlen2 : (dkeys F2.variables').length <
                (dkeys F1.variables').length :=
              length_lt_of_ssubset inv2.varsNodup sub2 w hwmem1
                (qexcl2 w rfl hF2)
            rcases ih pfuel F2 inv2 (by omega) (by omega) with
              ⟨res4, hrec4, herr4, hσ4⟩
            rw [hrec4]
            rcases res4 with e4 | B
            · have he4 : e4 = PErr.unsat := herr4 e4 rfl
              subst he4
              dsimp only
              refine ⟨resS, hsecEq, hsecErr, ?_⟩
              intro σ hsat
              rcases hσU σ hsat with ⟨Af, -, σ1, hs1, -⟩
              by_cases hσw : σ1 w = b
              · exfalso
                rcases hσ2 σ1 hs1 (fun v' b' hv' hb' => by
                  have hvw : v' = w := Option.some.inj hv'.symm
                  subst hvw
                  have hbb : b = b' := Option.some.inj hb'
                  rw [← hbb]
                  exact hσw) with ⟨Af2, -, σ2, hs2, -⟩
                rcases hσ4 σ2 hs2 with ⟨D, habs⟩
                exact Except.noConfusion habs
              · have hb1 : σ1 w = !b := by
                  cases hx : σ1 w
                  · cases b
                    · exact absurd hx hσw
                    · rfl
                  · cases b
                    · rfl
                    · exact absurd hx hσw
                exact hsecσ σ1 hs1 hb1
            · dsimp only
              exact ⟨Except.ok (dmerge variables1 (dmerge B prop2)), rfl,
                fun e he => Except.noConfusion he,
                fun σ _ => ⟨dmerge variables1 (dmerge B prop2), rfl⟩⟩

/-- Every entry of the pure-variable scan stores a boolean forced value
for a variable of the index: `False` for a variable with no positive
occurrences, else `True` for one with no negative occurrences. -/
theorem pureVariables_lookup {vs : Vars} (hnd : (dkeys vs).Nodup) :
    ∀ w val, dget (pureVariables vs) (some w) = some val →
      ∃ b, val = some b ∧ ∃ n p, dget vs w = some (n, p) ∧
        ((b = false ∧ p = 0) ∨ (b = true ∧ n = 0)) := by
  have aux : ∀ (l : Vars) (acc : Assignment) (w : Nat) (val : Option Bool),
      dget (l.foldl (fun q p =>
        if p.2.2 = 0 then dinsert q (some p.1) (some false)
        else if p.2.1 = 0 then dinsert q (some p.1) (some true)
        else q) acc) (some w) = some val →
      dget acc (some w) = some val ∨
      ∃ q ∈ l, q.1 = w ∧ ((q.2.2 = 0 ∧ val = some false) ∨
        (q.2.2 ≠ 0 ∧ q.2.1 = 0 ∧ val = some true)) := by
    intro l
    induction l with
    | nil =>
      intro acc w val h
      exact Or.inl h
    | cons p t ih =>
      intro acc w val h
      rw [List.foldl_cons] at h
      rcases ih _ w val h with h1 | ⟨q, hq, hq1, hq2⟩
      · by_cases hc1 : p.2.2 = 0
        · rw [if_pos hc1] at h1
          by_cases hw : (some w : Option Nat) = some p.1
          · rw [hw, dget_dinsert_self] at h1
            refine Or.inr ⟨p, List.mem_cons_self _ _,
              (Option.some.inj hw).symm, Or.inl ⟨hc1, (Option.some.inj h1).symm⟩⟩
          · rw [dget_dinsert_ne _ _ _ _ hw] at h1
            exact Or.inl h1
        · rw [if_neg hc1] at h1
          by_cases hc2 : p.2.1 = 0
          · rw [if_pos hc2] at h1
            by_cases hw : (some w : Option Nat) = some p.1
            · rw [hw, dget_dinsert_self] at h1
              refine Or.inr ⟨p, List.mem_cons_self _ _,
                (Option.some.inj hw).symm,
                Or.inr ⟨hc1, hc2, (Option.some.inj h1).symm⟩⟩
            · rw [dget_dinsert_ne _ _ _ _ hw] at h1
              exact Or.inl h1
          · rw [if_neg hc2] at h1
            exact Or.inl h1
      · exact Or.inr ⟨q, List.mem_cons_of_mem _ hq, hq1, hq2⟩
  intro w val h
  rw [pureVariables] at h
  rcases aux vs [] w val h with h1 | ⟨q, hq, rfl, hcases⟩
  · cases h1
  · have hqm : (q.1, q.2) ∈ vs := by
      rw [Prod.mk.eta]
      exact hq
    have hget : dget vs q.1 = some q.2 := dget_eq_some_of_mem hnd hqm
    rcases hcases with ⟨h22, rfl⟩ | ⟨h22, h21, rfl⟩
    · exact ⟨false, rfl, q.2.1, q.2.2, by rw [Prod.mk.eta]; exact hget,
        Or.inl ⟨rfl, h22⟩⟩
    · exact ⟨true, rfl, q.2.1, q.2.2, by rw [Prod.mk.eta]; exact hget,
        Or.inr ⟨rfl, h21⟩⟩

/-- The pure-literal repair: flipping every pure variable of a
count-exact formula to its forced polarity preserves satisfaction of
the clause set and makes the valuation agree with the scanned queue. -/
theorem pureRepair (F : Cnf) (hinv : CountsInv F)
    (hvnd : (dkeys F.variables').Nodup) :
    ∀ σ : Nat → Bool, (∀ c ∈ F.clauses, satClause σ c) →
      ∃ σ' : Nat → Bool, (∀ c ∈ F.clauses, satClause σ' c) ∧
        (∀ w b, dget (pureVariables F.variables') (some w) = some (some b) →
          σ' w = b) := by
  intro σ hsat
  refine ⟨fun u => match dget (pureVariables F.variables') (some u) with
    | some (some b) => b
    | _ => σ u, ?_, ?_⟩
  · intro c hc
    rcases hsat c hc with ⟨u, bu, hcu, hσu⟩
    rcases hpu : dget (pureVariables F.variables') (some u) with _ | val
    · refine ⟨u, bu, hcu, ?_⟩
      show (match dget (pureVariables F.variables') (some u) with
        | some (some b) => b
        | _ => σ u) = bu
      rw [hpu]
      exact hσu
    · rcases pureVariables_lookup hvnd u val hpu with
        ⟨b, rfl, n₀, p₀, hv₀, hcases⟩
      have hbu : bu = b := by
        by_contra hne
        have hbub : bu = !b := by
          cases bu <;> cases b <;> simp_all
        subst hbub
        have h1le := countLit_one_le hc hcu
        have hq := mem_of_dget_eq_some hv₀
        have he1 : n₀ = countLit F.clauses u false := (hinv.1 _ hq).1
        have he2 : p₀ = countLit F.clauses u true := (hinv.1 _ hq).2
        rcases hcases with ⟨hb, hp⟩ | ⟨hb, hn⟩
        · subst hb
          have hred : (!false) = true := rfl
          rw [hred] at h1le
          omega
        · subst hb
          have hred : (!true) = false := rfl
          rw [hred] at h1le
          omega
      subst hbu
      refine ⟨u, bu, hcu, ?_⟩
      show (match dget (pureVariables F.variables') (some u) with
        | some (some b) => b
        | _ => σ u) = bu
      rw [hpu]
  · intro w b hw
    show (match dget (pureVariables F.variables') (some w) with
      | some (some b) => b
      | _ => σ w) = b
    rw [hw]

/-- C2: completeness and UNSAT signalling of `Solver.solve`.  On a
formula satisfying the exact occurrence invariant (duplicate-free key
lists, positive counters, as `Cnf.from_list` builds), with recursion
fuel exceeding the variable count and propagation fuel at least
`3·N + 4`, `solve` always returns a plain result — the internal
contradiction signal never escapes, no key error arises, and the fuel
suffices — and the result is the UNSAT sentinel `{0: 1}` exactly when
the clause set is unsatisfiable: a satisfiable formula yields a
non-sentinel assignment map, an unsatisfiable one yields the sentinel. -/
theorem C2_solve_completeness (rfuel pfuel : Nat) (F : Cnf)
    (hinv : CountsInv F)
    (hvnd : (dkeys F.variables').Nodup)
    (hcwf : ∀ c ∈ F.clauses, (dkeys c.variables').Nodup)
    (hpos : ∀ q ∈ F.variables', 0 < q.2.1 + q.2.2)
    (hrf : (dkeys F.variables').length < rfuel)
    (hpf : 3 * (dkeys F.variables').length + 4 ≤ pfuel) :
    ∃ R : SolveResult, solve rfuel pfuel F = some (Except.ok R) ∧
      ((∃ σ : Nat → Bool, ∀ c ∈ F.clauses, satClause σ c) ↔ R ≠ sentinel) := by
  have inv0 : LInvC F.variables' F.clauses (pureVariables F.variables') := by
    refine ⟨hvnd, hcwf, hinv.2, fun q hq => le_of_eq (hinv.1 q hq).1.symm,
      fun q hq => le_of_eq (hinv.1 q hq).2.symm,
      (pureVariables_facts F.variables').1, ?_, ?_⟩
    · intro w val hw
      rcases pureVariables_lookup hvnd w val hw with ⟨b, hval, -⟩
      exact ⟨b, hval⟩
    · intro w b hw n p hv
      rcases pureVariables_lookup hvnd w (some b) hw with
        ⟨b', hval, n₀, p₀, hv₀, hcases⟩
      have hb : b' = b := (Option.some.inj hval).symm
      subst hb
      rw [hv] at hv₀
      have hnp := Option.some.inj hv₀
      have he1 : n = n₀ := congrArg Prod.fst hnp
      have he2 : p = p₀ := congrArg Prod.snd hnp
      rcases hcases with ⟨hb, hp⟩ | ⟨hb, hn⟩
      · subst hb
        exact ⟨fun hc => (nomatch hc), fun _ => Or.inl (by omega)⟩
      · subst hb
        exact ⟨fun _ => Or.inl (by omega), fun hc => (nomatch hc)⟩
  have hphi0 : phiQ F.variables' (pureVariables F.variables') < pfuel := by
    have h1 : (dkeys (pureVariables F.variables')).length =
        (pureVariables F.variables').length := by
      simp [dkeys]
    have hsubk : dkeys (pureVariables F.variables') ⊆
        List.map some (dkeys F.variables') := by
      intro k hk
      rcases (pureVariables_facts F.variables').2 k hk with ⟨w, rfl, hw⟩
      exact List.mem_map_of_mem some hw
    have h2 := (List.subperm_of_subset (pureVariables_facts F.variables').1
      hsubk).length_le
    have h3 : (List.map some (dkeys F.variables')).length =
        (dkeys F.variables').length := by
      simp
    have h4 : unq F.variables' (pureVariables F.variables') ≤
        (dkeys F.variables').length := by
      rw [unq]
      exact List.countP_le_length _
    rw [phiQ]
    omega
  rcases propagateLoopC pfuel F.variables' F.clauses
    (pureVariables F.variables') [] inv0 hphi0 with
    ⟨res1, F1, hrec1, herr1, hok1, hσ1⟩
  have hcp1 : Cnf.propagate pfuel F (pureVariables F.variables') =
      some (res1, F1) := hrec1
  rw [solve]
  rw [hcp1]
  rcases res1 with e1 | variables1
  · have he1 : e1 = PErr.unsat := herr1 e1 rfl
    subst he1
    dsimp only
    refine ⟨sentinel, rfl, ?_⟩
    constructor
    · rintro ⟨σ, hsat⟩
      exfalso
      rcases pureRepair F hinv hvnd σ hsat with ⟨σ', hs', hcons'⟩
      rcases hσ1 σ' hs' hcons' with ⟨Af, habs, -⟩
      exact Except.noConfusion habs
    · intro hne
      exact absurd rfl hne
  · dsimp only
    rcases hok1 variables1 rfl with ⟨inv1, sub1, -, -⟩
    have hlen1 : (dkeys F1.variables').length ≤ (dkeys F.variables').length :=
      (List.subperm_of_subset inv1.varsNodup sub1).length_le
    rcases dpllC rfuel pfuel F1 inv1 (by omega) (by omega) with
      ⟨res2, hrec2, herr2, hσ2⟩
    rw [hrec2]
    rcases res2 with e2 | D
    · have he2 : e2 = PErr.unsat := herr2 e2 rfl
      subst he2
      dsimp only
      refine ⟨sentinel, rfl, ?_⟩
      constructor
      · rintro ⟨σ, hsat⟩
        exfalso
        rcases pureRepair F hinv hvnd σ hsat with ⟨σ', hs', hcons'⟩
        rcases hσ1 σ' hs' hcons' with ⟨Af, -, σ1, hs1, -⟩
        rcases hσ2 σ1 hs1 with ⟨D0, habs⟩
        exact Except.noConfusion habs
      · intro hne
        exact absurd rfl hne
    · dsimp only
      refine ⟨encode (dmerge D variables1), rfl, ?_⟩
      constructor
      · intro _
        exact encode_ne_sentinel _
      · intro hne
        have hsolve : solve rfuel pfuel F =
            some (Except.ok (encode (dmerge D variables1))) := by
          rw [solve]
          rw [hcp1]
          dsimp only
          rw [hrec2]
        have hall := solve_ok_satisfies rfuel pfuel F _ hsolve hne hinv hvnd
          hcwf hpos
        refine ⟨fun u => match dget (encode (dmerge D variables1)) (some u) with
          | some (PVal.vb x) => x
          | _ => false, ?_⟩
        intro c hc
        rcases hall c hc with ⟨w, b, hw, hr⟩
        refine ⟨w, b, hw, ?_⟩
        show (match dget (encode (dmerge D variables1)) (some w) with
          | some (PVal.vb x) => x
          | _ => false) = b
        rw [hr]

/-- C2, witness: on the satisfiable formula `(1 ∨ 2) ∧ (1 ∨ 3)` with
three declared variables, the completeness theorem instantiated at
recursion fuel 5 and propagation fuel 13 yields a plain successful
result whose sentinel-freeness is equivalent to satisfiability. -/
theorem C2_solve_completeness_witness :
    ∃ R : SolveResult,
      solve 5 13 ⟨[(1, ((0 : Int), (2 : Int))), (2, ((0 : Int), (1 : Int))),
        (3, ((0 : Int), (1 : Int)))],
        [⟨[(1, true), (2, true)]⟩, ⟨[(1, true), (3, true)]⟩]⟩ =
        some (Except.ok R) ∧
      ((∃ σ : Nat → Bool,
        ∀ c ∈ ([⟨[(1, true), (2, true)]⟩, ⟨[(1, true), (3, true)]⟩] :
          List Clause), satClause σ c) ↔ R ≠ sentinel) :=
  C2_solve_completeness 5 13 ⟨[(1, ((0 : Int), (2 : Int))),
      (2, ((0 : Int), (1 : Int))), (3, ((0 : Int), (1 : Int)))],
      [⟨[(1, true), (2, true)]⟩, ⟨[(1, true), (3, true)]⟩]⟩
    (by decide) (by decide) (by decide) (by decide) (by decide) (by decide)

end SatSolver
